import Mathlib

/-!
# msfs_logger: checksum engine, trailer verification and document composition

A shallow embedding of `msfs_logger.cpp`.  C strings are modelled as `List Char`
(the characters before the terminating NUL), `int` values that provably stay
small and non-negative are modelled as `Nat`, other integers as `Int` with the
truncating division and remainder of C, `double` values as exact rationals.
A text file is the sequence of characters the C runtime delivers to `fgets` and
accepts from `fprintf`; what is written is what is read back.
-/

namespace MsfsLogger

/-! ## Checksum engine (source lines 177-236) -/

/-- Length of the checksum string (`CHKSUM_CHARS`). -/
def CHKSUM_CHARS : Nat := 6

/-- Number of characters in `chk_source` and `chk_map` (`CHK_CHARS`). -/
def CHK_CHARS : Nat := 63

/-- The characters that are mapped into the checksum; other characters are ignored. -/
def chk_source : List Char :=
  "0123456789ABCDEFGHIJKLMNOPQRSTUVWXYZ.abcdefghijklmnopqrstuvwxyz".toList

/-- The map table `chk_map`. -/
def chk_map : List Nat :=
  [14,46,51,8,26,2,32,39,29,
   37,4,44,20,61,22,58,16,25,
   60,13,31,53,11,50,6,38,41,
   23,56,17,1,19,45,10,28,15,
   36,9,57,12,49,33,3,24,30,
   62,47,5,43,0,27,52,34,55,
   21,54,59,18,48,35,40,7,42]

/-- Modulo value for the running index (`CHKSUM_MAX_INDEX`). -/
def CHKSUM_MAX_INDEX : Nat := 1987

/-- The checksum accumulator `struct ChksumData { int index; int num[CHKSUM_CHARS]; }`. -/
structure ChksumData where
  index : Nat
  num : List Nat
deriving DecidableEq, Repr

/-- The scan `while (c_pos<CHK_CHARS && chk_source[c_pos]!=c) c_pos++` over the remaining
characters of `chk_source`, started at position `c_pos`. -/
def c_pos_scan (c : Char) : List Char → Nat → Nat
  | [], c_pos => c_pos
  | x :: rest, c_pos => if x = c then c_pos else c_pos_scan c rest (c_pos + 1)

/-- Position of `c` in `chk_source`, or `CHK_CHARS` when `c` is not one of its characters. -/
def find_c_pos (c : Char) : Nat := c_pos_scan c chk_source 0

/-- One pass of the body `num[i] = chk_map[(num[i]+map_num+i) % CHK_CHARS]`. -/
def incr_slot (map_num : Nat) (num : List Nat) (i : Nat) : List Nat :=
  num.set i (chk_map.getD ((num.getD i 0 + map_num + i) % CHK_CHARS) 0)

/-- Incrementally update the checksum given the current character `c` (`incr_chksum`). -/
def incr_chksum (chk_data : ChksumData) (c : Char) : ChksumData :=
  let c_pos := find_c_pos c
  if c_pos = CHK_CHARS then chk_data
  else
    let map_num := chk_map.getD ((c_pos + chk_data.index) % CHK_CHARS) 0
    { index := (chk_data.index + 1) % CHKSUM_MAX_INDEX
      num := (List.range CHKSUM_CHARS).foldl (incr_slot map_num) chk_data.num }

/-- Update the checksum with every character of the string `s` (`chksum_string`). -/
def chksum_string (chk_data : ChksumData) (s : List Char) : ChksumData :=
  s.foldl incr_chksum chk_data

/-- Update the checksum with the `count` bytes of a binary buffer (`chksum_binary`); the
buffer is given as the list of those bytes. -/
def chksum_binary (chk_data : ChksumData) (s : List Char) : ChksumData :=
  s.foldl incr_chksum chk_data

/-- Render `num[]` as the printable checksum (`chksum_to_string`). -/
def chksum_to_string (chk_data : ChksumData) : List Char :=
  (List.range CHKSUM_CHARS).map (fun i => chk_source.getD (chk_data.num.getD i 0 % 36) '0')

/-- The fresh accumulator (`chksum_reset`). -/
def chksum_reset : ChksumData :=
  { index := 1, num := List.range CHKSUM_CHARS }

/-- The printable checksum of a string absorbed into a fresh accumulator. -/
def checksum (s : List Char) : List Char :=
  chksum_to_string (chksum_string chksum_reset s)

/-- A sequence of `chksum_binary` (flag `true`) and `chksum_string` (flag `false`) calls on
one accumulator. -/
def absorb_calls (st : ChksumData) (calls : List (Bool × List Char)) : ChksumData :=
  calls.foldl (fun st ch => if ch.1 then chksum_binary st ch.2 else chksum_string st ch.2) st

/-- The invariant of the accumulator: index below the modulus, six slots, each below 63. -/
def ChksumInv (st : ChksumData) : Prop :=
  st.index < CHKSUM_MAX_INDEX ∧ st.num.length = CHKSUM_CHARS ∧ ∀ v ∈ st.num, v < CHK_CHARS

/-- The 36 characters used to print a checksum: digits followed by upper-case letters. -/
def base36 : List Char := "0123456789ABCDEFGHIJKLMNOPQRSTUVWXYZ".toList

/-! ## Trailer verification (source lines 354-389) -/

/-- Return codes of the checksum routines (`enum CHKSUM_RESULT`). -/
inductive CHKSUM_RESULT where
  | CHKSUM_OK
  | CHKSUM_NOT_FOUND
  | CHKSUM_TOO_SHORT
  | CHKSUM_BAD
  | CHKSUM_FILE_ERROR
deriving DecidableEq, Repr

/-- Max length of an IGC file line or a filename (`MAXBUF`). -/
def MAXBUF : Nat := 1000

/-- The C string held by a buffer: its characters up to the first NUL. -/
def cstr (buf : List Char) : List Char := buf.takeWhile (fun c => c != '\x00')

/-- The character transfer of `fgets`: at most `n` characters are taken from the stream and
the transfer stops after a newline.  Returns the characters stored and the rest of the
stream. -/
def fgets_scan : Nat → List Char → List Char × List Char
  | 0, file => ([], file)
  | _ + 1, [] => ([], [])
  | n + 1, c :: file =>
    if c = '\n' then ([c], file)
    else ((c :: (fgets_scan n file).1), (fgets_scan n file).2)

/-- The call `fgets(line_buf, MAXBUF, f)` on the unread part of a text stream: `none` (NULL)
at end of file, otherwise the line stored (at most `MAXBUF-1` characters) and the rest. -/
def fgets (file : List Char) : Option (List Char × List Char) :=
  match file with
  | [] => none
  | _ :: _ => some (fgets_scan (MAXBUF - 1) file)

/-- The read loop of `chksum_igc_file`:
`while (fgets(..)!=NULL) { if (line_buf[0]=='G') break; chksum_string(&chk_data, line_buf); }`.
The state is the accumulator and the content of `line_buf`; every pass consumes at least
one character of the stream, so `fuel` above the stream length is never exhausted. -/
def igc_scan : Nat → ChksumData → List Char → List Char → ChksumData × List Char
  | 0, chk_data, line_buf, _ => (chk_data, line_buf)
  | fuel + 1, chk_data, line_buf, file =>
    match fgets file with
    | none => (chk_data, line_buf)
    | some (line, rest) =>
      if line.head? = some 'G' then (chk_data, line)
      else igc_scan fuel (chksum_string chk_data (cstr line)) line rest

/-- The comparison loop `for i<CHKSUM_CHARS: if (chksum[i]!=line_buf[i+1]) return CHKSUM_BAD`. -/
def chksum_matches (chksum line : List Char) : Bool :=
  (List.range CHKSUM_CHARS).all (fun i => chksum.get? i == line.get? (i + 1))

/-- The part of `chksum_igc_file` after a successful `fopen_s`.  `buf0` is the content the
uninitialised `line_buf` happens to have on entry (it is only looked at when the stream is
empty), `file` the characters of the text stream. -/
def chksum_igc_stream (buf0 file : List Char) : CHKSUM_RESULT :=
  let r := igc_scan (file.length + 1) chksum_reset buf0 file
  if r.2.head? ≠ some 'G' then CHKSUM_RESULT.CHKSUM_NOT_FOUND
  else if (cstr r.2).length < CHKSUM_CHARS + 1 then CHKSUM_RESULT.CHKSUM_TOO_SHORT
  else if chksum_matches (chksum_to_string r.1) (cstr r.2) then CHKSUM_RESULT.CHKSUM_OK
  else CHKSUM_RESULT.CHKSUM_BAD

/-- Check the checksum in the 'G' record of an IGC file (`chksum_igc_file`); `file` is
`none` when the file cannot be opened. -/
def chksum_igc_file (buf0 : List Char) (file : Option (List Char)) : CHKSUM_RESULT :=
  match file with
  | none => CHKSUM_RESULT.CHKSUM_FILE_ERROR
  | some content => chksum_igc_stream buf0 content

/-- The successive results of `fgets` on a stream until it returns NULL. -/
def fgets_lines_fuel : Nat → List Char → List (List Char)
  | 0, _ => []
  | fuel + 1, file =>
    match fgets file with
    | none => []
    | some (line, rest) => line :: fgets_lines_fuel fuel rest

/-- The lines of a document as `fgets` delivers them. -/
def fgets_lines (file : List Char) : List (List Char) :=
  fgets_lines_fuel (file.length + 1) file

/-! ## Short file names (source lines 652-672) -/

/-- The backwards scan of `path_to_name`:
`while (i>0 && !found2) { if (path[--i]=='\\') { if (!found1) found1 = true; else found2 = true; } }`
started at index `i`; returns the final value of `i`. -/
def path_scan (path : List Char) : Nat → Bool → Bool → Nat
  | 0, _, _ => 0
  | i + 1, found1, found2 =>
    if found2 then i + 1
    else if path.getD i ' ' = '\\' then
      (if !found1 then path_scan path i true found2 else path_scan path i found1 true)
    else path_scan path i found1 found2

/-- The short name of a file (`path_to_name`); `file_exists` answers `_access_s(path,0)==0`. -/
def path_to_name (file_exists : List Char → Bool) (path : List Char) : List Char :=
  if !file_exists path then "not found".toList
  else path.drop (path_scan path path.length false false + 1)

/-! ## Composition of the IGC document (source lines 695-704, 771-1038) -/

/-- Data of an IGC 'B' record (`struct igc_b`).  A `double` field holds the rational value
of the stored number; `rpm` holds the `INT32` value it was assigned from. -/
structure igc_b where
  zulu_time : Int
  latitude : ℚ
  longitude : ℚ
  altitude : ℚ
  rpm : Int

/-- The start-up data picked up from the simulator (`struct StartupStruct`). -/
structure StartupStruct where
  start_time : Int
  zulu_day : Int
  zulu_month : Int
  zulu_year : Int

/-- The calendar fields of the local time used by `strftime`. -/
structure Tm where
  year : Nat
  mon : Nat
  mday : Nat
  hour : Nat
  min : Nat
  sec : Nat := 0

/-- The global variables read by `igc_write_file`.  `igc_pos` lists the first
`igc_record_count` entries of the array of the same name. -/
structure Session where
  TITLE : List Char
  ATC_ID : List Char
  startup_data : StartupStruct
  flt_pathname : List Char
  air_pathname : List Char
  wx_pathname : List Char
  cmx_pathname : List Char
  cfg_pathname : List Char
  xml_pathname : List Char
  chksum_flt : List Char
  chksum_air : List Char
  chksum_wx : List Char
  chksum_cmx : List Char
  chksum_cfg : List Char
  chksum_xml : List Char
  cx_code : Nat
  wx_code : Nat
  c_wp_count : Nat
  c : List (List Char)
  c_landing : List Char
  igc_pos : List igc_b

/-- What `igc_write_file` obtains from outside the program: which paths exist, whether the
log file can be opened for writing, the local time, and `format_output s`: what the C
library writes for `fprintf(f, s)`, called without further arguments, when the text `s`
used as the format holds a '%' (`none` when the call does not return).  The source fixes
nothing about the last, so it is a parameter. -/
structure Env where
  file_exists : List Char → Bool
  fopen_ok : Bool
  today : Tm
  format_output : List Char → Option (List Char)

/-- The conversion `%0w.pd` of `sprintf_s` for the width `w` equal to the precision `p`:
a minus sign for a negative value, then at least `p` decimal digits. -/
def fmt_d (p : Nat) (v : Int) : List Char :=
  (if v < 0 then ['-'] else []) ++
    List.replicate (p - (Nat.toDigits 10 v.natAbs).length) '0' ++ Nat.toDigits 10 v.natAbs

/-- The conversion `int(x)` of a `double`: truncation towards zero. -/
def c_int (x : ℚ) : Int := if 0 ≤ x then ⌊x⌋ else ⌈x⌉

/-- The text `"%.2f"` gives for `version = 1.18`. -/
def version_text : List Char := "1.18".toList

/-- A line built by `sprintf_s(s,MAXBUF,..)`: it exists when the text fits the buffer. -/
def emit (s : List Char) : Option (List Char) :=
  if s.length < MAXBUF then some s else none

/-- A stored record `c[k]`, handed to the writer as it is. -/
def emit_record (s : List Char) : Option (List Char) :=
  some s

/-- The characters `fprintf(f, s)` appends to the file: the text `s` is the format, so it is
written as it is when it holds no '%', and otherwise as the library expands it. -/
def fprintf (env : Env) (s : List Char) : Option (List Char) :=
  if '%' ∈ s then env.format_output s else some s

/-- The general checksum over the file checksums and the lock labels (`chksum_chksum`). -/
def chksum_chksum (g : Session) (therm_code : Nat) : List Char :=
  let chk_data := chksum_reset
  let chk_data := chksum_string chk_data g.chksum_flt
  let chk_data := chksum_string chk_data g.chksum_air
  let chk_data := chksum_string chk_data g.chksum_wx
  let chk_data := chksum_string chk_data g.chksum_cmx
  let chk_data := chksum_string chk_data g.chksum_cfg
  let chk_data := chksum_string chk_data g.chksum_xml
  let chk_data := chksum_string chk_data
    (if g.cx_code = 0 then "CX UNLOCKED".toList else "CX LOCKED".toList)
  let chk_data := chksum_string chk_data
    (if g.wx_code = 0 then "WX UNLOCKED".toList else "WX LOCKED".toList)
  let chk_data := chksum_string chk_data
    (if therm_code = 0 then "THERM FILE PRESENT".toList else "NO THERM FILE".toList)
  chksum_to_string chk_data

/-- The comment line `strftime(buf, 50, "L FSX date/time on users PC:  %Y-%m-%d %H:%M\n", ..)`
followed by `sprintf_s(s,MAXBUF,buf)`; `strftime` fails when 50 characters do not suffice. -/
def date_time_line (today : Tm) : Option (List Char) :=
  let buf := "L FSX date/time on users PC:  ".toList ++ Nat.toDigits 10 today.year ++ ['-'] ++
    fmt_d 2 today.mon ++ ['-'] ++ fmt_d 2 today.mday ++ [' '] ++
    fmt_d 2 today.hour ++ [':'] ++ fmt_d 2 today.min ++ ['\n']
  if buf.length < 50 then emit buf else none

/-- The `sprintf_s` call that formats a 'B' record (source lines 1011-1015). -/
def b_format (hours minutes secs lat_DD lat_MM lat_mmm : Int) (NS : Char)
    (long_DDD long_MM long_mmm : Int) (EW : Char) (altitude FXA ENL : Int) : List Char :=
  ['B'] ++ fmt_d 2 hours ++ fmt_d 2 minutes ++ fmt_d 2 secs ++
    fmt_d 2 lat_DD ++ fmt_d 2 lat_MM ++ fmt_d 3 lat_mmm ++ [NS] ++
    fmt_d 3 long_DDD ++ fmt_d 2 long_MM ++ fmt_d 3 long_mmm ++ [EW] ++ ['A'] ++
    fmt_d 5 altitude ++ fmt_d 5 altitude ++ fmt_d 3 FXA ++ fmt_d 3 ENL ++ ['\n']

/-- The integer nearest to `x`, the even one of the two when `x` lies half way. -/
def round_half_even (x : ℚ) : Int :=
  if x - ⌊x⌋ < 1 / 2 then ⌊x⌋
  else if 1 / 2 < x - ⌊x⌋ then ⌊x⌋ + 1
  else if ⌊x⌋ % 2 = 0 then ⌊x⌋ else ⌊x⌋ + 1

/-- The number of binary digits of `n`, for `fuel` at least that number. -/
def bit_length : Nat → Nat → Nat
  | 0, _ => 0
  | fuel + 1, n => if n = 0 then 0 else bit_length fuel (n / 2) + 1

/-- The binary exponent of a positive value: the greatest `e` with `2^e ≤ x`. -/
def ilog2 (x : ℚ) : Int :=
  let e0 : Int := (bit_length x.num.natAbs x.num.natAbs : Int) - (bit_length x.den x.den : Int)
  if (2 : ℚ) ^ e0 ≤ x then e0 else e0 - 1

/-- Rounding to the nearest value with a significand of `p` bits, ties to even; the range of
the exponent is not modelled. -/
def fl (p : Nat) (x : ℚ) : ℚ :=
  if x = 0 then 0
  else
    let s : ℚ := (2 : ℚ) ^ (ilog2 |x| - ((p : Int) - 1))
    (round_half_even (x / s) : ℚ) * s

/-- The result of one operation on `double` values: the exact result rounded to 53 bits. -/
def dbl (x : ℚ) : ℚ := fl 53 x

/-- The 'B' location record of one stored position (body of the loop at source line 992).
The stored latitude and longitude are `double` values; every subtraction, division and
multiplication of the source is done in `double` (the `float(..)` of a small integer is
exact), so each result is rounded by `dbl` before `int(..)` truncates it. -/
def b_record (b : igc_b) : List Char :=
  let hours := b.zulu_time.tdiv 3600
  let minutes := (b.zulu_time - hours * 3600).tdiv 60
  let secs := b.zulu_time.tmod 60
  let NS := if b.latitude > 0 then 'N' else 'S'
  let EW := if b.longitude > 0 then 'E' else 'W'
  let abs_latitude := |b.latitude|
  let abs_longitude := |b.longitude|
  let lat_DD := c_int abs_latitude
  let lat_MM := c_int (dbl (dbl (abs_latitude - (lat_DD : ℚ)) * 60))
  let lat_mmm := c_int (dbl (dbl (dbl (abs_latitude - (lat_DD : ℚ)) -
    dbl ((lat_MM : ℚ) / 60)) * 60000))
  let long_DDD := c_int abs_longitude
  let long_MM := c_int (dbl (dbl (abs_longitude - (long_DDD : ℚ)) * 60))
  let long_mmm := c_int (dbl (dbl (dbl (abs_longitude - (long_DDD : ℚ)) -
    dbl ((long_MM : ℚ) / 60)) * 60000))
  let altitude := c_int b.altitude
  let FXA : Int := 27
  let ENL : Int := if b.rpm > 9990 then 999 else b.rpm.tdiv 10
  b_format hours minutes secs lat_DD lat_MM lat_mmm NS long_DDD long_MM long_mmm EW
    altitude FXA ENL

/-- The value `therm_code` receives in `igc_write_file`: 0 when ThermalDescriptions.xml exists. -/
def therm_code_of (env : Env) : Nat :=
  if !env.file_exists "ThermalDescriptions.xml".toList then 1 else 0

/-- The header records written first (source lines 864-916). -/
def header_records (g : Session) : List (Option (List Char)) :=
  [ emit ("AXXX sim_logger v".toList ++ version_text ++ ['\n']),
    emit ("HFDTE".toList ++ fmt_d 2 g.startup_data.zulu_day ++
      fmt_d 2 g.startup_data.zulu_month ++ fmt_d 2 (g.startup_data.zulu_year.tmod 1000) ++ ['\n']),
    emit "HFFXA035\n".toList,
    emit "HFPLTPILOTINCHARGE: not recorded\n".toList,
    emit "HFCM2CREW2: not recorded\n".toList,
    emit ("HFGTYGLIDERTYPE:".toList ++ g.TITLE ++ ['\n']),
    emit ("HFGIDGLIDERID:".toList ++ g.ATC_ID ++ ['\n']),
    emit "HFDTM100GPSDATUM: WGS-1984\n".toList,
    emit ("HFRFWFIRMWAREVERSION: ".toList ++ version_text ++ ['\n']),
    emit "HFRHWHARDWAREVERSION: 2009\n".toList,
    emit "HFFTYFRTYPE: sim_logger by Ian Forster-Lewis\n".toList,
    emit "HFGPSGPS:Microsoft Flight Simulator\n".toList,
    emit "HFPRSPRESSALTSENSOR: Microsoft Flight Simulator\n".toList,
    emit ("HFCIDCOMPETITIONID:".toList ++ g.ATC_ID ++ ['\n']),
    emit "HFCCLCOMPETITIONCLASS:Microsoft Flight Simulator\n".toList,
    emit "I023638FXA3941ENL\n".toList ]

/-- The task (C) records, written when `c_wp_count>1` (source lines 918-926). -/
def task_records (g : Session) : List (Option (List Char)) :=
  if g.c_wp_count > 1 then
    [emit_record (g.c.getD 0 []), emit_record (g.c.getD 1 [])] ++
      (List.range g.c_wp_count).map (fun i => emit_record (g.c.getD (i + 2) [])) ++
      [emit_record g.c_landing]
  else []

/-- The comment (L) records (source lines 928-989). -/
def comment_records (env : Env) (g : Session) : List (Option (List Char)) :=
  let name := path_to_name env.file_exists
  [ date_time_line env.today,
    emit ("L FSX FLT checksum            ".toList ++ g.chksum_flt ++ " (".toList ++
      name g.flt_pathname ++ [')'] ++ ['\n']),
    emit ("L FSX WX checksum             ".toList ++ g.chksum_wx ++ " (".toList ++
      name g.wx_pathname ++ [')'] ++ ['\n']),
    emit ("L FSX CMX checksum            ".toList ++ g.chksum_cmx ++ " (".toList ++
      name g.cmx_pathname ++ [')'] ++ ['\n']),
    emit ("L FSX mission checksum        ".toList ++ g.chksum_xml ++ " (".toList ++
      name g.xml_pathname ++ [')'] ++ ['\n']),
    emit ("L FSX aircraft.cfg checksum   ".toList ++ g.chksum_cfg ++ " (".toList ++
      name g.cfg_pathname ++ [')'] ++ ['\n']),
    emit ("L FSX AIR checksum            ".toList ++ g.chksum_air ++ " (".toList ++
      name g.air_pathname ++ [')'] ++ ['\n']),
    emit (if g.cx_code = 0 then "L FSX CumulusX status:        UNLOCKED\n".toList
      else "L FSX CumulusX status:        LOCKED OK\n".toList),
    emit (if g.wx_code = 0 then "L FSX WX status=              UNLOCKED\n".toList
      else "L FSX WX status=              LOCKED OK\n".toList),
    emit (if therm_code_of env = 0 then "L FSX ThermalDescriptions.xml STILL BEING USED\n".toList
      else "L FSX ThermalDescriptions.xml REMOVED OK\n".toList),
    emit ("L FSX GENERAL CHECKSUM            ".toList ++ chksum_chksum g (therm_code_of env) ++
      "  <---- CHECK THIS FIRST".toList ++ ['\n']) ]

/-- All records written before the 'G' record, in the order of the source. -/
def igc_records (env : Env) (g : Session) : List (Option (List Char)) :=
  header_records g ++ task_records g ++ comment_records env g ++
    g.igc_pos.map (fun b => emit (b_record b))

/-- The text holds no '%'. -/
def no_percent (s : List Char) : Bool := !s.contains '%'

/-- No record of the session holds a '%': every record is written as it is. -/
def percent_free (env : Env) (g : Session) : Prop :=
  ∀ r ∈ igc_records env g, Option.all no_percent r = true

instance (env : Env) (g : Session) : Decidable (percent_free env g) := by
  unfold percent_free
  infer_instance

/-- One `chksum_string(&chk_data, s); fprintf(f, s);` step on the accumulator and the file
written so far: the checksum absorbs `s`, the file receives what `fprintf` writes for `s`;
`none` once a record could not be produced or written. -/
def write_record (env : Env) (st : Option (ChksumData × List Char))
    (rec : Option (List Char)) : Option (ChksumData × List Char) :=
  match st, rec with
  | some (chk_data, f), some s =>
    match fprintf env s with
    | some w => some (chksum_string chk_data s, f ++ w)
    | none => none
  | _, _ => none

/-- The text of the log file written by `igc_write_file`, `none` when no complete file is
written (the file cannot be opened, or a record cannot be produced or written). -/
def igc_write_file (env : Env) (g : Session) : Option (List Char) :=
  if !env.fopen_ok then none
  else
    match (igc_records env g).foldl (write_record env) (some (chksum_reset, [])) with
    | some (chk_data, f) => some (f ++ ['G'] ++ chksum_to_string chk_data ++ ['\n'])
    | none => none

/-- A text without newline and without NUL character. -/
def plainb (s : List Char) : Bool := s.all (fun c => c != '\n' && c != '\x00')

/-- A text that begins with a character other than the trailer marker 'G'. -/
def startsOk (s : List Char) : Bool :=
  match s with
  | [] => false
  | c :: _ => c != 'G'

/-- A complete text line as `fgets` reads it back in one piece: it does not begin with 'G',
fits the line buffer, ends with its only newline and holds no NUL. -/
def line_shape (l : List Char) : Prop :=
  startsOk l = true ∧ l.length < MAXBUF ∧ l.getLast? = some '\n' ∧ plainb l.dropLast = true

instance (l : List Char) : Decidable (line_shape l) := by
  unfold line_shape; infer_instance

/-- The task records `igc_write_file` writes: `c[0]`, `c[1]`, `c[i+2]` for `i<c_wp_count`
and `c_landing` when `c_wp_count>1`, none otherwise. -/
def task_strings (g : Session) : List (List Char) :=
  if g.c_wp_count > 1 then
    [g.c.getD 0 [], g.c.getD 1 []] ++
      (List.range g.c_wp_count).map (fun i => g.c.getD (i + 2) []) ++ [g.c_landing]
  else []

/-- The strings of a session are single-line texts: title, id, the six file checksums and
the six path names printed hold neither newline nor NUL, and every task record written is
empty or one complete line that does not begin with 'G'. -/
def single_line_session (g : Session) : Prop :=
  plainb g.TITLE = true ∧ plainb g.ATC_ID = true ∧
  plainb g.chksum_flt = true ∧ plainb g.chksum_air = true ∧ plainb g.chksum_wx = true ∧
  plainb g.chksum_cmx = true ∧ plainb g.chksum_cfg = true ∧ plainb g.chksum_xml = true ∧
  plainb g.flt_pathname = true ∧ plainb g.air_pathname = true ∧ plainb g.wx_pathname = true ∧
  plainb g.cmx_pathname = true ∧ plainb g.cfg_pathname = true ∧ plainb g.xml_pathname = true ∧
  ∀ r ∈ task_strings g, r = [] ∨ line_shape r

instance (g : Session) : Decidable (single_line_session g) := by
  unfold single_line_session; infer_instance

/-- The strings a session copies into its records hold no '%': title, id, the six file
checksums, the six path names and the task records written. -/
def percent_free_strings (g : Session) : Prop :=
  no_percent g.TITLE = true ∧ no_percent g.ATC_ID = true ∧
  no_percent g.chksum_flt = true ∧ no_percent g.chksum_air = true ∧
  no_percent g.chksum_wx = true ∧ no_percent g.chksum_cmx = true ∧
  no_percent g.chksum_cfg = true ∧ no_percent g.chksum_xml = true ∧
  no_percent g.flt_pathname = true ∧ no_percent g.air_pathname = true ∧
  no_percent g.wx_pathname = true ∧ no_percent g.cmx_pathname = true ∧
  no_percent g.cfg_pathname = true ∧ no_percent g.xml_pathname = true ∧
  ∀ r ∈ task_strings g, no_percent r = true

instance (g : Session) : Decidable (percent_free_strings g) := by
  unfold percent_free_strings; infer_instance

/-! ## A sample session -/

/-- A stored position: 01:01:01 UTC, 51.5 N, 1.25 W, 1234.7 m, 2500 rpm. -/
def sample_b : igc_b :=
  { zulu_time := 3661, latitude := 103 / 2, longitude := -5 / 4, altitude := 12347 / 10,
    rpm := 2500 }

/-- A format written with every '%' and the character after it left out. -/
def drop_conversions (s : List Char) : List Char :=
  (s.foldl (fun (acc : List Char × Bool) c =>
    if acc.2 then (acc.1, false)
    else if c = '%' then (acc.1, true) else (acc.1 ++ [c], false)) ([], false)).1

/-- An environment in which every path exists and the log file can be written; a format
with a conversion that has no argument is written with the conversion left out. -/
def sample_env : Env :=
  { file_exists := fun _ => true, fopen_ok := true
    today := { year := 2009, mon := 7, mday := 4, hour := 12, min := 30 }
    format_output := fun s => some (drop_conversions s) }

/-- A session with a two-waypoint task and one stored position. -/
def sample_session : Session :=
  { TITLE := "DG808S".toList
    ATC_ID := "B21".toList
    startup_data := { start_time := 3600, zulu_day := 4, zulu_month := 7, zulu_year := 2009 }
    flt_pathname := "C:\\FSX\\flights\\task.FLT".toList
    air_pathname := "C:\\FSX\\SimObjects\\DG808S\\DG808S.air".toList
    wx_pathname := "C:\\FSX\\flights\\task.WX".toList
    cmx_pathname := "C:\\FSX\\flights\\task.CMX".toList
    cfg_pathname := "C:\\FSX\\SimObjects\\DG808S\\aircraft.cfg".toList
    xml_pathname := "C:\\FSX\\flights\\task.XML".toList
    chksum_flt := "B7RYLN".toList
    chksum_air := "F9P2PY".toList
    chksum_wx := "000000".toList
    chksum_cmx := "000000".toList
    chksum_cfg := "KBOK06".toList
    chksum_xml := "000000".toList
    cx_code := 0
    wx_code := 1
    c_wp_count := 2
    c := [ "C040709123000000000000100Sample task\n".toList,
           "C5130000N00114040WStart field\n".toList,
           "C5130000N00114040WStart field\n".toList,
           "C5145500N00101200WFinish field\n".toList ]
    c_landing := "C5145500N00101200WFinish field\n".toList
    igc_pos := [sample_b] }

/-- The sample session with an aircraft title that holds a newline followed by 'G'. -/
def two_line_title_session : Session :=
  { sample_session with TITLE := "DG\nG808S".toList }

/-- The sample session with an aircraft title that holds a newline followed by a line of
the form of a trailer. -/
def trailer_like_title_session : Session :=
  { sample_session with TITLE := "DG\nGABCDEF".toList }

/-- The sample session with an aircraft title that holds a newline followed by the text of
a position record. -/
def position_like_title_session : Session :=
  { sample_session with TITLE := "DG\nB0101015130000N00115000WA0123401234027250".toList }

/-- The sample session with an aircraft title that holds a '%'. -/
def percent_title_session : Session :=
  { sample_session with TITLE := "50%discount".toList }

/-- A line that does not begin with the trailer marker 'G' (`line_buf[0]!='G'`). -/
def notG (line : List Char) : Bool := !decide (line.head? = some 'G')

/-! ## Logging of positions and ground check (source lines 682-769, 1040-1062) -/

/-- Log a maximum of this many 'B' records (`IGC_MAX_RECORDS`). -/
def IGC_MAX_RECORDS : Nat := 40000

/-- Do not record an IGC file if it is short (`IGC_MIN_RECORDS`). -/
def IGC_MIN_RECORDS : Nat := 4

/-- Do not trigger a log save on landing unless airborne for at least this many seconds
(`IGC_MIN_FLIGHT_SECS_TO_LANDING`). -/
def IGC_MIN_FLIGHT_SECS_TO_LANDING : Int := 80

/-- The position of the user aircraft as delivered by the simulator (`struct UserStruct`). -/
structure UserStruct where
  latitude : ℚ
  longitude : ℚ
  altitude : ℚ
  sim_on_ground : Int
  zulu_time : Int
  rpm : Int

/-- The record stored for a position: the assignments of `igc_log_point`. -/
def igc_b_of (p : UserStruct) : igc_b :=
  { zulu_time := p.zulu_time, latitude := p.latitude, longitude := p.longitude,
    altitude := p.altitude, rpm := p.rpm }

/-- Store a position (`igc_log_point`).  The list is the first `igc_record_count` entries of
`igc_pos`; its last element is `igc_pos[igc_record_count-1]`. -/
def igc_log_point (igc_pos : List igc_b) (p : UserStruct) : List igc_b :=
  if igc_pos.length < IGC_MAX_RECORDS then
    match igc_pos.getLast? with
    | none => igc_pos ++ [igc_b_of p]
    | some last =>
      if p.zulu_time ≠ last.zulu_time then igc_pos ++ [igc_b_of p] else igc_pos
  else igc_pos

/-- Start a new log (`igc_reset_log`): `igc_record_count = 0`. -/
def igc_reset_log (g : Session) : Session := { g with igc_pos := [] }

/-- The globals of `igc_ground_check`: `igc_prev_on_ground` and `igc_takeoff_time`. -/
structure GroundState where
  igc_prev_on_ground : Int
  igc_takeoff_time : Int
deriving DecidableEq, Repr

/-- What a call of `igc_ground_check` detects: nothing, a takeoff ("Takeoff detected") or a
landing ("Landing detected"). -/
inductive GroundEvent where
  | quiet
  | takeoff
  | landing
deriving DecidableEq, Repr

/-- Process the 'on ground' status of one position (`igc_ground_check`); `igc_record_count`
is the number of records stored at the time of the call. -/
def igc_ground_check (igc_record_count : Nat) (st : GroundState) (on_ground zulu_time : Int) :
    GroundState × GroundEvent :=
  if igc_record_count < 2 then
    ({ st with igc_prev_on_ground := on_ground }, GroundEvent.quiet)
  else if st.igc_prev_on_ground ≠ 0 ∧ on_ground = 0 then
    ({ igc_prev_on_ground := 0, igc_takeoff_time := zulu_time }, GroundEvent.takeoff)
  else if st.igc_prev_on_ground = 0 ∧ on_ground ≠ 0 ∧
      zulu_time - st.igc_takeoff_time > IGC_MIN_FLIGHT_SECS_TO_LANDING then
    ({ st with igc_prev_on_ground := 1 }, GroundEvent.landing)
  else
    ({ st with igc_prev_on_ground := on_ground }, GroundEvent.quiet)

/-- The state after a series of `igc_ground_check` calls, each given as the record count at
the call, the on-ground flag and the time. -/
def ground_run (st : GroundState) (calls : List (Nat × Int × Int)) : GroundState :=
  calls.foldl (fun s c => (igc_ground_check c.1 s c.2.1 c.2.2).1) st

/-- The call sites of `igc_write_file`: the menu entry "Save IGC log file", the quit message
and the failure of `SimConnect_CallDispatch`. -/
inductive FinalizeReason where
  | menu_write_log
  | autosave_on_quit
  | autosave_on_crash
deriving DecidableEq, Repr

/-- The `reason` argument passed at each call site. -/
def reason_text : FinalizeReason → List Char
  | FinalizeReason.menu_write_log => []
  | FinalizeReason.autosave_on_quit => "autosave on quit".toList
  | FinalizeReason.autosave_on_crash => "autosave on fsx crash".toList

/-- The document written at a call site (source lines 1091-1094, 1332-1338, 1501-1508): the
menu entry calls `igc_write_file` unconditionally, the two autosaves only
`if (igc_record_count>IGC_MIN_RECORDS)`. -/
def finalize (env : Env) (g : Session) : FinalizeReason → Option (List Char)
  | FinalizeReason.menu_write_log => igc_write_file env g
  | FinalizeReason.autosave_on_quit =>
    if g.igc_pos.length > IGC_MIN_RECORDS then igc_write_file env g else none
  | FinalizeReason.autosave_on_crash =>
    if g.igc_pos.length > IGC_MIN_RECORDS then igc_write_file env g else none

/-- Adjacent retained samples have different times. -/
def times_differ (buf : List igc_b) : Prop :=
  List.Chain' (fun a b => a.zulu_time ≠ b.zulu_time) buf

/-! ## Fingerprint of aircraft.cfg (source lines 261-352) -/

/-- The loop of `starts_bracket` over the remaining characters of the string, at index `i`:
`while (i<10 && i<strlen(s)) { if (s[i]=='[') return i; else if (s[i]!=' ') return -1; i++; }`
and `return -1` after it. -/
def starts_bracket_loop : List Char → Nat → Int
  | [], _ => -1
  | ch :: rest, i =>
    if i < 10 then
      if ch = '[' then (i : Int)
      else if ch ≠ ' ' then -1
      else starts_bracket_loop rest (i + 1)
    else -1

/-- Index of the '[' that is the first non-space character of the string, or -1
(`starts_bracket`). -/
def starts_bracket (s : List Char) : Int := starts_bracket_loop s 0

/-- The test `strncmp(a, b, n) == 0` on two strings. -/
def strncmp_eq : Nat → List Char → List Char → Bool
  | 0, _, _ => true
  | _ + 1, [], [] => true
  | n + 1, x :: a, y :: b => x == y && strncmp_eq n a b
  | _ + 1, _, _ => false

/-- The tables `strings[]` and `length[]` of `perf_match`. -/
def perf_strings : List (List Char × Nat) :=
  [ ("[airplane_geometry]".toList, 5),
    ("[flaps.".toList, 4),
    ("[flight_tuning]".toList, 4),
    ("[water_ballast_system]".toList, 3),
    ("[weight_and_balance]".toList, 3),
    ("[generalenginedata]".toList, 11),
    ("[jet_engine]".toList, 4),
    ("[piston_engine]".toList, 4),
    ("[propeller]".toList, 4),
    ("[turbineenginedata]".toList, 6),
    ("[turboprop_engine]".toList, 6) ]

/-- Whether the line opens a section that affects performance (`perf_match`). -/
def perf_match (line_buf : List Char) : Bool :=
  let pos := starts_bracket line_buf
  if pos < 0 then false
  else perf_strings.any (fun sl => strncmp_eq sl.2 (line_buf.drop pos.toNat) sl.1)

/-- The read loop of `chksum_cfg_file` with the flag `in_perf_section`; each line read is
used as the C string it holds. -/
def cfg_scan : Nat → Bool → ChksumData → List Char → ChksumData
  | 0, _, chk_data, _ => chk_data
  | fuel + 1, in_perf_section, chk_data, file =>
    match fgets file with
    | none => chk_data
    | some (line, rest) =>
      if !in_perf_section then cfg_scan fuel (perf_match (cstr line)) chk_data rest
      else if starts_bracket (cstr line) < 0 then
        cfg_scan fuel in_perf_section (chksum_string chk_data (cstr line)) rest
      else cfg_scan fuel (perf_match (cstr line)) chk_data rest

/-- The checksum of aircraft.cfg over the sections that affect performance
(`chksum_cfg_file`); `file` is `none` when the file cannot be opened. -/
def chksum_cfg_file (file : Option (List Char)) : List Char × CHKSUM_RESULT :=
  match file with
  | none => ("000000".toList, CHKSUM_RESULT.CHKSUM_FILE_ERROR)
  | some content =>
    (chksum_to_string (cfg_scan (content.length + 1) false chksum_reset content),
     CHKSUM_RESULT.CHKSUM_OK)

/-- A line that is a bracketed section header: '[' is its first non-space character, within
the first 10 characters. -/
def is_header (line : List Char) : Bool := decide (0 ≤ starts_bracket line)

/-- Whether the most recent section header among the lines `before` matches the list of
performance sections; false when there is no header. -/
def last_header_matches (before : List (List Char)) : Bool :=
  match (before.filter is_header).getLast? with
  | some h => perf_match h
  | none => false

/-- The lines of a configuration file that count for the fingerprint, as described: those
of `lines` that are not section headers and whose most recent preceding section header (in
`before` and the lines already passed) matches. -/
def absorbed_lines (before : List (List Char)) : List (List Char) → List (List Char)
  | [] => []
  | l :: rest =>
    (if !is_header l && last_header_matches before then [l] else []) ++
      absorbed_lines (before ++ [l]) rest

/-- A data line of a configuration file: one complete line (newline-terminated, shorter
than MAXBUF, no NUL) that is not a section header. -/
def data_line (l : List Char) : Prop :=
  l.length < MAXBUF ∧ l.getLast? = some '\n' ∧ '\n' ∉ l.dropLast ∧ '\x00' ∉ l ∧
    is_header l = false

instance (l : List Char) : Decidable (data_line l) := by
  unfold data_line; infer_instance

/-- The sample position stored at another time of day. -/
def sample_at (t : Int) : igc_b := { sample_b with zulu_time := t }

/-- The 'B' record of `sample_at t`, with the position fields worked out. -/
def sample_line (t : Int) : List Char :=
  b_format (t.tdiv 3600) ((t - t.tdiv 3600 * 3600).tdiv 60) (t.tmod 60) 51 30 0 'N' 1 15 0 'W'
    1234 27 250

/-- A position on the ground at the `double` nearest to 0.15 degrees north and east. -/
def fifteen_hundredths_b : igc_b :=
  { zulu_time := 0, latitude := 5404319552844595 / 36028797018963968,
    longitude := 5404319552844595 / 36028797018963968, altitude := 0, rpm := 0 }

/-- The sample session with `n` stored positions, four seconds apart. -/
def session_with (n : Nat) : Session :=
  { sample_session with igc_pos := (List.range n).map (fun i => sample_at (3661 + 4 * i)) }

/-- The texts of the header records, in the order written (source lines 864-916). -/
def header_texts (g : Session) : List (List Char) :=
  [ ("AXXX sim_logger v".toList ++ version_text ++ ['\n']),
    ("HFDTE".toList ++ fmt_d 2 g.startup_data.zulu_day ++
      fmt_d 2 g.startup_data.zulu_month ++ fmt_d 2 (g.startup_data.zulu_year.tmod 1000) ++ ['\n']),
    "HFFXA035\n".toList,
    "HFPLTPILOTINCHARGE: not recorded\n".toList,
    "HFCM2CREW2: not recorded\n".toList,
    ("HFGTYGLIDERTYPE:".toList ++ g.TITLE ++ ['\n']),
    ("HFGIDGLIDERID:".toList ++ g.ATC_ID ++ ['\n']),
    "HFDTM100GPSDATUM: WGS-1984\n".toList,
    ("HFRFWFIRMWAREVERSION: ".toList ++ version_text ++ ['\n']),
    "HFRHWHARDWAREVERSION: 2009\n".toList,
    "HFFTYFRTYPE: sim_logger by Ian Forster-Lewis\n".toList,
    "HFGPSGPS:Microsoft Flight Simulator\n".toList,
    "HFPRSPRESSALTSENSOR: Microsoft Flight Simulator\n".toList,
    ("HFCIDCOMPETITIONID:".toList ++ g.ATC_ID ++ ['\n']),
    "HFCCLCOMPETITIONCLASS:Microsoft Flight Simulator\n".toList,
    "I023638FXA3941ENL\n".toList ]

/-- The texts of the comment records that follow the date/time comment, in the order written
(source lines 935-989). -/
def comment_texts (env : Env) (g : Session) : List (List Char) :=
  let name := path_to_name env.file_exists
  [ ("L FSX FLT checksum            ".toList ++ g.chksum_flt ++ " (".toList ++
      name g.flt_pathname ++ [')'] ++ ['\n']),
    ("L FSX WX checksum             ".toList ++ g.chksum_wx ++ " (".toList ++
      name g.wx_pathname ++ [')'] ++ ['\n']),
    ("L FSX CMX checksum            ".toList ++ g.chksum_cmx ++ " (".toList ++
      name g.cmx_pathname ++ [')'] ++ ['\n']),
    ("L FSX mission checksum        ".toList ++ g.chksum_xml ++ " (".toList ++
      name g.xml_pathname ++ [')'] ++ ['\n']),
    ("L FSX aircraft.cfg checksum   ".toList ++ g.chksum_cfg ++ " (".toList ++
      name g.cfg_pathname ++ [')'] ++ ['\n']),
    ("L FSX AIR checksum            ".toList ++ g.chksum_air ++ " (".toList ++
      name g.air_pathname ++ [')'] ++ ['\n']),
    (if g.cx_code = 0 then "L FSX CumulusX status:        UNLOCKED\n".toList
      else "L FSX CumulusX status:        LOCKED OK\n".toList),
    (if g.wx_code = 0 then "L FSX WX status=              UNLOCKED\n".toList
      else "L FSX WX status=              LOCKED OK\n".toList),
    (if therm_code_of env = 0 then "L FSX ThermalDescriptions.xml STILL BEING USED\n".toList
      else "L FSX ThermalDescriptions.xml REMOVED OK\n".toList),
    ("L FSX GENERAL CHECKSUM            ".toList ++ chksum_chksum g (therm_code_of env) ++
      "  <---- CHECK THIS FIRST".toList ++ ['\n']) ]

/-- A position stored at an airfield below sea level: 12:00:00 UTC, 52.25 N, 4.75 E,
altitude -3.5 m, 2400 rpm. -/
def below_sea_level_b : igc_b :=
  { zulu_time := 43200, latitude := 209 / 4, longitude := 19 / 4, altitude := -7 / 2,
    rpm := 2400 }

/-- Two accumulators at the same index whose six slots all differ. -/
def slots_all_differ (s t : ChksumData) : Prop :=
  s.index = t.index ∧ ChksumInv s ∧ ChksumInv t ∧
    ∀ i, i < 6 → s.num.getD i 0 ≠ t.num.getD i 0

/-- The sample position with the engine reported as turning backwards at 55 rpm. -/
def negative_rpm_b : igc_b :=
  { zulu_time := 3661, latitude := 103 / 2, longitude := -5 / 4, altitude := 12347 / 10,
    rpm := -55 }

/-- The three states the specification gives the ground tracker. -/
inductive Phase where
  | Initializing
  | Grounded
  | Airborne
deriving DecidableEq, Repr

/-- The specification's state read off the globals: Initializing while fewer than 2 records
are stored, otherwise Grounded or Airborne according to `igc_prev_on_ground`. -/
def phase (igc_record_count : Nat) (st : GroundState) : Phase :=
  if igc_record_count < 2 then Phase.Initializing
  else if st.igc_prev_on_ground ≠ 0 then Phase.Grounded else Phase.Airborne

/-! ## Parsing the flight plan (source lines 436-646) -/

/-- The wide string `PLN_WCHARS` of `clean_string`. -/
def PLN_WCHARS : List Char :=
  "0123456789ABCDEFGHIJKLMNOPQRSTUVWXYZabcdefghijklmnopqrstuvwxyz.<>, ".toList

/-- Convert a wide string to a narrow one and strip odd characters (`clean_string`).  The
argument lists the `wcslen(in)` characters of the wide string `in`, the result the characters
stored in `s` before the final NUL. -/
def clean_string (inp : List Char) : List Char :=
  inp.map (fun ch => if ch ∈ PLN_WCHARS then ch else ' ')

/-- Whether the string `hay` begins with the string `needle`. -/
def begins : List Char → List Char → Bool
  | [], _ => true
  | _ :: _, [] => false
  | x :: a, y :: b => x == y && begins a b

/-- The index of the first occurrence of `needle` in `hay` (`strstr`), `none` for NULL. -/
def strstr : List Char → List Char → Option Nat
  | [], needle => if begins needle [] then some 0 else none
  | h :: t, needle =>
    if begins needle (h :: t) then some 0 else (strstr t needle).map (fun i => i + 1)

/-- The index of the first occurrence of the character `ch` in `s` (`strchr`), `none` for
NULL. -/
def strchr : List Char → Char → Option Nat
  | [], _ => none
  | h :: t, ch => if h = ch then some 0 else (strchr t ch).map (fun i => i + 1)

/-- The bytes of a buffer after `s` has been stored from index `off` on.  A buffer is listed
up to its last byte that was ever written; the bytes behind it are NUL, as in a global array
that the program has not written to. -/
def poke (buf : List Char) (off : Nat) (s : List Char) : List Char :=
  (buf ++ List.replicate (off - buf.length) '\x00').take off ++ s ++ buf.drop (off + s.length)

/-- The buffer `buf` after `cpy(buf+off, max, src, n)`: `n` bytes are copied unless `n>max`.
`src` lists the characters of a string; every call of the program passes a string of at
least `n` characters. -/
def cpy (buf : List Char) (off max : Nat) (src : List Char) (n : Nat) : List Char :=
  if n > max then buf else poke buf off ((src ++ List.replicate n '\x00').take n)

/-- The string stored in `s` by `strncpy_s(s, MAXBUF, line+start, count)` with `count`
converted from `int` to `size_t`: at most `count` characters of the rest of the line, all of
it for a negative `count`.  `none` when `line+start` lies behind the terminating NUL of the
line or when the characters to copy do not fit. -/
def strncpy_s (line : List Char) (start : Nat) (count : Int) : Option (List Char) :=
  if start ≤ line.length then
    let src := line.drop start
    let n := if count < 0 then src.length else min count.toNat src.length
    if n < MAXBUF then some (src.take n) else none
  else none

/-- The buffer after `strcpy_s(buf+off, MAXBUF-off, s); strcat_s(buf+off, MAXBUF, "\n");`,
`none` when the text, the newline and the NUL do not fit in the buffer. -/
def store_text (buf : List Char) (off : Nat) (s : List Char) : Option (List Char) :=
  if off + s.length + 2 ≤ MAXBUF then some (poke buf off (s ++ ['\n', '\x00'])) else none

/-- The locals of `pln_to_c` that `sscanf_s` assigns; the seconds are `float` values. -/
structure LLA where
  lat_NS : Char
  lat_degs : Int
  lat_mins : Int
  lat_secs : ℚ
  comma : Char
  long_NS : Char
  long_degs : Int
  long_mins : Int
  long_secs : ℚ
deriving DecidableEq

/-- The initial values of these locals. -/
def lla_init : LLA :=
  { lat_NS := ' ', lat_degs := 0, lat_mins := 0, lat_secs := 0, comma := ',',
    long_NS := ' ', long_degs := 0, long_mins := 0, long_secs := 0 }

/-- Rounding of a non-negative value to the nearest integer, as `%.0f` prints it.  For a
value exactly half way between two integers the digit printed depends on the C library;
a half is rounded up here. -/
def c_round (x : ℚ) : Int := ⌊x + 1 / 2⌋

/-- The conversion `%0w.0f` of `sprintf_s`: the rounded magnitude, a sign for a negative
value, zeros up to the width `w`. -/
def fmt_f0 (w : Nat) (x : ℚ) : List Char :=
  let sign := if x < 0 then ['-'] else []
  let digits := Nat.toDigits 10 (c_round |x|).toNat
  sign ++ List.replicate (w - sign.length - digits.length) '0' ++ digits

/-- The assignments `lat_secs = lat_secs / 60 * 1000; long_secs = long_secs / 60 * 1000;`.
The source holds the seconds in a `float`.  What the expression gives in `float` depends on
the precision in which the compiler keeps the quotient, which the source does not fix, so
the quotient and the product are exact rationals here.  Where the scaled value lies within
a rounding error of a half (for instance for 0.45 seconds) the program can print a
thousandth one above or below the value of this model. -/
def lla_scale (v : LLA) : LLA :=
  { v with lat_secs := v.lat_secs / 60 * 1000, long_secs := v.long_secs / 60 * 1000 }

/-- The string of
`sprintf_s(s,MAXBUF,"C%02.2d%02.2d%03.0f%c%03.3d%02.2d%03.0f%c", lat_degs, lat_mins, lat_secs,
lat_NS, long_degs, long_mins, long_secs, long_NS)`. -/
def lla_format (v : LLA) : List Char :=
  ['C'] ++ fmt_d 2 v.lat_degs ++ fmt_d 2 v.lat_mins ++ fmt_f0 3 v.lat_secs ++ [v.lat_NS] ++
    fmt_d 3 v.long_degs ++ fmt_d 2 v.long_mins ++ fmt_f0 3 v.long_secs ++ [v.long_NS]

/-- The 18 bytes that `cpy(dest,MAXBUF,s,18)` takes from the string of a coordinate pair
whose values were just assigned by `sscanf_s`. -/
def lla_record (v : LLA) : List Char :=
  ((lla_format (lla_scale v)) ++ List.replicate 18 '\x00').take 18

/-- The coordinate pair 51 30 59.984375 N, 1 15 0 W. -/
def late_seconds_lla : LLA :=
  { lat_NS := 'N', lat_degs := 51, lat_mins := 30, lat_secs := 3839 / 64, comma := ',',
    long_NS := 'W', long_degs := 1, long_mins := 15, long_secs := 0 }

/-- The coordinate pair 51 30 15 N, 1 15 45 W. -/
def sample_lla : LLA :=
  { lat_NS := 'N', lat_degs := 51, lat_mins := 30, lat_secs := 15, comma := ',',
    long_NS := 'W', long_degs := 1, long_mins := 15, long_secs := 45 }

/-- Max number of C records collectable from the PLN file (`MAXC`). -/
def MAXC : Nat := 20

/-- The globals that `pln_to_c` writes: `c_wp_count`, the `MAXC` buffers `c[i]` and the
buffer `c_landing`, each buffer with its bytes from index 0 on. -/
structure Route where
  c_wp_count : Nat
  c : List (List Char)
  c_landing : List Char
deriving DecidableEq

/-- The globals at program start: all buffers hold NUL bytes only. -/
def route_init : Route :=
  { c_wp_count := 0, c := List.replicate MAXC [], c_landing := [] }

/-- The pointer `strchr(ptr_value+1, '<')` as an index into the line, for `ptr_value` at
index `p`. -/
def value_end (line_buf : List Char) (p : Nat) : Option Nat :=
  (strchr (line_buf.drop (p + 1)) '<').map (fun i => i + (p + 1))

/-- The body of a name handler of `pln_to_c` for a tag of `k` characters found at index `p`:
the text up to the next '<' is stored in the buffer `buf` from index `off` on, followed by a
newline. -/
def store_name (line_buf : List Char) (p k : Nat) (buf : List Char) (off : Nat) :
    Option (List Char) :=
  match value_end line_buf p with
  | some e =>
    match strncpy_s line_buf (p + k) ((e : Int) - (p : Int) - (k : Int)) with
    | some s => store_text buf off s
    | none => none
  | none => some buf

/-- The body of a coordinate handler of `pln_to_c` for a tag of `k` characters found at index
`p`: the values that `sscanf_s` assigns (given by `scan`) are scaled and printed, and 18 bytes
of the string are copied to the start of the buffer `buf`. -/
def store_lla (scan : List Char → LLA → LLA) (line_buf : List Char) (p k : Nat)
    (buf : List Char) (v : LLA) : List Char × LLA :=
  match value_end line_buf p with
  | some _ =>
    let v1 := lla_scale (scan (line_buf.drop (p + k)) v)
    (cpy buf 0 MAXBUF (lla_format v1) 18, v1)
  | none => (buf, v)

/-- The body of the `<ATCWaypoint ` handler of `pln_to_c` for a tag found at index `p`.
`none` when `c[c_wp_count+1]` lies outside the array `c`. -/
def store_waypoint (r : Route) (line_buf : List Char) (p : Nat) : Option Route :=
  let n := r.c_wp_count + 1
  match strchr (line_buf.drop p) '>' with
  | some d =>
    if n + 1 < MAXC then
      match strncpy_s line_buf (p + 17) ((d : Int) - 18) with
      | some s =>
        match store_text (r.c.getD (n + 1) []) 18 s with
        | some b => some { r with c_wp_count := n, c := r.c.set (n + 1) b }
        | none => none
      | none => none
    else none
  | none => some { r with c_wp_count := n }

/-- One pass of the `while` loop of `pln_to_c` on the cleaned line `line_buf` (source lines
511-628): the first tag found among `<Title>`, `<DepartureName>`, `<DestinationName>`,
`<DepartureLLA>`, `<DestinationLLA>`, `<ATCWaypoint ` and `<WorldPosition>`, tested in this
order, decides what is stored.  `none` when a store leaves its buffer. -/
def pln_line (scan : List Char → LLA → LLA) (st : Route × LLA) (line_buf : List Char) :
    Option (Route × LLA) :=
  let r := st.1
  let v := st.2
  match strstr line_buf "<Title>".toList with
  | some p =>
    (store_name line_buf p 7 (r.c.getD 0 []) 25).map (fun b => ({ r with c := r.c.set 0 b }, v))
  | none =>
  match strstr line_buf "<DepartureName>".toList with
  | some p =>
    (store_name line_buf p 15 (r.c.getD 1 []) 18).map
      (fun b => ({ r with c := r.c.set 1 b }, v))
  | none =>
  match strstr line_buf "<DestinationName>".toList with
  | some p =>
    (store_name line_buf p 17 r.c_landing 18).map (fun b => ({ r with c_landing := b }, v))
  | none =>
  match strstr line_buf "<DepartureLLA>".toList with
  | some p =>
    let bv := store_lla scan line_buf p 14 (r.c.getD 1 []) v
    some ({ r with c := r.c.set 1 bv.1 }, bv.2)
  | none =>
  match strstr line_buf "<DestinationLLA>".toList with
  | some p =>
    let bv := store_lla scan line_buf p 16 r.c_landing v
    some ({ r with c_landing := bv.1 }, bv.2)
  | none =>
  match strstr line_buf "<ATCWaypoint ".toList with
  | some p => (store_waypoint r line_buf p).map (fun r1 => (r1, v))
  | none =>
  match strstr line_buf "<WorldPosition>".toList with
  | some p =>
    match value_end line_buf p with
    | some _ =>
      if r.c_wp_count + 1 < MAXC then
        let bv := store_lla scan line_buf p 15 (r.c.getD (r.c_wp_count + 1) []) v
        some ({ r with c := r.c.set (r.c_wp_count + 1) bv.1 }, bv.2)
      else none
    | none => some st
  | none => some st

/-- The string of `strftime(s, MAXBUF, "C%d%m%y%H%M%S000000000100NO TASK", &today)`. -/
def c_header (today : Tm) : List Char :=
  ['C'] ++ fmt_d 2 today.mday ++ fmt_d 2 today.mon ++ fmt_d 2 (today.year % 100 : Nat) ++
    fmt_d 2 today.hour ++ fmt_d 2 today.min ++ fmt_d 2 today.sec ++
    "000000000100NO TASK".toList

/-- One turn of the `while` loop of `pln_to_c`: `in_buf` is the wide string that `fgetws`
delivered, it is cleaned into `line_buf` and handled.  `none` when the wide string and its
NUL do not fit the `MAXCHAR*4` elements of `in_buf`; `MAXCHAR` is not defined in the source
file and is a parameter. -/
def pln_step (MAXCHAR : Nat) (scan : List Char → LLA → LLA) (st : Option (Route × LLA))
    (in_buf : List Char) : Option (Route × LLA) :=
  match st with
  | some st1 => if in_buf.length < MAXCHAR * 4 then pln_line scan st1 (clean_string in_buf)
    else none
  | none => none

/-- The globals after the statements before the loop of `pln_to_c` (source lines 481-501)
when the file is open. -/
def pln_start (today : Tm) (r : Route) : Route :=
  let c1 := poke (r.c.getD 1 []) 0 ['\x00']
  let c0 := poke (poke (r.c.getD 0 []) 0 ['\x00']) 0 (c_header today ++ ['\x00'])
  { c_wp_count := 0, c := (r.c.set 1 c1).set 0 c0, c_landing := poke r.c_landing 0 ['\x00'] }

/-- The globals after the loop of `pln_to_c` over the wide strings `lines`. -/
def pln_loop (MAXCHAR : Nat) (scan : List Char → LLA → LLA) (today : Tm) (r : Route)
    (lines : List (List Char)) : Option (Route × LLA) :=
  lines.foldl (pln_step MAXCHAR scan) (some (pln_start today r, lla_init))

/-- The injection of the turnpoint count into `c[0]` (source lines 632-635). -/
def inject_count (r : Route) : Route :=
  let s := if r.c_wp_count > 2 then fmt_d 2 ((r.c_wp_count : Int) - 2) else "00".toList
  let c0 := cpy (r.c.getD 0 []) 23 (MAXBUF - 23) s 2
  { r with c := r.c.set 0 c0 }

/-- Parse the PLN file (`pln_to_c`).  `r` holds the globals before the call, `file` the text
of the file as wide characters, `none` when it cannot be opened.  The result is `none` when
the run leaves a buffer. -/
def pln_to_c (MAXCHAR : Nat) (scan : List Char → LLA → LLA) (today : Tm) (r : Route)
    (file : Option (List Char)) : Option (CHKSUM_RESULT × Route) :=
  match file with
  | none =>
    let c0 := poke (r.c.getD 0 []) 0 ['\x00']
    let c1 := poke (r.c.getD 1 []) 0 ['\x00']
    some (CHKSUM_RESULT.CHKSUM_FILE_ERROR,
      { c_wp_count := 0, c := (r.c.set 0 c0).set 1 c1, c_landing := poke r.c_landing 0 ['\x00'] })
  | some text =>
    match pln_loop MAXCHAR scan today r (fgets_lines text) with
    | some st => some (CHKSUM_RESULT.CHKSUM_OK, inject_count st.1)
    | none => none

/-- The lines that the `<ATCWaypoint ` handler takes, as cleaned lines: the line holds this
tag and none of the five tags tested before it. -/
def entry_line (line_buf : List Char) : Bool :=
  (strstr line_buf "<Title>".toList).isNone &&
  (strstr line_buf "<DepartureName>".toList).isNone &&
  (strstr line_buf "<DestinationName>".toList).isNone &&
  (strstr line_buf "<DepartureLLA>".toList).isNone &&
  (strstr line_buf "<DestinationLLA>".toList).isNone &&
  (strstr line_buf "<ATCWaypoint ".toList).isSome

/-- The lines of the file that the `<ATCWaypoint ` handler takes. -/
def waypoint_entry (in_buf : List Char) : Bool := entry_line (clean_string in_buf)

/-- The lines of the file that hold the tag `<ATCWaypoint `. -/
def has_waypoint_tag (in_buf : List Char) : Bool :=
  (strstr (clean_string in_buf) "<ATCWaypoint ".toList).isSome

/-- The values `sscanf_s` assigns for the coordinate text of the sample plans,
51 30 15 N, 1 15 45 W; other texts are not looked up. -/
def sample_scan (s : List Char) (v : LLA) : LLA :=
  if begins "N51  30  15.00 ,W1  15  45.00 ,".toList s then sample_lla else v

/-- A flight plan with a departure, a destination and three waypoints. -/
def sample_plan : List Char :=
  ("<Title>Sample task</Title>\n" ++
   "<DepartureName>Start field</DepartureName>\n" ++
   "<DepartureLLA>N51° 30' 15.00\",W1° 15' 45.00\",+000100.00</DepartureLLA>\n" ++
   "<DestinationName>Finish field</DestinationName>\n" ++
   "<DestinationLLA>N51° 30' 15.00\",W1° 15' 45.00\",+000100.00</DestinationLLA>\n" ++
   "<ATCWaypoint id=\"START\">\n" ++
   "<WorldPosition>N51° 30' 15.00\",W1° 15' 45.00\",+000100.00</WorldPosition>\n" ++
   "<ATCWaypoint id=\"TP1\">\n" ++
   "<WorldPosition>N51° 30' 15.00\",W1° 15' 45.00\",+000100.00</WorldPosition>\n" ++
   "<ATCWaypoint id=\"FINISH\">\n" ++
   "<WorldPosition>N51° 30' 15.00\",W1° 15' 45.00\",+000100.00</WorldPosition>\n").toList

/-- A flight plan of three lines with the tag `<ATCWaypoint `, the first of which also holds
the title. -/
def title_on_waypoint_line_plan : List Char :=
  ("<Title>Sample task</Title><ATCWaypoint id=\"START\">\n" ++
   "<ATCWaypoint id=\"TP1\">\n" ++
   "<ATCWaypoint id=\"FINISH\">\n").toList

/-- The local time 4 July 2009, 12:30:00. -/
def sample_today : Tm := { year := 2009, mon := 7, mday := 4, hour := 12, min := 30 }

/-- A line of a plan with the departure name `name` after `k` blanks of indentation. -/
def departure_line (k : Nat) (name rest : List Char) : List Char :=
  List.replicate k ' ' ++ "<DepartureName>".toList ++ name ++ '<' :: rest

/-- A cleaned line of a plan with the waypoint name `name` after `k` blanks of indentation;
`a4` stands for the four characters of `id="` and `q` for the closing quote. -/
def waypoint_line (k : Nat) (a4 name : List Char) (q : Char) (rest : List Char) : List Char :=
  List.replicate k ' ' ++ "<ATCWaypoint ".toList ++ a4 ++ name ++ q :: '>' :: rest

/-! ## The message dispatcher (source lines 238-259 and 1067-1348) -/

/-- Log every n-th position (`IGC_TICK_COUNT`). -/
def IGC_TICK_COUNT : Int := 4

/-- The loop `while (!feof(f)) { read_count = fread(buf, sizeof(char), sizeof(buf), f);
chksum_binary(&chk_data, buf, read_count); }` of `chksum_binary_file`: the end of the file
is noticed by the first read that delivers fewer than `MAXBUF` bytes. -/
def fread_loop : Nat → ChksumData → List Char → ChksumData
  | 0, chk_data, _ => chk_data
  | fuel + 1, chk_data, file =>
    let chk_data1 := chksum_binary chk_data (file.take MAXBUF)
    if (file.take MAXBUF).length < MAXBUF then chk_data1
    else fread_loop fuel chk_data1 (file.drop MAXBUF)

/-- The checksum string and the return code of `chksum_binary_file`; `file` is `none` when
the file cannot be opened. -/
def chksum_binary_file (file : Option (List Char)) : List Char × CHKSUM_RESULT :=
  match file with
  | none => ("000000".toList, CHKSUM_RESULT.CHKSUM_FILE_ERROR)
  | some content =>
    (chksum_to_string (fread_loop (content.length + 1) chksum_reset content),
     CHKSUM_RESULT.CHKSUM_OK)

/-- The index of the last occurrence of the character `ch` in `s` (`strrchr`), `none` for
NULL. -/
def strrchr (s : List Char) (ch : Char) : Option Nat :=
  (strchr s.reverse ch).map (fun i => s.length - 1 - i)

/-- The path with the characters after its last '.' replaced by `ext`, unchanged when it
holds no '.' (source lines 1262-1284). -/
def with_extension (path ext : List Char) : List Char :=
  match strrchr path '.' with
  | some i => path.take (i + 1) ++ ext
  | none => path

/-- The path with the characters after its last backslash replaced by "aircraft.cfg",
unchanged when it holds no backslash (source lines 1301-1305). -/
def cfg_path (path : List Char) : List Char :=
  match strrchr path '\\' with
  | some i => path.take (i + 1) ++ "aircraft.cfg".toList
  | none => path

/-- What the dispatcher obtains from outside the program: the environment of
`igc_write_file`, the bytes of the files it opens, the wide characters of the flight plan
files, the assignments of `sscanf_s` and the constant `MAXCHAR`. -/
structure Sim where
  env : Env
  read : List Char → Option (List Char)
  read_wide : List Char → Option (List Char)
  scan : List Char → LLA → LLA
  MAXCHAR : Nat

/-- The messages that `MyDispatchProcSO` tells apart, with the data it reads from them. -/
inductive Recv where
  | EVENT_MENU_SHOW_TEXT
  | EVENT_MENU_HIDE_TEXT
  | EVENT_MENU_WRITE_LOG
  | EVENT_SIM_START
  | EVENT_MISSIONCOMPLETED
  | EVENT_MENU_TEXT
  | EVENT_Z
  | EVENT_X
  | EVENT_CX_CODE (dwData : Nat)
  | other_event
  | EVENT_WEATHER
  | other_weather_mode
  | REQUEST_STARTUP_DATA (d : StartupStruct)
  | REQUEST_AIRCRAFT_DATA (strings : Option (List Char × List Char × List Char))
  | REQUEST_USER_POS (p : UserStruct)
  | other_request
  | EXCEPTION
  | OPEN
  | EVENT_FLIGHT (szFileName : List Char)
  | EVENT_AIRCRAFT (szFileName : List Char)
  | EVENT_FLIGHTPLAN (szFileName : List Char)
  | other_filename
  | QUIT
  | other

/-- The globals that the dispatcher reads and writes; `files` lists the log files written
so far. -/
structure App where
  g : Session
  route : Route
  ground : GroundState
  igc_tick_counter : Int
  user_pos : UserStruct
  menu_show_text : Bool
  ATC_TYPE : List Char
  pln_pathname : List Char
  quit : Int
  files : List (List Char)

/-- The log files after a call of `igc_write_file`. -/
def write_log (w : Sim) (a : App) : List (List Char) :=
  match igc_write_file w.env a.g with
  | some doc => a.files ++ [doc]
  | none => a.files

/-- The case `EVENT_FLIGHT` (source lines 1253-1293). -/
def on_flight (w : Sim) (a : App) (szFileName : List Char) : App :=
  let g := igc_reset_log a.g
  let flt_pathname := szFileName
  let wx_pathname := with_extension szFileName "WX".toList
  let cmx_pathname := with_extension szFileName "CMX".toList
  let xml_pathname := with_extension szFileName "XML".toList
  let wx := chksum_binary_file (w.read wx_pathname)
  { a with g := { g with
      flt_pathname := flt_pathname, wx_pathname := wx_pathname,
      cmx_pathname := cmx_pathname, xml_pathname := xml_pathname,
      chksum_flt := (chksum_binary_file (w.read flt_pathname)).1,
      chksum_wx := wx.1,
      wx_code := if wx.2 = CHKSUM_RESULT.CHKSUM_OK then 1 else g.wx_code,
      chksum_cmx := (chksum_binary_file (w.read cmx_pathname)).1,
      chksum_xml := (chksum_binary_file (w.read xml_pathname)).1 } }

/-- The case `EVENT_AIRCRAFT` (source lines 1295-1311). -/
def on_aircraft (w : Sim) (a : App) (szFileName : List Char) : App :=
  let g := igc_reset_log a.g
  { a with g := { g with
      air_pathname := szFileName, cfg_pathname := cfg_path szFileName,
      chksum_air := (chksum_binary_file (w.read szFileName)).1,
      chksum_cfg := (chksum_cfg_file (w.read (cfg_path szFileName))).1 } }

/-- The case `EVENT_FLIGHTPLAN` (source lines 1313-1322); `none` when `pln_to_c` leaves a
buffer. -/
def on_flightplan (w : Sim) (a : App) (szFileName : List Char) : Option App :=
  let g := igc_reset_log a.g
  match pln_to_c w.MAXCHAR w.scan w.env.today a.route (w.read_wide szFileName) with
  | some res =>
    some { a with
      g := { g with
        c_wp_count := res.2.c_wp_count, c := res.2.c.map cstr, c_landing := cstr res.2.c_landing },
      route := res.2, pln_pathname := szFileName }
  | none => none

/-- The case `REQUEST_USER_POS` (source lines 1202-1224). -/
def on_user_pos (a : App) (p : UserStruct) : App :=
  let logged := a.igc_tick_counter + 1 = IGC_TICK_COUNT
  let igc_pos := if logged then igc_log_point a.g.igc_pos p else a.g.igc_pos
  { a with
    user_pos := p,
    igc_tick_counter := if logged then 0 else a.igc_tick_counter + 1,
    g := { a.g with igc_pos := igc_pos },
    ground := (igc_ground_check igc_pos.length a.ground p.sim_on_ground p.zulu_time).1 }

/-- The case `SIMCONNECT_RECV_ID_QUIT` (source lines 1331-1340). -/
def on_quit (w : Sim) (a : App) : App :=
  if a.g.igc_pos.length > IGC_MIN_RECORDS then
    { a with files := write_log w a, g := igc_reset_log a.g, quit := 1 }
  else { a with quit := 1 }

/-- One call of `MyDispatchProcSO`. -/
def MyDispatchProcSO (w : Sim) (a : App) : Recv → Option App
  | Recv.EVENT_MENU_SHOW_TEXT => some { a with menu_show_text := true }
  | Recv.EVENT_MENU_HIDE_TEXT => some { a with menu_show_text := false }
  | Recv.EVENT_MENU_WRITE_LOG => some { a with files := write_log w a }
  | Recv.EVENT_SIM_START => some a
  | Recv.EVENT_MISSIONCOMPLETED => some a
  | Recv.EVENT_MENU_TEXT => some a
  | Recv.EVENT_Z => some a
  | Recv.EVENT_X => some a
  | Recv.EVENT_CX_CODE dwData => some { a with g := { a.g with cx_code := dwData } }
  | Recv.other_event => some a
  | Recv.EVENT_WEATHER => some { a with g := { a.g with wx_code := 0 } }
  | Recv.other_weather_mode => some a
  | Recv.REQUEST_STARTUP_DATA d => some { a with g := { a.g with startup_data := d } }
  | Recv.REQUEST_AIRCRAFT_DATA (some s) =>
    some { a with g := { a.g with ATC_ID := s.1, TITLE := s.2.2 }, ATC_TYPE := s.2.1 }
  | Recv.REQUEST_AIRCRAFT_DATA none => some a
  | Recv.REQUEST_USER_POS p => some (on_user_pos a p)
  | Recv.other_request => some a
  | Recv.EXCEPTION => some a
  | Recv.OPEN => some a
  | Recv.EVENT_FLIGHT szFileName => some (on_flight w a szFileName)
  | Recv.EVENT_AIRCRAFT szFileName => some (on_aircraft w a szFileName)
  | Recv.EVENT_FLIGHTPLAN szFileName => on_flightplan w a szFileName
  | Recv.other_filename => some a
  | Recv.QUIT => some (on_quit w a)
  | Recv.other => some a

/-- The globals after a series of calls of `MyDispatchProcSO`. -/
def dispatch_all (w : Sim) (a : App) : List Recv → Option App
  | [] => some a
  | m :: ms =>
    match MyDispatchProcSO w a m with
    | some a1 => dispatch_all w a1 ms
    | none => none

/-- A simulator whose flight folder holds a weather file next to the flight file and whose
flight plan is the sample plan. -/
def sample_sim : Sim :=
  { env := sample_env
    read := fun p => if p = "C:\\FSX\\flights\\task.WX".toList then some "wx".toList else none
    read_wide := fun _ => some sample_plan
    scan := sample_scan
    MAXCHAR := 127 }

/-- The program state with five stored positions and the weather unlocked. -/
def sample_app : App :=
  { g := { session_with 5 with wx_code := 0 }
    route := route_init
    ground := ⟨1, 0⟩
    igc_tick_counter := 0
    user_pos := ⟨0, 0, 0, 1, 0, 0⟩
    menu_show_text := false
    ATC_TYPE := []
    pln_pathname := []
    quit := 0
    files := [] }

/-- The statements after the message loop of `connectToSim` when `SimConnect_CallDispatch`
has failed (source lines 1501-1508): the log is written
`if (igc_record_count>IGC_MIN_RECORDS)`. -/
def on_dispatch_failure (w : Sim) (a : App) : App :=
  if a.g.igc_pos.length > IGC_MIN_RECORDS then { a with files := write_log w a } else a

/-- A string with some of its letters in upper case: the characters whose flag in `mask` is
set are turned to upper case, the others are kept. -/
def capitalize : List Bool → List Char → List Char
  | b :: mask, c :: cs => (if b then c.toUpper else c) :: capitalize mask cs
  | _, cs => cs

/-! ## Theorems: checksum engine -/

theorem c_pos_scan_not_mem (c : Char) (l : List Char) (p : Nat) (h : c ∉ l) :
    c_pos_scan c l p = p + l.length := by
  induction l generalizing p with
  | nil => simp [c_pos_scan]
  | cons x rest ih =>
    have hx : x ≠ c := fun e => h (by simp [e])
    have hr : c ∉ rest := fun e => h (by simp [e])
    simp [c_pos_scan, hx, ih (p + 1) hr]; omega

theorem c_pos_scan_ge (c : Char) (l : List Char) (p : Nat) : p ≤ c_pos_scan c l p := by
  induction l generalizing p with
  | nil => simp [c_pos_scan]
  | cons x rest ih =>
    by_cases hx : x = c
    · simp [c_pos_scan, hx]
    · have := ih (p + 1)
      simp only [c_pos_scan, hx, if_false]; omega

theorem c_pos_scan_mem (c : Char) (l : List Char) (p : Nat) (h : c ∈ l) :
    c_pos_scan c l p < p + l.length ∧ l.get? (c_pos_scan c l p - p) = some c := by
  induction l generalizing p with
  | nil => simp at h
  | cons x rest ih =>
    by_cases hx : x = c
    · simp [c_pos_scan, hx]
    · have hr : c ∈ rest := by
        rcases List.mem_cons.mp h with e | e
        · exact absurd e.symm hx
        · exact e
      have := ih (p + 1) hr
      have hge : p + 1 ≤ c_pos_scan c rest (p + 1) := c_pos_scan_ge c rest (p + 1)
      simp only [c_pos_scan, hx, if_false, List.length_cons]
      refine ⟨by omega, ?_⟩
      have e : c_pos_scan c rest (p + 1) - p = (c_pos_scan c rest (p + 1) - (p + 1)) + 1 := by
        omega
      rw [e]; simpa using this.2

theorem find_c_pos_not_mem (c : Char) (h : c ∉ chk_source) : find_c_pos c = CHK_CHARS := by
  have := c_pos_scan_not_mem c chk_source 0 h
  simpa [find_c_pos, CHK_CHARS, chk_source] using this

theorem find_c_pos_mem (c : Char) (h : c ∈ chk_source) :
    find_c_pos c < CHK_CHARS ∧ chk_source.get? (find_c_pos c) = some c := by
  have := c_pos_scan_mem c chk_source 0 h
  simpa [find_c_pos, CHK_CHARS, chk_source] using this

theorem incr_chksum_not_mem (st : ChksumData) (c : Char) (h : c ∉ chk_source) :
    incr_chksum st c = st := by
  simp [incr_chksum, find_c_pos_not_mem c h]

theorem chk_map_getD_lt (k : Nat) : chk_map.getD k 0 < CHK_CHARS := by
  by_cases hk : k < 63
  · have h : ∀ j < 63, chk_map.getD j 0 < CHK_CHARS := by decide
    exact h k hk
  · rw [List.getD_eq_default _ _ (by simp [chk_map]; omega)]; decide

/-- The six passes of the slot loop on a six-slot array, written out. -/
theorem incr_loop_six (m a b c d e f : Nat) :
    (List.range CHKSUM_CHARS).foldl (incr_slot m) [a, b, c, d, e, f] =
      [chk_map.getD ((a + m + 0) % CHK_CHARS) 0, chk_map.getD ((b + m + 1) % CHK_CHARS) 0,
       chk_map.getD ((c + m + 2) % CHK_CHARS) 0, chk_map.getD ((d + m + 3) % CHK_CHARS) 0,
       chk_map.getD ((e + m + 4) % CHK_CHARS) 0, chk_map.getD ((f + m + 5) % CHK_CHARS) 0] := by
  rfl

theorem length_six {α : Type} (l : List α) (h : l.length = 6) :
    ∃ a b c d e f, l = [a, b, c, d, e, f] := by
  match l, h with
  | [a, b, c, d, e, f], _ => exact ⟨a, b, c, d, e, f, rfl⟩

theorem incr_chksum_inv (st : ChksumData) (c : Char) (h : ChksumInv st) :
    ChksumInv (incr_chksum st c) := by
  obtain ⟨hi, hl, hv⟩ := h
  unfold incr_chksum
  by_cases hc : find_c_pos c = CHK_CHARS
  · simp only [hc, if_true]; exact ⟨hi, hl, hv⟩
  · simp only [hc, if_false]
    obtain ⟨a, b, c1, d, e, f, hnum⟩ := length_six st.num hl
    refine ⟨Nat.mod_lt _ (by decide), ?_, ?_⟩
    · simp only [hnum, incr_loop_six]; rfl
    · simp only [hnum, incr_loop_six]
      intro v hv
      simp only [List.mem_cons, List.mem_singleton, List.not_mem_nil, or_false] at hv
      rcases hv with h | h | h | h | h | h <;> rw [h] <;> exact chk_map_getD_lt _

theorem chksum_reset_inv : ChksumInv chksum_reset := by
  refine ⟨by decide, by decide, ?_⟩
  decide

theorem chksum_string_inv (st : ChksumData) (s : List Char) (h : ChksumInv st) :
    ChksumInv (chksum_string st s) := by
  induction s generalizing st with
  | nil => exact h
  | cons c rest ih => exact ih _ (incr_chksum_inv st c h)

theorem chksum_string_append (st : ChksumData) (s t : List Char) :
    chksum_string st (s ++ t) = chksum_string (chksum_string st s) t := by
  simp [chksum_string, List.foldl_append]

theorem chksum_string_filter (st : ChksumData) (s : List Char) :
    chksum_string st (s.filter (fun c => decide (c ∈ chk_source))) = chksum_string st s := by
  induction s generalizing st with
  | nil => rfl
  | cons c rest ih =>
    by_cases hc : c ∈ chk_source
    · simp only [List.filter_cons, hc, decide_True, if_true]
      exact ih (incr_chksum st c)
    · simp only [List.filter_cons, hc, decide_False]
      have := ih st
      simp only [chksum_string, List.foldl_cons, incr_chksum_not_mem st c hc] at this ⊢
      simpa using this

/-- C3: a character outside the 63-character alphabet, inserted at any position `k` of any
string `s`, leaves the whole accumulator (index and the six slots) and hence the printed
checksum unchanged; and the checksum of `s` is the checksum of `s` with all unrecognized
characters removed. -/
theorem alphabet_filter_invariant (s : List Char) (k : Nat) (ch : Char)
    (hch : ch ∉ chk_source) :
    chksum_string chksum_reset (s.take k ++ ch :: s.drop k) = chksum_string chksum_reset s ∧
    checksum (s.take k ++ ch :: s.drop k) = checksum s ∧
    chksum_string chksum_reset (s.filter (fun c => decide (c ∈ chk_source)))
      = chksum_string chksum_reset s ∧
    checksum (s.filter (fun c => decide (c ∈ chk_source))) = checksum s := by
  have h1 : chksum_string chksum_reset (s.take k ++ ch :: s.drop k)
      = chksum_string chksum_reset s := by
    rw [chksum_string_append]
    conv_rhs => rw [← List.take_append_drop k s, chksum_string_append]
    simp only [chksum_string, List.foldl_cons, incr_chksum_not_mem _ ch hch]
  refine ⟨h1, ?_, chksum_string_filter _ s, ?_⟩
  · simp only [checksum, h1]
  · simp only [checksum, chksum_string_filter]

theorem alphabet_filter_invariant_witness :
    '-' ∉ chk_source ∧
    checksum ("AB".toList.take 1 ++ '-' :: "AB".toList.drop 1) = checksum "AB".toList :=
  ⟨by decide, (alphabet_filter_invariant "AB".toList 1 '-' (by decide)).2.1⟩

theorem incr_chksum_found (st : ChksumData) (c : Char) (h : find_c_pos c ≠ CHK_CHARS) :
    incr_chksum st c =
      { index := (st.index + 1) % CHKSUM_MAX_INDEX
        num := (List.range CHKSUM_CHARS).foldl
          (incr_slot (chk_map.getD ((find_c_pos c + st.index) % CHK_CHARS) 0)) st.num } := by
  unfold incr_chksum
  simp only [h, if_false]

theorem find_c_pos_of_get (ch : Char) (p : Nat) (hp : p < CHK_CHARS)
    (hch : chk_source.get? p = some ch) : find_c_pos ch = p := by
  have h : ∀ q < 63, ∀ c, chk_source.get? q = some c → find_c_pos c = q := by
    intro q hq
    interval_cases q <;> intro c hc <;> simp [chk_source] at hc <;> subst hc <;> rfl
  exact h p hp ch hch

/-- C4: for a six-slot state with slots in [0,63) and a character `ch` at position `p` of
the alphabet, `incr_chksum` sets the index to `(index + 1) mod 1987` and slot `i` to
`chk_map[(num[i] + m + i) mod 63]` with `m = chk_map[(p + index) mod 63]` taken from the
index before the increment; the lookups are inside the table and the result again has six
slots in [0,63). -/
theorem incr_chksum_step (st : ChksumData) (ch : Char) (p : Nat)
    (hlen : st.num.length = CHKSUM_CHARS) (_hslots : ∀ v ∈ st.num, v < CHK_CHARS)
    (hp : p < CHK_CHARS) (hch : chk_source.get? p = some ch) :
    (incr_chksum st ch).index = (st.index + 1) % 1987 ∧
    (incr_chksum st ch).num.length = 6 ∧
    (∀ i, i < 6 →
      (incr_chksum st ch).num.get? i =
        chk_map.get? ((st.num.getD i 0 + chk_map.getD ((p + st.index) % 63) 0 + i) % 63)) ∧
    chk_map.get? ((p + st.index) % 63) = some (chk_map.getD ((p + st.index) % 63) 0) ∧
    (∀ v ∈ (incr_chksum st ch).num, v < 63) := by
  have hpos := find_c_pos_of_get ch p hp hch
  have hne : find_c_pos ch ≠ CHK_CHARS := by omega
  have hget : ∀ k, chk_map.get? (k % 63) = some (chk_map.getD (k % 63) 0) := by
    intro k
    have hk : k % 63 < chk_map.length := by simp [chk_map]; omega
    simp [List.getD, List.get?_eq_getElem?, List.getElem?_eq_getElem hk]
  obtain ⟨a, b, c, d, e, f, hnum⟩ := length_six st.num hlen
  have hstep : (incr_chksum st ch).num =
      (List.range CHKSUM_CHARS).foldl (incr_slot (chk_map.getD ((p + st.index) % 63) 0))
        st.num := by
    rw [incr_chksum_found st ch hne, hpos]; rfl
  refine ⟨by rw [incr_chksum_found st ch hne]; rfl, ?_, ?_, hget _, ?_⟩
  · rw [hstep, hnum, incr_loop_six]; rfl
  · intro i hi
    rw [hstep, hnum, incr_loop_six, hget]
    interval_cases i <;> simp [CHK_CHARS]
  · rw [hstep, hnum, incr_loop_six]
    intro v hv
    simp only [List.mem_cons, List.mem_singleton, List.not_mem_nil, or_false] at hv
    rcases hv with h | h | h | h | h | h <;> rw [h] <;> exact chk_map_getD_lt _

theorem incr_chksum_step_witness :
    (incr_chksum chksum_reset 'A').index = (chksum_reset.index + 1) % 1987 ∧
    (incr_chksum chksum_reset 'A').num.length = 6 :=
  ⟨(incr_chksum_step chksum_reset 'A' 10 (by decide) (by decide) (by decide) (by decide)).1,
   (incr_chksum_step chksum_reset 'A' 10 (by decide) (by decide) (by decide) (by decide)).2.1⟩

theorem base36_getD_mem (k : Nat) : base36.getD (k % 36) '0' ∈ base36 := by
  have h : ∀ j < 36, base36.getD j '0' ∈ base36 := by decide
  exact h _ (Nat.mod_lt _ (by decide))

theorem chk_source_getD_mod36 (k : Nat) :
    chk_source.getD (k % 36) '0' = base36.getD (k % 36) '0' ∧
    chk_source.get? (k % 36) = some (base36.getD (k % 36) '0') := by
  have h : ∀ j < 36, chk_source.getD j '0' = base36.getD j '0' ∧
      chk_source.get? j = some (base36.getD j '0') := by decide
  exact h _ (Nat.mod_lt _ (by decide))

theorem chksum_to_string_length (st : ChksumData) : (chksum_to_string st).length = 6 := by
  simp [chksum_to_string, CHKSUM_CHARS]

theorem chksum_to_string_get (st : ChksumData) (i : Nat) (hi : i < 6) :
    (chksum_to_string st).get? i = some (base36.getD (st.num.getD i 0 % 36) '0') := by
  simp only [chksum_to_string, List.get?_eq_getElem?, List.getElem?_map, CHKSUM_CHARS]
  rw [List.getElem?_range hi]
  simp only [Option.map_some', (chk_source_getD_mod36 (st.num.getD i 0)).1]

theorem chksum_to_string_mem (st : ChksumData) (c : Char) (hc : c ∈ chksum_to_string st) :
    c ∈ base36 := by
  simp only [chksum_to_string, List.mem_map] at hc
  obtain ⟨i, _, rfl⟩ := hc
  rw [(chk_source_getD_mod36 _).1]
  exact base36_getD_mem _

theorem base36_digit_or_upper (c : Char) (hc : c ∈ base36) :
    c.isDigit = true ∨ c.isUpper = true := by
  revert c
  decide

/-- C7: for every state reached from the fresh state by absorbing a string `s`,
`chksum_to_string` gives exactly 6 characters, the `i`-th being character number
`num[i] mod 36` of "0123456789ABCDEFGHIJKLMNOPQRSTUVWXYZ" (where slot `i` exists and the
lookup is inside `chk_source`), so every character is a digit or an upper-case letter. -/
theorem chksum_to_string_spec (s : List Char) :
    (chksum_to_string (chksum_string chksum_reset s)).length = 6 ∧
    (∀ i, i < 6 → ∃ v, (chksum_string chksum_reset s).num.get? i = some v ∧
        chk_source.get? (v % 36) = some (base36.getD (v % 36) '0') ∧
        (chksum_to_string (chksum_string chksum_reset s)).get? i
          = some (base36.getD (v % 36) '0')) ∧
    (∀ c ∈ chksum_to_string (chksum_string chksum_reset s),
        c ∈ base36 ∧ (c.isDigit = true ∨ c.isUpper = true)) := by
  have hinv := chksum_string_inv chksum_reset s chksum_reset_inv
  refine ⟨chksum_to_string_length _, ?_, ?_⟩
  · intro i hi
    have hlt : i < (chksum_string chksum_reset s).num.length := by
      rw [hinv.2.1]; exact hi
    refine ⟨(chksum_string chksum_reset s).num.getD i 0, ?_, (chk_source_getD_mod36 _).2,
      chksum_to_string_get _ i hi⟩
    simp [List.getD, List.get?_eq_getElem?, List.getElem?_eq_getElem hlt]
  · intro c hc
    exact ⟨chksum_to_string_mem _ c hc, base36_digit_or_upper c (chksum_to_string_mem _ c hc)⟩

/-- C8: `chk_map` has 63 entries, each in [0,63), no value repeated, and is a permutation
of 0..62; `chk_source` has 63 pairwise distinct characters, and each recognized character
is found at exactly one position `p < 63`. -/
theorem chk_map_permutation :
    chk_map.length = 63 ∧ (∀ v ∈ chk_map, v < 63) ∧ chk_map.Nodup ∧
    (∀ v, v < 63 → v ∈ chk_map) ∧
    chk_source.length = 63 ∧ chk_source.Nodup ∧
    (∀ c ∈ chk_source, find_c_pos c < 63 ∧ chk_source.get? (find_c_pos c) = some c ∧
      ∀ p, p < 63 → chk_source.get? p = some c → p = find_c_pos c) := by
  refine ⟨by decide, by decide, by decide, by decide, by decide, by decide, ?_⟩
  intro c hc
  refine ⟨(find_c_pos_mem c hc).1, (find_c_pos_mem c hc).2, ?_⟩
  intro p hp hget
  exact (find_c_pos_of_get c p hp hget).symm

theorem chksum_string_not_mem (st : ChksumData) (s : List Char)
    (h : ∀ c ∈ s, c ∉ chk_source) : chksum_string st s = st := by
  induction s with
  | nil => rfl
  | cons c rest ih =>
    have hc : c ∉ chk_source := h c (by simp)
    have hr : ∀ d ∈ rest, d ∉ chk_source := fun d hd => h d (by simp [hd])
    have := ih hr
    simp only [chksum_string, List.foldl_cons, incr_chksum_not_mem st c hc] at this ⊢
    exact this

theorem absorb_calls_inv (calls : List (Bool × List Char)) (st : ChksumData)
    (h : ChksumInv st) : ChksumInv (absorb_calls st calls) := by
  induction calls generalizing st with
  | nil => exact h
  | cons ch rest ih =>
    simp only [absorb_calls, List.foldl_cons]
    apply ih
    by_cases hb : ch.1 = true
    · simp only [hb, if_true]; exact chksum_string_inv st ch.2 h
    · simp only [hb]; exact chksum_string_inv st ch.2 h

/-- C9: `chksum_reset` gives index 1 and `num[i] = i` for `i < 6`; every state reached from
it by `chksum_string` and `chksum_binary` calls, in any order, has its index in [0,1987),
exactly six slots and every slot in [0,63); so for every next character `c` and slot `i < 6`
the lookups of `incr_chksum` (in `chk_map`) and of `chksum_to_string` (in `chk_source`)
are inside their tables. -/
theorem chksum_state_bounds (calls : List (Bool × List Char)) :
    chksum_reset.index = 1 ∧ (∀ i, i < 6 → chksum_reset.num.get? i = some i) ∧
    (absorb_calls chksum_reset calls).index < 1987 ∧
    (absorb_calls chksum_reset calls).num.length = 6 ∧
    (∀ v ∈ (absorb_calls chksum_reset calls).num, v < 63) ∧
    (∀ (c : Char) (i : Nat), i < 6 →
      (find_c_pos c + (absorb_calls chksum_reset calls).index) % 63 < chk_map.length ∧
      i < (absorb_calls chksum_reset calls).num.length ∧
      ((absorb_calls chksum_reset calls).num.getD i 0
          + chk_map.getD ((find_c_pos c + (absorb_calls chksum_reset calls).index) % 63) 0
          + i) % 63 < chk_map.length ∧
      (absorb_calls chksum_reset calls).num.getD i 0 % 36 < chk_source.length) := by
  obtain ⟨hi, hl, hv⟩ := absorb_calls_inv calls chksum_reset chksum_reset_inv
  have hml : chk_map.length = 63 := by decide
  have hsl : chk_source.length = 63 := by decide
  refine ⟨rfl, by decide, hi, hl, hv, ?_⟩
  intro c i h6
  refine ⟨?_, ?_, ?_, ?_⟩
  · rw [hml]; exact Nat.mod_lt _ (by decide)
  · rw [hl]; exact h6
  · rw [hml]; exact Nat.mod_lt _ (by decide)
  · rw [hsl]
    have := Nat.mod_lt ((absorb_calls chksum_reset calls).num.getD i 0) (show 0 < 36 by decide)
    omega

/-- C10: golden vectors: the checksum of the empty input, and of any input without a
recognized character, prints as "012345"; the checksum of "0" prints as "B7RYLN" and the
checksum of "00" prints as "F9P2PY". -/
theorem golden_vectors :
    checksum [] = "012345".toList ∧
    (∀ s : List Char, (∀ c ∈ s, c ∉ chk_source) → checksum s = "012345".toList) ∧
    checksum "0".toList = "B7RYLN".toList ∧
    checksum "00".toList = "F9P2PY".toList := by
  refine ⟨by decide, ?_, by decide, by decide⟩
  intro s hs
  simp only [checksum, chksum_string_not_mem chksum_reset s hs]
  decide

theorem golden_vectors_witness :
    (∀ c ∈ " -\n".toList, c ∉ chk_source) ∧ checksum " -\n".toList = "012345".toList :=
  ⟨by decide, golden_vectors.2.1 " -\n".toList (by decide)⟩

/-! ## Theorems: trailer verification -/

theorem getLastD_cons_eq {α : Type} (x d : α) (l : List α) :
    (x :: l).getLastD d = l.getLastD x := by
  cases l <;> rfl

theorem igc_scan_eq (fuel : Nat) (chk : ChksumData) (buf file : List Char) :
    igc_scan fuel chk buf file =
      (chksum_string chk (((fgets_lines_fuel fuel file).takeWhile notG).map cstr).flatten,
       ((fgets_lines_fuel fuel file).dropWhile notG).head?.getD
         (((fgets_lines_fuel fuel file).takeWhile notG).getLastD buf)) := by
  induction fuel generalizing chk buf file with
  | zero => simp [igc_scan, fgets_lines_fuel, chksum_string]
  | succ fuel ih =>
    cases hf : fgets file with
    | none => simp [igc_scan, fgets_lines_fuel, hf, chksum_string]
    | some lr =>
      obtain ⟨line, rest⟩ := lr
      by_cases hG : line.head? = some 'G'
      · simp [igc_scan, fgets_lines_fuel, hf, hG, notG, chksum_string]
      · have hn : notG line = true := by simp [notG, hG]
        simp only [igc_scan, fgets_lines_fuel, hf, hG, if_false, ih]
        simp only [List.takeWhile_cons, List.dropWhile_cons, hn, if_true, List.map_cons,
          List.flatten_cons, chksum_string_append, getLastD_cons_eq, Bool.not_true,
          Bool.false_eq_true, if_false]

theorem takeWhile_notG_split (pre post : List (List Char)) (L : List Char)
    (hpre : ∀ l ∈ pre, l.head? ≠ some 'G') (hL : L.head? = some 'G') :
    (pre ++ L :: post).takeWhile notG = pre ∧ (pre ++ L :: post).dropWhile notG = L :: post := by
  induction pre with
  | nil => simp [List.takeWhile_cons, List.dropWhile_cons, notG, hL]
  | cons x rest ih =>
    have hx : notG x = true := by simp [notG, hpre x (by simp)]
    have := ih (fun l hl => hpre l (by simp [hl]))
    simp [List.takeWhile_cons, List.dropWhile_cons, hx, this]

theorem takeWhile_notG_all (ls : List (List Char)) (h : ∀ l ∈ ls, l.head? ≠ some 'G') :
    ls.takeWhile notG = ls ∧ ls.dropWhile notG = [] := by
  induction ls with
  | nil => simp
  | cons x rest ih =>
    have hx : notG x = true := by simp [notG, h x (by simp)]
    have := ih (fun l hl => h l (by simp [hl]))
    simp [List.takeWhile_cons, List.dropWhile_cons, hx, this]

theorem fgets_scan_append (n : Nat) (file : List Char) :
    (fgets_scan n file).1 ++ (fgets_scan n file).2 = file := by
  induction n generalizing file with
  | zero => simp [fgets_scan]
  | succ n ih =>
    cases file with
    | nil => simp [fgets_scan]
    | cons c rest =>
      by_cases hc : c = '\n'
      · simp [fgets_scan, hc]
      · simp [fgets_scan, hc, ih rest]

theorem fgets_scan_length (n : Nat) (file : List Char) : (fgets_scan n file).1.length ≤ n := by
  induction n generalizing file with
  | zero => simp [fgets_scan]
  | succ n ih =>
    cases file with
    | nil => simp [fgets_scan]
    | cons c rest =>
      by_cases hc : c = '\n'
      · simp [fgets_scan, hc]
      · simpa [fgets_scan, hc] using ih rest

theorem fgets_scan_ne_nil (n : Nat) (c : Char) (rest : List Char) :
    (fgets_scan (n + 1) (c :: rest)).1 ≠ [] := by
  by_cases hc : c = '\n' <;> simp [fgets_scan, hc]

theorem fgets_some (file line rest : List Char) (h : fgets file = some (line, rest)) :
    line ≠ [] ∧ line.length ≤ MAXBUF - 1 ∧ line ++ rest = file := by
  cases file with
  | nil => simp [fgets] at h
  | cons c t =>
    simp only [fgets, Option.some.injEq] at h
    have h1 : line = (fgets_scan (MAXBUF - 1) (c :: t)).1 := by rw [h]
    have h2 : rest = (fgets_scan (MAXBUF - 1) (c :: t)).2 := by rw [h]
    subst h1 h2
    exact ⟨fgets_scan_ne_nil 998 c t, fgets_scan_length _ _, fgets_scan_append _ _⟩

/-- With fuel above the stream length the lines delivered by `fgets` are all of the stream:
the fuel is never exhausted. -/
theorem fgets_lines_fuel_flatten (fuel : Nat) (file : List Char) (h : file.length < fuel) :
    (fgets_lines_fuel fuel file).flatten = file := by
  induction fuel generalizing file with
  | zero => omega
  | succ fuel ih =>
    cases hf : fgets file with
    | none =>
      cases file with
      | nil => simp [fgets_lines_fuel, hf]
      | cons c t => simp [fgets] at hf
    | some lr =>
      obtain ⟨line, rest⟩ := lr
      obtain ⟨hne, _, happ⟩ := fgets_some file line rest hf
      have hlen : rest.length < fuel := by
        have h1 : line.length + rest.length = file.length := by
          rw [← happ, List.length_append]
        have h2 : 0 < line.length := List.length_pos.mpr hne
        omega
      simp only [fgets_lines_fuel, hf, List.flatten_cons, ih rest hlen, happ]

theorem fgets_lines_flatten (file : List Char) : (fgets_lines file).flatten = file :=
  fgets_lines_fuel_flatten _ file (Nat.lt_succ_self _)

theorem cstr_of_no_nul (l : List Char) (h : '\x00' ∉ l) : cstr l = l := by
  unfold cstr
  rw [List.takeWhile_eq_self_iff]
  intro c hc
  have : c ≠ '\x00' := fun e => h (e ▸ hc)
  simpa using this

theorem chksum_matches_iff (chksum line : List Char) (hc : chksum.length = 6)
    (hl : 7 ≤ line.length) :
    chksum_matches chksum line = true ↔ (line.drop 1).take 6 = chksum := by
  obtain ⟨a, b, c, d, e, f, rfl⟩ := length_six chksum hc
  match line, hl with
  | x0 :: x1 :: x2 :: x3 :: x4 :: x5 :: x6 :: rest, _ =>
    simp [chksum_matches, CHKSUM_CHARS, List.range, List.range.loop]
    constructor
    · rintro ⟨h0, h1, h2, h3, h4, h5⟩; simp [h0, h1, h2, h3, h4, h5]
    · rintro ⟨h0, h1, h2, h3, h4, h5⟩; simp [h0, h1, h2, h3, h4, h5]

theorem igc_scan_found (doc buf0 : List Char) (pre post : List (List Char)) (L : List Char)
    (hls : fgets_lines doc = pre ++ L :: post)
    (hpre : ∀ l ∈ pre, l.head? ≠ some 'G') (hL : L.head? = some 'G') :
    igc_scan (doc.length + 1) chksum_reset buf0 doc =
      (chksum_string chksum_reset (pre.map cstr).flatten, L) := by
  rw [igc_scan_eq]
  have hls2 : fgets_lines_fuel (doc.length + 1) doc = pre ++ L :: post := hls
  obtain ⟨h1, h2⟩ := takeWhile_notG_split pre post L hpre hL
  rw [hls2, h1, h2]
  rfl

theorem igc_scan_not_found (doc buf0 : List Char)
    (hall : ∀ l ∈ fgets_lines doc, l.head? ≠ some 'G') :
    igc_scan (doc.length + 1) chksum_reset buf0 doc =
      (chksum_string chksum_reset ((fgets_lines doc).map cstr).flatten,
       (fgets_lines doc).getLastD buf0) := by
  rw [igc_scan_eq]
  obtain ⟨h1, h2⟩ := takeWhile_notG_all (fgets_lines doc) hall
  have e : fgets_lines_fuel (doc.length + 1) doc = fgets_lines doc := rfl
  rw [e, h1, h2]
  rfl

/-- The answer of `chksum_igc_file` once the first line beginning with 'G' is known. -/
theorem igc_result_of_found (doc buf0 : List Char) (pre post : List (List Char))
    (L : List Char) (hls : fgets_lines doc = pre ++ L :: post)
    (hpre : ∀ l ∈ pre, l.head? ≠ some 'G') (hL : L.head? = some 'G') :
    chksum_igc_file buf0 (some doc) =
      if (cstr L).length < 7 then CHKSUM_RESULT.CHKSUM_TOO_SHORT
      else if chksum_matches (checksum (pre.map cstr).flatten) (cstr L)
        then CHKSUM_RESULT.CHKSUM_OK else CHKSUM_RESULT.CHKSUM_BAD := by
  have hscan := igc_scan_found doc buf0 pre post L hls hpre hL
  simp only [chksum_igc_file, chksum_igc_stream, hscan]
  rw [if_neg (by simpa using hL)]
  rfl

theorem getLastD_mem {α : Type} (l : List α) (d : α) (h : l ≠ []) : l.getLastD d ∈ l := by
  induction l generalizing d with
  | nil => exact absurd rfl h
  | cons x rest ih =>
    rw [getLastD_cons_eq]
    cases rest with
    | nil => simp [List.getLastD]
    | cons y t => exact List.mem_cons_of_mem _ (ih x (by simp))

theorem igc_decision (buf0 doc : List Char) :
    ((∀ l ∈ fgets_lines doc, l.head? ≠ some 'G') →
      (doc ≠ [] ∨ buf0.head? ≠ some 'G') →
      chksum_igc_file buf0 (some doc) = CHKSUM_RESULT.CHKSUM_NOT_FOUND) ∧
    (∀ (pre post : List (List Char)) (L : List Char),
      fgets_lines doc = pre ++ L :: post →
      (∀ l ∈ pre, l.head? ≠ some 'G') → L.head? = some 'G' → 7 ≤ (cstr L).length →
      (chksum_igc_file buf0 (some doc) = CHKSUM_RESULT.CHKSUM_OK ↔
        ((cstr L).drop 1).take 6 = checksum (pre.map cstr).flatten) ∧
      (chksum_igc_file buf0 (some doc) ≠ CHKSUM_RESULT.CHKSUM_OK →
        chksum_igc_file buf0 (some doc) = CHKSUM_RESULT.CHKSUM_BAD) ∧
      ('\x00' ∉ doc → cstr L = L ∧ (pre.map cstr).flatten = pre.flatten)) := by
  constructor
  · intro hall hne
    have hscan := igc_scan_not_found doc buf0 hall
    have hhead : ((fgets_lines doc).getLastD buf0).head? ≠ some 'G' := by
      by_cases hnil : fgets_lines doc = []
      · have hdoc : doc = [] := by
          have := fgets_lines_flatten doc
          rw [hnil] at this
          simpa using this.symm
        rcases hne with h | h
        · exact absurd hdoc h
        · rw [hnil]; exact h
      · exact hall _ (getLastD_mem _ buf0 hnil)
    simp only [chksum_igc_file, chksum_igc_stream, hscan]
    rw [if_pos hhead]
  · intro pre post L hls hpre hL hlen
    have hscan := igc_scan_found doc buf0 pre post L hls hpre hL
    have hnotlt : ¬ (cstr L).length < CHKSUM_CHARS + 1 := by
      simp only [CHKSUM_CHARS]; omega
    have hval : chksum_igc_file buf0 (some doc) =
        if chksum_matches (chksum_to_string (chksum_string chksum_reset (pre.map cstr).flatten))
            (cstr L) then CHKSUM_RESULT.CHKSUM_OK else CHKSUM_RESULT.CHKSUM_BAD := by
      simp only [chksum_igc_file, chksum_igc_stream, hscan]
      rw [if_neg (by simpa using hL), if_neg hnotlt]
    have hiff := chksum_matches_iff
      (chksum_to_string (chksum_string chksum_reset (pre.map cstr).flatten)) (cstr L)
      (chksum_to_string_length _) hlen
    refine ⟨?_, ?_, ?_⟩
    · rw [hval]
      by_cases hm : chksum_matches
          (chksum_to_string (chksum_string chksum_reset (pre.map cstr).flatten)) (cstr L) = true
      · simp only [hm, if_true, true_iff]
        exact hiff.mp hm
      · simp only [hm, if_false]
        constructor
        · intro h; cases h
        · intro h; exact absurd (hiff.mpr h) hm
    · rw [hval]
      by_cases hm : chksum_matches
          (chksum_to_string (chksum_string chksum_reset (pre.map cstr).flatten)) (cstr L) = true
      · simp [hm]
      · simp [hm]
    · intro hnul
      have hflat := fgets_lines_flatten doc
      have hmem : ∀ l ∈ fgets_lines doc, '\x00' ∉ l := by
        intro l hl h0
        apply hnul
        rw [← hflat]
        exact List.mem_flatten.mpr ⟨l, hl, h0⟩
      refine ⟨cstr_of_no_nul L (hmem L (by rw [hls]; simp)), ?_⟩
      congr 1
      rw [show pre.map cstr = pre.map id from
        List.map_congr_left (fun l hl => cstr_of_no_nul l (hmem l (by rw [hls]; simp [hl])))]
      simp

/-! ## Theorems: composition of the document -/

theorem fprintf_of_no_percent (env : Env) (s : List Char) (h : '%' ∉ s) :
    fprintf env s = some s := by
  unfold fprintf
  rw [if_neg h]

theorem map_fprintf_of_no_percent (env : Env) (lines : List (List Char))
    (h : ∀ l ∈ lines, '%' ∉ l) : lines.map (fprintf env) = lines.map some :=
  List.map_congr_left (fun l hl => fprintf_of_no_percent env l (h l hl))

theorem map_some_injective (a b : List (List Char)) (h : a.map some = b.map some) : a = b := by
  induction a generalizing b with
  | nil =>
    cases b with
    | nil => rfl
    | cons y ys => simp at h
  | cons x xs ih =>
    cases b with
    | nil => simp at h
    | cons y ys =>
      simp only [List.map_cons, List.cons.injEq, Option.some.injEq] at h
      rw [h.1, ih ys h.2]

theorem written_eq_of_no_percent (env : Env) (lines written : List (List Char))
    (h : ∀ l ∈ lines, '%' ∉ l) (hw : lines.map (fprintf env) = written.map some) :
    written = lines := by
  rw [map_fprintf_of_no_percent env lines h] at hw
  exact (map_some_injective _ _ hw).symm

theorem foldl_write_record_none (env : Env) (recs : List (Option (List Char))) :
    recs.foldl (write_record env) none = none := by
  induction recs with
  | nil => rfl
  | cons r rest ih => simpa [List.foldl_cons, write_record] using ih

theorem foldl_write_record_some (env : Env) (recs : List (Option (List Char)))
    (chk chk2 : ChksumData) (f f2 : List Char)
    (h : recs.foldl (write_record env) (some (chk, f)) = some (chk2, f2)) :
    ∃ lines written : List (List Char), recs = lines.map some ∧
      lines.map (fprintf env) = written.map some ∧
      chk2 = chksum_string chk lines.flatten ∧ f2 = f ++ written.flatten := by
  induction recs generalizing chk f with
  | nil =>
    simp only [List.foldl_nil, Option.some.injEq, Prod.mk.injEq] at h
    exact ⟨[], [], rfl, rfl, by simp [chksum_string, h.1], by simp [h.2]⟩
  | cons r rest ih =>
    cases r with
    | none =>
      simp only [List.foldl_cons, write_record, foldl_write_record_none] at h
      cases h
    | some l =>
      cases hw : fprintf env l with
      | none =>
        simp only [List.foldl_cons, write_record, hw, foldl_write_record_none] at h
        cases h
      | some w =>
        simp only [List.foldl_cons, write_record, hw] at h
        obtain ⟨lines, written, h1, h2, h3, h4⟩ := ih _ _ h
        refine ⟨l :: lines, w :: written, by simp [h1], by simp [hw, h2], ?_, ?_⟩
        · rw [h3, List.flatten_cons, chksum_string_append]
        · rw [h4, List.flatten_cons, List.append_assoc]

theorem foldl_write_record_map_some (env : Env) (lines written : List (List Char))
    (hw : lines.map (fprintf env) = written.map some) (chk : ChksumData) (f : List Char) :
    (lines.map some).foldl (write_record env) (some (chk, f)) =
      some (chksum_string chk lines.flatten, f ++ written.flatten) := by
  induction lines generalizing written chk f with
  | nil =>
    cases written with
    | nil => simp [chksum_string]
    | cons y ys => simp at hw
  | cons l rest ih =>
    cases written with
    | nil => simp at hw
    | cons y ys =>
      simp only [List.map_cons, List.cons.injEq] at hw
      simp only [List.map_cons, List.foldl_cons, write_record, hw.1, ih ys hw.2,
        List.flatten_cons, chksum_string_append, List.append_assoc]

/-- The document written by `igc_write_file`: what `fprintf` wrote for the records in order,
then the 'G' record holding the checksum of the records themselves. -/
theorem igc_write_file_written (env : Env) (g : Session) (doc : List Char)
    (h : igc_write_file env g = some doc) :
    env.fopen_ok = true ∧
    ∃ lines written : List (List Char), igc_records env g = lines.map some ∧
      lines.map (fprintf env) = written.map some ∧
      doc = written.flatten ++ ['G'] ++ checksum lines.flatten ++ ['\n'] := by
  unfold igc_write_file at h
  by_cases hf : env.fopen_ok = true
  · simp only [hf, Bool.not_true, Bool.false_eq_true, if_false] at h
    cases hfold : (igc_records env g).foldl (write_record env) (some (chksum_reset, [])) with
    | none => rw [hfold] at h; cases h
    | some st =>
      obtain ⟨chk2, f2⟩ := st
      rw [hfold] at h
      simp only [Option.some.injEq] at h
      obtain ⟨lines, written, h1, h2, h3, h4⟩ := foldl_write_record_some _ _ _ _ _ _ hfold
      refine ⟨hf, lines, written, h1, h2, ?_⟩
      rw [← h, h3, h4]
      rfl
  · simp [hf] at h

theorem percent_free_lines (env : Env) (g : Session) (lines : List (List Char))
    (hp : percent_free env g) (hrec : igc_records env g = lines.map some) :
    ∀ l ∈ lines, '%' ∉ l := by
  intro l hl
  have := hp (some l) (by rw [hrec]; exact List.mem_map_of_mem _ hl)
  simpa [no_percent] using this

/-- The document written for a session whose records hold no '%': the records in order,
then the 'G' record holding the checksum of all of them. -/
theorem igc_write_file_some (env : Env) (g : Session) (doc : List Char)
    (hp : percent_free env g) (h : igc_write_file env g = some doc) :
    env.fopen_ok = true ∧
    ∃ lines : List (List Char), igc_records env g = lines.map some ∧
      doc = lines.flatten ++ ['G'] ++ checksum lines.flatten ++ ['\n'] := by
  obtain ⟨hf, lines, written, hrec, hw, hdoc⟩ := igc_write_file_written env g doc h
  rw [written_eq_of_no_percent env lines written (percent_free_lines env g lines hp hrec) hw]
    at hdoc
  exact ⟨hf, lines, hrec, hdoc⟩

theorem igc_write_file_of_written (env : Env) (g : Session) (lines written : List (List Char))
    (hf : env.fopen_ok = true) (h : igc_records env g = lines.map some)
    (hw : lines.map (fprintf env) = written.map some) :
    igc_write_file env g =
      some (written.flatten ++ ['G'] ++ checksum lines.flatten ++ ['\n']) := by
  unfold igc_write_file
  simp only [hf, Bool.not_true, Bool.false_eq_true, if_false, h,
    foldl_write_record_map_some env lines written hw]
  rfl

theorem plainb_append (a b : List Char) : plainb (a ++ b) = (plainb a && plainb b) := by
  simp [plainb, List.all_append]

theorem plainb_cons (c : Char) (b : List Char) :
    plainb (c :: b) = ((c != '\n' && c != '\x00') && plainb b) := by
  simp [plainb]

theorem plainb_mem (s : List Char) (h : plainb s = true) :
    '\n' ∉ s ∧ '\x00' ∉ s := by
  simp only [plainb, List.all_eq_true, Bool.and_eq_true, bne_iff_ne, ne_eq] at h
  exact ⟨fun hm => (h _ hm).1 rfl, fun hm => (h _ hm).2 rfl⟩

theorem plainb_of_forall (s : List Char) (h : ∀ c ∈ s, c ≠ '\n' ∧ c ≠ '\x00') :
    plainb s = true := by
  simp only [plainb, List.all_eq_true, Bool.and_eq_true, bne_iff_ne, ne_eq]
  exact h

theorem plainb_drop (s : List Char) (n : Nat) (h : plainb s = true) :
    plainb (s.drop n) = true := by
  simp only [plainb, List.all_eq_true] at h ⊢
  exact fun c hc => h c (List.mem_of_mem_drop hc)

theorem digitChar_plain (n : Nat) :
    Nat.digitChar (n % 10) ≠ '\n' ∧ Nat.digitChar (n % 10) ≠ '\x00' := by
  have h : ∀ d < 10, Nat.digitChar d ≠ '\n' ∧ Nat.digitChar d ≠ '\x00' := by decide
  exact h _ (Nat.mod_lt _ (by decide))

theorem toDigitsCore_plain (fuel n : Nat) (ds : List Char) (h : plainb ds = true) :
    plainb (Nat.toDigitsCore 10 fuel n ds) = true := by
  induction fuel generalizing n ds with
  | zero => simpa [Nat.toDigitsCore] using h
  | succ fuel ih =>
    have hd : plainb (Nat.digitChar (n % 10) :: ds) = true := by
      rw [plainb_cons, h]
      have := digitChar_plain n
      simp [this.1, this.2]
    simp only [Nat.toDigitsCore]
    split
    · exact hd
    · exact ih _ _ hd

theorem toDigits_plain (n : Nat) : plainb (Nat.toDigits 10 n) = true :=
  toDigitsCore_plain _ _ [] rfl

theorem fmt_d_plain (p : Nat) (v : Int) : plainb (fmt_d p v) = true := by
  unfold fmt_d
  rw [plainb_append, plainb_append, toDigits_plain]
  have h1 : plainb (if v < 0 then ['-'] else []) = true := by split <;> rfl
  have h2 : plainb (List.replicate (p - (Nat.toDigits 10 v.natAbs).length) '0') = true := by
    apply plainb_of_forall
    intro c hc
    rw [List.eq_of_mem_replicate hc]
    decide
  rw [h1, h2]; rfl

theorem base36_plain (c : Char) (hc : c ∈ base36) : c ≠ '\n' ∧ c ≠ '\x00' := by
  revert c
  decide

theorem chksum_to_string_plain (st : ChksumData) : plainb (chksum_to_string st) = true :=
  plainb_of_forall _ (fun c hc => base36_plain c (chksum_to_string_mem st c hc))

theorem path_to_name_plain (fe : List Char → Bool) (path : List Char)
    (h : plainb path = true) : plainb (path_to_name fe path) = true := by
  unfold path_to_name
  split
  · decide
  · exact plainb_drop _ _ h

theorem startsOk_append {A : List Char} (T : List Char) (h : startsOk A = true) :
    startsOk (A ++ T) = true := by
  cases A with
  | nil => simp [startsOk] at h
  | cons c rest => simpa [startsOk] using h

theorem emit_eq (s l : List Char) (h : emit s = some l) : l = s ∧ s.length < MAXBUF := by
  unfold emit at h
  split at h
  · rename_i hc
    exact ⟨(Option.some.inj h).symm, hc⟩
  · cases h

theorem emit_line_shape (p l : List Char) (h1 : startsOk p = true) (h2 : plainb p = true)
    (h : emit (p ++ ['\n']) = some l) : line_shape l := by
  obtain ⟨rfl, hlen⟩ := emit_eq _ _ h
  refine ⟨startsOk_append _ h1, hlen, by simp, ?_⟩
  rw [List.dropLast_concat]; exact h2

theorem emit_closed (s l : List Char) (hs : line_shape s) (h : emit s = some l) :
    line_shape l := by
  obtain ⟨rfl, _⟩ := emit_eq _ _ h
  exact hs

theorem header_records_shape (g : Session) (hT : plainb g.TITLE = true)
    (hI : plainb g.ATC_ID = true) (r : Option (List Char)) (hr : r ∈ header_records g)
    (l : List Char) (hl : r = some l) : line_shape l := by
  simp only [header_records, List.mem_cons, List.mem_singleton, List.not_mem_nil,
    or_false] at hr
  rcases hr with h | h | h | h | h | h | h | h | h | h | h | h | h | h | h | h <;>
    rw [h] at hl <;>
    first
    | exact emit_closed _ _ (by decide) hl
    | exact emit_line_shape _ _ (startsOk_append _ (by decide))
        (by simp only [plainb_append, hT, hI]; decide) hl
    | exact emit_line_shape _ _
        (startsOk_append _ (startsOk_append _ (startsOk_append _ (by decide))))
        (by simp only [plainb_append, fmt_d_plain]; decide) hl

theorem b_format_shape (hours minutes secs lat_DD lat_MM lat_mmm : Int) (NS : Char)
    (long_DDD long_MM long_mmm : Int) (EW : Char) (altitude FXA ENL : Int)
    (hNS : plainb [NS] = true) (hEW : plainb [EW] = true) (l : List Char)
    (hl : emit (b_format hours minutes secs lat_DD lat_MM lat_mmm NS long_DDD long_MM
      long_mmm EW altitude FXA ENL) = some l) : line_shape l := by
  unfold b_format at hl
  refine emit_line_shape _ _ ?_ ?_ hl
  · iterate 16 apply startsOk_append
    rfl
  · simp only [plainb_append, fmt_d_plain, Bool.and_true, hNS, hEW]
    decide

theorem b_record_shape (b : igc_b) (l : List Char) (hl : emit (b_record b) = some l) :
    line_shape l := by
  unfold b_record at hl
  refine b_format_shape _ _ _ _ _ _ _ _ _ _ _ _ _ _ ?_ ?_ l hl
  · split_ifs <;> decide
  · split_ifs <;> decide

theorem date_time_line_shape (today : Tm) (l : List Char)
    (hl : date_time_line today = some l) : line_shape l := by
  unfold date_time_line at hl
  simp only [] at hl
  split at hl
  · refine emit_line_shape _ _ ?_ ?_ hl
    · iterate 9 apply startsOk_append
      rfl
    · simp only [plainb_append, fmt_d_plain, toDigits_plain, Bool.and_true]
      decide
  · cases hl

theorem checksum_line_shape (A x path l : List Char) (fe : List Char → Bool)
    (hA : startsOk A = true) (hA2 : plainb A = true) (hx : plainb x = true)
    (hp : plainb path = true)
    (hl : emit (A ++ x ++ " (".toList ++ path_to_name fe path ++ [')'] ++ ['\n']) = some l) :
    line_shape l := by
  refine emit_line_shape _ _ ?_ ?_ hl
  · iterate 4 apply startsOk_append
    exact hA
  · simp only [plainb_append, hA2, hx, path_to_name_plain fe path hp]
    decide

theorem comment_records_shape (env : Env) (g : Session) (hg : single_line_session g)
    (r : Option (List Char)) (hr : r ∈ comment_records env g)
    (l : List Char) (hl : r = some l) : line_shape l := by
  obtain ⟨_, _, h1, h2, h3, h4, h5, h6, p1, p2, p3, p4, p5, p6, _⟩ := hg
  simp only [comment_records, List.mem_cons, List.mem_singleton, List.not_mem_nil,
    or_false] at hr
  rcases hr with h | h | h | h | h | h | h | h | h | h | h <;> rw [h] at hl
  · exact date_time_line_shape _ _ hl
  · exact checksum_line_shape _ _ _ _ _ (by decide) (by decide) h1 p1 hl
  · exact checksum_line_shape _ _ _ _ _ (by decide) (by decide) h3 p3 hl
  · exact checksum_line_shape _ _ _ _ _ (by decide) (by decide) h4 p4 hl
  · exact checksum_line_shape _ _ _ _ _ (by decide) (by decide) h6 p6 hl
  · exact checksum_line_shape _ _ _ _ _ (by decide) (by decide) h5 p5 hl
  · exact checksum_line_shape _ _ _ _ _ (by decide) (by decide) h2 p2 hl
  · split at hl <;> exact emit_closed _ _ (by decide) hl
  · split at hl <;> exact emit_closed _ _ (by decide) hl
  · split at hl <;> exact emit_closed _ _ (by decide) hl
  · refine emit_line_shape _ _ ?_ ?_ hl
    · iterate 2 apply startsOk_append
      rfl
    · simp only [plainb_append, chksum_chksum, chksum_to_string_plain]
      decide

theorem task_records_shape (g : Session) (hg : single_line_session g)
    (r : Option (List Char)) (hr : r ∈ task_records g)
    (l : List Char) (hl : r = some l) : l = [] ∨ line_shape l := by
  have hall := hg.2.2.2.2.2.2.2.2.2.2.2.2.2.2
  have key : ∀ s : List Char, s ∈ task_strings g → emit_record s = some l →
      l = [] ∨ line_shape l := by
    intro s hs he
    unfold emit_record at he
    rw [← Option.some.inj he]; exact hall s hs
  unfold task_records at hr
  unfold task_strings at key
  split at hr
  · rename_i hc
    simp only [hc, if_true] at key
    simp only [List.mem_append, List.mem_cons, List.mem_singleton, List.not_mem_nil,
      or_false, List.mem_map, List.mem_range] at hr key
    rcases hr with ((h | h) | ⟨i, hi, h⟩) | h
    · exact key _ (Or.inl (Or.inl (Or.inl rfl))) (by rw [← hl, h])
    · exact key _ (Or.inl (Or.inl (Or.inr rfl))) (by rw [← hl, h])
    · exact key _ (Or.inl (Or.inr ⟨i, hi, rfl⟩)) (by rw [← hl, ← h])
    · exact key _ (Or.inr rfl) (by rw [← hl, h])
  · simp at hr

theorem igc_records_shape (env : Env) (g : Session) (hg : single_line_session g)
    (r : Option (List Char)) (hr : r ∈ igc_records env g)
    (l : List Char) (hl : r = some l) : l = [] ∨ line_shape l := by
  simp only [igc_records, List.mem_append, List.mem_map] at hr
  rcases hr with ((h | h) | h) | ⟨b, _, h⟩
  · exact Or.inr (header_records_shape g hg.1 hg.2.1 r h l hl)
  · exact task_records_shape g hg r h l hl
  · exact Or.inr (comment_records_shape env g hg r h l hl)
  · exact Or.inr (b_record_shape b l (by rw [h, hl]))

/-! ## Theorems: reading a composed document back -/

theorem fgets_scan_line (p rest : List Char) (n : Nat) (hp : '\n' ∉ p)
    (hn : p.length + 1 ≤ n) : fgets_scan n (p ++ '\n' :: rest) = (p ++ ['\n'], rest) := by
  induction p generalizing n with
  | nil =>
    obtain ⟨m, rfl⟩ : ∃ m, n = m + 1 := ⟨n - 1, by simp at hn; omega⟩
    simp [fgets_scan]
  | cons c t ih =>
    obtain ⟨m, rfl⟩ : ∃ m, n = m + 1 := ⟨n - 1, by simp at hn; omega⟩
    have hc : c ≠ '\n' := fun e => hp (by simp [e])
    have ht : '\n' ∉ t := fun e => hp (by simp [e])
    have := ih m ht (by simp at hn; omega)
    simp [fgets_scan, hc, this]

theorem fgets_of_ne_nil (file : List Char) (h : file ≠ []) :
    fgets file = some (fgets_scan (MAXBUF - 1) file) := by
  cases file with
  | nil => exact absurd rfl h
  | cons c t => rfl

/-- A complete line: it fits the line buffer and ends with its only newline. -/
theorem fgets_complete_line (l rest : List Char) (hlen : l.length < MAXBUF)
    (hlast : l.getLast? = some '\n') (hplain : plainb l.dropLast = true) :
    fgets (l ++ rest) = some (l, rest) := by
  have hl : l = l.dropLast ++ ['\n'] := by
    have := List.dropLast_append_getLast? '\n' (by simpa using hlast)
    exact this.symm
  have hnl : '\n' ∉ l.dropLast := (plainb_mem _ hplain).1
  have hlen2 : l.dropLast.length + 1 ≤ MAXBUF - 1 := by
    have : l.length = l.dropLast.length + 1 := by
      conv_lhs => rw [hl]
      simp
    simp only [MAXBUF] at hlen ⊢; omega
  have hscan := fgets_scan_line l.dropLast rest (MAXBUF - 1) hnl hlen2
  have happ : l ++ rest = l.dropLast ++ '\n' :: rest := by
    conv_lhs => rw [hl]
    simp
  rw [happ, fgets_of_ne_nil _ (by simp), hscan, ← hl]

theorem fgets_lines_fuel_complete (ls : List (List Char)) (fuel : Nat)
    (h : ∀ l ∈ ls, l.length < MAXBUF ∧ l.getLast? = some '\n' ∧ plainb l.dropLast = true)
    (hfuel : ls.length < fuel) : fgets_lines_fuel fuel ls.flatten = ls := by
  induction ls generalizing fuel with
  | nil =>
    obtain ⟨m, rfl⟩ : ∃ m, fuel = m + 1 := ⟨fuel - 1, by simp at hfuel; omega⟩
    simp [fgets_lines_fuel, fgets]
  | cons l rest ih =>
    obtain ⟨m, rfl⟩ : ∃ m, fuel = m + 1 := ⟨fuel - 1, by simp at hfuel; omega⟩
    obtain ⟨h1, h2, h3⟩ := h l (by simp)
    have hf := fgets_complete_line l rest.flatten h1 h2 h3
    simp only [List.flatten_cons, fgets_lines_fuel, hf]
    rw [ih m (fun x hx => h x (by simp [hx])) (by simp at hfuel; omega)]

theorem length_le_flatten_length (ls : List (List Char)) (h : ∀ l ∈ ls, l ≠ []) :
    ls.length ≤ ls.flatten.length := by
  induction ls with
  | nil => simp
  | cons l rest ih =>
    have h1 : 0 < l.length := List.length_pos.mpr (h l (by simp))
    have h2 := ih (fun x hx => h x (by simp [hx]))
    simp only [List.flatten_cons, List.length_cons, List.length_append]
    omega

theorem fgets_lines_complete (ls : List (List Char))
    (h : ∀ l ∈ ls, l.length < MAXBUF ∧ l.getLast? = some '\n' ∧ plainb l.dropLast = true) :
    fgets_lines ls.flatten = ls := by
  apply fgets_lines_fuel_complete ls _ h
  have hne : ∀ l ∈ ls, l ≠ [] := by
    intro l hl e
    have := (h l hl).2.1
    rw [e] at this
    simp at this
  have := length_le_flatten_length ls hne
  omega

theorem fgets_lines_fuel_newline (ls : List (List Char)) (fuel : Nat)
    (h : ∀ l ∈ ls, l.length < MAXBUF ∧ l.getLast? = some '\n' ∧ '\n' ∉ l.dropLast)
    (hfuel : ls.length < fuel) : fgets_lines_fuel fuel ls.flatten = ls := by
  induction ls generalizing fuel with
  | nil =>
    obtain ⟨m, rfl⟩ : ∃ m, fuel = m + 1 := ⟨fuel - 1, by simp at hfuel; omega⟩
    simp [fgets_lines_fuel, fgets]
  | cons l rest ih =>
    obtain ⟨m, rfl⟩ : ∃ m, fuel = m + 1 := ⟨fuel - 1, by simp at hfuel; omega⟩
    obtain ⟨h1, h2, h3⟩ := h l (by simp)
    have hl : l.dropLast ++ ['\n'] = l :=
      List.dropLast_append_getLast? '\n' (by simpa using h2)
    have hlen2 : l.dropLast.length + 1 ≤ MAXBUF - 1 := by
      have : l.length = l.dropLast.length + 1 := by
        conv_lhs => rw [← hl]
        simp
      simp only [MAXBUF] at h1 ⊢; omega
    have hscan := fgets_scan_line l.dropLast rest.flatten (MAXBUF - 1) h3 hlen2
    have happ : l ++ rest.flatten = l.dropLast ++ '\n' :: rest.flatten := by
      conv_lhs => rw [← hl]
      simp
    have hf : fgets (l ++ rest.flatten) = some (l, rest.flatten) := by
      rw [happ, fgets_of_ne_nil _ (by simp), hscan, hl]
    simp only [List.flatten_cons, fgets_lines_fuel, hf]
    rw [ih m (fun x hx => h x (by simp [hx])) (by simp at hfuel; omega)]

/-- A sequence of newline-terminated lines shorter than MAXBUF is read back line by line. -/
theorem fgets_lines_newline_terminated (ls : List (List Char))
    (h : ∀ l ∈ ls, l.length < MAXBUF ∧ l.getLast? = some '\n' ∧ '\n' ∉ l.dropLast) :
    fgets_lines ls.flatten = ls := by
  apply fgets_lines_fuel_newline ls _ h
  have hne : ∀ l ∈ ls, l ≠ [] := by
    intro l hl e
    have := (h l hl).2.1
    rw [e] at this
    simp at this
  have := length_le_flatten_length ls hne
  omega

theorem flatten_filter_ne_nil (ls : List (List Char)) :
    (ls.filter (fun l => !l.isEmpty)).flatten = ls.flatten := by
  induction ls with
  | nil => rfl
  | cons l rest ih =>
    cases l with
    | nil => simpa [List.filter_cons] using ih
    | cons c t => simp [List.filter_cons, ih]

theorem complete_no_nul (l : List Char) (hlast : l.getLast? = some '\n')
    (hplain : plainb l.dropLast = true) : '\x00' ∉ l := by
  have hl : l.dropLast ++ ['\n'] = l :=
    List.dropLast_append_getLast? '\n' (by simpa using hlast)
  rw [← hl]
  intro hm
  rcases List.mem_append.mp hm with h | h
  · exact (plainb_mem _ hplain).2 h
  · simp at h

theorem startsOk_head (l : List Char) (h : startsOk l = true) : l.head? ≠ some 'G' := by
  cases l with
  | nil => simp
  | cons c t =>
    simp only [startsOk, bne_iff_ne, ne_eq] at h
    simpa using h

theorem fgets_lines_fuel_indep (f1 : Nat) : ∀ (f2 : Nat) (file : List Char),
    file.length < f1 → file.length < f2 →
    fgets_lines_fuel f1 file = fgets_lines_fuel f2 file := by
  induction f1 with
  | zero => intro f2 file h; omega
  | succ a ih =>
    intro f2 file h1 h2
    obtain ⟨b, rfl⟩ : ∃ b, f2 = b + 1 := ⟨f2 - 1, by omega⟩
    cases hf : fgets file with
    | none => simp [fgets_lines_fuel, hf]
    | some lr =>
      obtain ⟨line, rest⟩ := lr
      obtain ⟨hne, _, happ⟩ := fgets_some file line rest hf
      have hlen : rest.length < file.length := by
        rw [← happ, List.length_append]
        have := List.length_pos.mpr hne
        omega
      simp only [fgets_lines_fuel, hf]
      rw [ih b rest (by omega) (by omega)]

theorem fgets_lines_cons (file line rest : List Char) (h : fgets file = some (line, rest)) :
    fgets_lines file = line :: fgets_lines rest := by
  obtain ⟨hne, _, happ⟩ := fgets_some file line rest h
  have hlen : rest.length < file.length := by
    rw [← happ, List.length_append]
    have := List.length_pos.mpr hne
    omega
  have e : fgets_lines_fuel (file.length + 1) file =
      line :: fgets_lines_fuel file.length rest := by
    rw [fgets_lines_fuel, h]
  show fgets_lines_fuel (file.length + 1) file = line :: fgets_lines_fuel (rest.length + 1) rest
  rw [e, fgets_lines_fuel_indep file.length (rest.length + 1) rest hlen (by omega)]

theorem fgets_of_lines_cons (file line : List Char) (ls : List (List Char))
    (h : fgets_lines file = line :: ls) :
    ∃ rest, fgets file = some (line, rest) ∧ fgets_lines rest = ls := by
  cases hf : fgets file with
  | none =>
    have : fgets_lines file = [] := by
      unfold fgets_lines
      simp only [fgets_lines_fuel, hf]
    rw [this] at h
    exact absurd h (by simp)
  | some lr =>
    obtain ⟨l, rest⟩ := lr
    have := fgets_lines_cons file l rest hf
    rw [this] at h
    simp only [List.cons.injEq] at h
    exact ⟨rest, by rw [h.1], h.2⟩

theorem fgets_scan_stable (n : Nat) : ∀ (file X : List Char),
    (fgets_scan n file).2 ≠ [] →
    fgets_scan n ((fgets_scan n file).1 ++ X) = ((fgets_scan n file).1, X) := by
  induction n with
  | zero => intro file X _; simp [fgets_scan]
  | succ n ih =>
    intro file X h
    cases file with
    | nil => simp [fgets_scan] at h
    | cons c t =>
      by_cases hc : c = '\n'
      · simp [fgets_scan, hc]
      · have e : fgets_scan (n + 1) (c :: t) = (c :: (fgets_scan n t).1, (fgets_scan n t).2) := by
          simp only [fgets_scan, hc, if_false]
        rw [e] at h ⊢
        have := ih t X h
        have e2 : (c :: (fgets_scan n t).1, (fgets_scan n t).2).1 ++ X =
            c :: ((fgets_scan n t).1 ++ X) := rfl
        rw [e2]
        simp only [fgets_scan, hc, if_false]
        rw [this]

theorem fgets_stable (file line rest X : List Char) (h : fgets file = some (line, rest))
    (hrest : rest ≠ []) : fgets (line ++ X) = some (line, X) := by
  obtain ⟨hne, _, _⟩ := fgets_some file line rest h
  cases file with
  | nil => simp [fgets] at h
  | cons c t =>
    simp only [fgets, Option.some.injEq] at h
    have h1 : (fgets_scan (MAXBUF - 1) (c :: t)).1 = line := by rw [h]
    have h2 : (fgets_scan (MAXBUF - 1) (c :: t)).2 = rest := by rw [h]
    have := fgets_scan_stable (MAXBUF - 1) (c :: t) X (by rw [h2]; exact hrest)
    rw [h1] at this
    rw [fgets_of_ne_nil (line ++ X) (by simp [hne]), this]

theorem fgets_lines_before (pre : List (List Char)) : ∀ (doc L : List Char)
    (post : List (List Char)) (X : List Char),
    fgets_lines doc = pre ++ L :: post → X ≠ [] →
    fgets_lines (pre.flatten ++ X) = pre ++ fgets_lines X := by
  induction pre with
  | nil => intro doc L post X _ _; simp
  | cons l pre ih =>
    intro doc L post X h hX
    obtain ⟨rest, hf, hrest⟩ := fgets_of_lines_cons doc l (pre ++ L :: post) h
    have hne : rest ≠ [] := by
      intro e
      rw [e] at hrest
      have : fgets_lines ([] : List Char) = [] := rfl
      rw [this] at hrest
      exact absurd hrest.symm (by simp)
    have hst := fgets_stable doc l rest (pre.flatten ++ X) hf hne
    have hc := fgets_lines_cons (l ++ (pre.flatten ++ X)) l (pre.flatten ++ X) hst
    rw [List.flatten_cons, List.append_assoc, hc, ih rest L post X hrest hX]
    rfl


theorem fgets_scan_newline (n : Nat) : ∀ file : List Char,
    '\n' ∉ ((fgets_scan n file).1).dropLast := by
  induction n with
  | zero => intro file; simp [fgets_scan]
  | succ n ih =>
    intro file
    cases file with
    | nil => simp [fgets_scan]
    | cons c t =>
      by_cases hc : c = '\n'
      · simp [fgets_scan, hc]
      · have e : fgets_scan (n + 1) (c :: t) = (c :: (fgets_scan n t).1, (fgets_scan n t).2) := by
          simp only [fgets_scan, hc, if_false]
        rw [e]
        intro hm
        cases hl : (fgets_scan n t).1 with
        | nil => rw [hl] at hm; simp at hm
        | cons x xs =>
          rw [hl, List.dropLast_cons₂] at hm
          rcases List.mem_cons.mp hm with h1 | h1
          · exact hc h1.symm
          · exact ih t (by rw [hl]; exact h1)

theorem fgets_lines_nil_iff (body : List Char) (h : fgets_lines body = []) : body = [] := by
  have := fgets_lines_flatten body
  rw [h] at this
  exact this.symm

theorem fgets_line_last (l X : List Char) (h : fgets l = some (l, []))
    (hlast : l.getLast? = some '\n') : fgets (l ++ X) = some (l, X) := by
  obtain ⟨hne, hlen, _⟩ := fgets_some l l [] h
  have hl : l = l.dropLast ++ ['\n'] :=
    (List.dropLast_append_getLast? '\n' (by simpa using hlast)).symm
  have hnl : '\n' ∉ l.dropLast := by
    cases l with
    | nil => exact absurd rfl hne
    | cons c t =>
      simp only [fgets, Option.some.injEq] at h
      have h1 : (fgets_scan (MAXBUF - 1) (c :: t)).1 = c :: t := by rw [h]
      have := fgets_scan_newline (MAXBUF - 1) (c :: t)
      rw [h1] at this
      exact this
  have hlen2 : l.dropLast.length + 1 ≤ MAXBUF - 1 := by
    have : l.length = l.dropLast.length + 1 := by
      conv_lhs => rw [hl]
      simp
    omega
  have hscan := fgets_scan_line l.dropLast X (MAXBUF - 1) hnl hlen2
  have happ : l ++ X = l.dropLast ++ '\n' :: X := by
    conv_lhs => rw [hl]
    simp
  rw [happ, fgets_of_ne_nil _ (by simp), hscan, ← hl]

theorem fgets_lines_append_aux (X : List Char) : ∀ (ls : List (List Char)) (body : List Char),
    fgets_lines body = ls → body.getLast? = some '\n' →
    fgets_lines (body ++ X) = ls ++ fgets_lines X := by
  intro ls
  induction ls with
  | nil =>
    intro body h hl
    rw [fgets_lines_nil_iff body h] at hl
    simp at hl
  | cons l ls ih =>
    intro body h hlast
    obtain ⟨rest, hf, hrest⟩ := fgets_of_lines_cons body l ls h
    obtain ⟨hne, _, happ⟩ := fgets_some body l rest hf
    by_cases hr : rest = []
    · subst hr
      rw [List.append_nil] at happ
      subst happ
      have hnil : ls = [] := by rw [← hrest]; rfl
      rw [fgets_lines_cons _ _ _ (fgets_line_last l X hf hlast), hnil]
      rfl
    · have hst := fgets_stable body l rest (rest ++ X) hf hr
      have hlast2 : rest.getLast? = some '\n' := by
        rw [← happ, List.getLast?_append_of_ne_nil _ hr] at hlast
        exact hlast
      rw [← happ, List.append_assoc, fgets_lines_cons _ _ _ hst, ih rest hrest hlast2]
      rfl

/-- After a text that ends with a newline `fgets` starts a fresh line. -/
theorem fgets_lines_append (body X : List Char) (h : body.getLast? = some '\n') :
    fgets_lines (body ++ X) = fgets_lines body ++ fgets_lines X :=
  fgets_lines_append_aux X _ body rfl h

theorem fgets_lines_trailer (d : List Char) (hd : d.length = 6) (hp : plainb d = true) :
    fgets_lines (['G'] ++ d ++ ['\n']) = [['G'] ++ d ++ ['\n']] := by
  have hdrop : (['G'] ++ d ++ ['\n']).dropLast = ['G'] ++ d := List.dropLast_concat
  have h := fgets_complete_line (['G'] ++ d ++ ['\n']) []
    (by simp only [List.length_append, List.length_singleton, hd, MAXBUF]; decide)
    (List.getLast?_concat _) (by rw [hdrop, plainb_append, hp]; rfl)
  rw [List.append_nil] at h
  rw [fgets_lines_cons _ _ _ h]
  rfl

/-- The lines of a written text followed by a trailer: the lines of the text, then the
trailer as one line. -/
theorem fgets_lines_with_trailer (body d : List Char) (h : body.getLast? = some '\n')
    (hd : d.length = 6) (hp : plainb d = true) :
    fgets_lines (body ++ ['G'] ++ d ++ ['\n']) =
      fgets_lines body ++ [['G'] ++ d ++ ['\n']] := by
  rw [List.append_assoc, List.append_assoc, fgets_lines_append body _ h,
    ← List.append_assoc, fgets_lines_trailer d hd hp]

theorem trailer_no_nul (d : List Char) (hp : plainb d = true) :
    '\x00' ∉ ['G'] ++ d ++ ['\n'] := by
  have := (plainb_mem d hp).2
  simp only [List.mem_append, List.mem_singleton, not_or]
  exact ⟨⟨by decide, this⟩, by decide⟩

/-- A written text without NUL in which no line begins with 'G', followed by the trailer
that carries its checksum, is answered CHKSUM_OK. -/
theorem verify_of_no_G (buf0 body : List Char) (hnl : body.getLast? = some '\n')
    (hnul : '\x00' ∉ body) (hG : ∀ l ∈ fgets_lines body, l.head? ≠ some 'G') :
    chksum_igc_file buf0 (some (body ++ ['G'] ++ checksum body ++ ['\n']))
      = CHKSUM_RESULT.CHKSUM_OK := by
  have hdl : (checksum body).length = 6 := chksum_to_string_length _
  have hdp : plainb (checksum body) = true := chksum_to_string_plain _
  have hls := fgets_lines_with_trailer body (checksum body) hnl hdl hdp
  have hLnul : cstr (['G'] ++ checksum body ++ ['\n']) = ['G'] ++ checksum body ++ ['\n'] :=
    cstr_of_no_nul _ (trailer_no_nul _ hdp)
  have hdocnul : '\x00' ∉ body ++ ['G'] ++ checksum body ++ ['\n'] := by
    intro hm
    rw [List.append_assoc, List.append_assoc, List.mem_append] at hm
    rcases hm with hm | hm
    · exact hnul hm
    · rw [← List.append_assoc] at hm
      exact trailer_no_nul _ hdp hm
  have hdec := (igc_decision buf0 (body ++ ['G'] ++ checksum body ++ ['\n'])).2
    (fgets_lines body) [] (['G'] ++ checksum body ++ ['\n']) hls hG (by simp)
    (by rw [hLnul]; simp only [List.length_append, List.length_singleton, hdl]; decide)
  refine hdec.1.mpr ?_
  rw [hLnul, (hdec.2.2 hdocnul).2, fgets_lines_flatten]
  show List.take 6 (checksum body ++ ['\n']) = checksum body
  rw [List.take_append_of_le_length (by rw [hdl]), ← hdl, List.take_length]

/-- When a line of the written text begins with 'G', the first such line decides. -/
theorem verify_first_G (buf0 body d : List Char) (pre post : List (List Char)) (L : List Char)
    (hnl : body.getLast? = some '\n') (hd : d.length = 6) (hdp : plainb d = true)
    (hls : fgets_lines body = pre ++ L :: post)
    (hpre : ∀ l ∈ pre, l.head? ≠ some 'G') (hL : L.head? = some 'G') :
    chksum_igc_file buf0 (some (body ++ ['G'] ++ d ++ ['\n'])) = CHKSUM_RESULT.CHKSUM_OK ↔
      7 ≤ (cstr L).length ∧ ((cstr L).drop 1).take 6 = checksum (pre.map cstr).flatten := by
  have hls2 : fgets_lines (body ++ ['G'] ++ d ++ ['\n']) =
      pre ++ L :: (post ++ [['G'] ++ d ++ ['\n']]) := by
    rw [fgets_lines_with_trailer body d hnl hd hdp, hls]
    simp
  by_cases hlen : 7 ≤ (cstr L).length
  · have := ((igc_decision buf0 _).2 pre _ L hls2 hpre hL hlen).1
    rw [this]
    exact ⟨fun h => ⟨hlen, h⟩, fun h => h.2⟩
  · rw [igc_result_of_found _ buf0 pre _ L hls2 hpre hL, if_pos (by omega)]
    constructor
    · intro h; cases h
    · intro h; exact absurd h.1 hlen

/-- The lines read back from the records of a single-line session are its non-empty
records, each a complete line. -/
theorem single_line_lines (ls : List (List Char)) (h : ∀ l ∈ ls, l = [] ∨ line_shape l) :
    fgets_lines ls.flatten = ls.filter (fun l => !l.isEmpty) ∧
    (∀ l ∈ ls.filter (fun l => !l.isEmpty), line_shape l) ∧ '\x00' ∉ ls.flatten := by
  have hpre : ∀ l ∈ ls.filter (fun l => !l.isEmpty), line_shape l := by
    intro l hl
    obtain ⟨hm, hne⟩ := List.mem_filter.mp hl
    rcases h l hm with e | e
    · rw [e] at hne; simp at hne
    · exact e
  refine ⟨?_, hpre, ?_⟩
  · have := fgets_lines_complete _ (fun l hl => (hpre l hl).2)
    rw [flatten_filter_ne_nil] at this
    exact this
  · intro hm
    obtain ⟨l, hl, hml⟩ := List.mem_flatten.mp hm
    rcases h l hl with e | e
    · rw [e] at hml; simp at hml
    · exact complete_no_nul l e.2.2.1 e.2.2.2 hml

theorem b_record_ends (b : igc_b) : ∃ p : List Char, b_record b = p ++ ['\n'] := by
  unfold b_record b_format
  exact ⟨_, rfl⟩

theorem igc_records_getLast (env : Env) (g : Session) :
    ∃ p : List Char, (igc_records env g).getLast? = some (emit (p ++ ['\n'])) := by
  rcases List.eq_nil_or_concat g.igc_pos with h | ⟨init, b, h⟩
  · refine ⟨"L FSX GENERAL CHECKSUM            ".toList ++ chksum_chksum g (therm_code_of env) ++
      "  <---- CHECK THIS FIRST".toList, ?_⟩
    simp only [igc_records, h, List.map_nil, List.append_nil, comment_records]
    rw [List.getLast?_append_of_ne_nil _ (by simp)]
    simp [List.getLast?_cons_cons]
  · obtain ⟨p, hp⟩ := b_record_ends b
    refine ⟨p, ?_⟩
    simp only [igc_records, h, List.concat_eq_append, List.map_append, List.map_cons,
      List.map_nil]
    rw [← List.append_assoc, List.getLast?_concat, hp]

theorem flatten_getLast_newline (lines : List (List Char)) (p : List Char)
    (h : lines.getLast? = some (p ++ ['\n'])) : lines.flatten.getLast? = some '\n' := by
  have hl : lines.dropLast ++ [p ++ ['\n']] = lines :=
    List.dropLast_append_getLast? _ (by simpa using h)
  rw [← hl, List.flatten_append]
  simp only [List.flatten_cons, List.flatten_nil, List.append_nil]
  rw [← List.append_assoc, List.getLast?_concat]

theorem igc_write_file_isSome_iff (env : Env) (g : Session) :
    (∃ doc, igc_write_file env g = some doc) ↔
      (env.fopen_ok = true ∧ ∀ r ∈ igc_records env g, r.bind (fprintf env) ≠ none) := by
  constructor
  · rintro ⟨doc, h⟩
    obtain ⟨hf, lines, written, hrec, hw, _⟩ := igc_write_file_written env g doc h
    refine ⟨hf, ?_⟩
    intro r hr
    rw [hrec] at hr
    obtain ⟨l, hl, rfl⟩ := List.mem_map.mp hr
    have hm : fprintf env l ∈ written.map some := by
      rw [← hw]; exact List.mem_map_of_mem _ hl
    obtain ⟨w, _, hw2⟩ := List.mem_map.mp hm
    rw [Option.some_bind, ← hw2]
    simp
  · rintro ⟨hf, hall⟩
    have hrec : igc_records env g = ((igc_records env g).map (fun r => r.getD [])).map some := by
      rw [List.map_map]
      conv_lhs => rw [← List.map_id (igc_records env g)]
      apply List.map_congr_left
      intro r hr
      cases r with
      | none => exact absurd rfl (hall none hr)
      | some l => rfl
    have hw : ((igc_records env g).map (fun r => r.getD [])).map (fprintf env) =
        ((igc_records env g).map (fun r => (r.bind (fprintf env)).getD [])).map some := by
      rw [List.map_map, List.map_map]
      apply List.map_congr_left
      intro r hr
      cases r with
      | none => exact absurd rfl (hall none hr)
      | some l =>
        have := hall (some l) hr
        rw [Option.some_bind] at this
        cases hfl : fprintf env l with
        | none => exact absurd hfl this
        | some w => simp [hfl]
    exact ⟨_, igc_write_file_of_written env g _ _ hf hrec hw⟩

theorem igc_records_flatten_getLast (env : Env) (g : Session) (lines : List (List Char))
    (hrec : igc_records env g = lines.map some) : lines.flatten.getLast? = some '\n' := by
  obtain ⟨p, hp⟩ := igc_records_getLast env g
  rw [hrec, List.getLast?_map] at hp
  cases hlast : lines.getLast? with
  | none => rw [hlast] at hp; cases hp
  | some l =>
    rw [hlast] at hp
    simp only [Option.map_some', Option.some.injEq] at hp
    obtain ⟨rfl, _⟩ := emit_eq _ _ hp.symm
    exact flatten_getLast_newline lines p hlast

/-- Records that each end with a newline (or are empty) are read back record by record. -/
theorem fgets_lines_records (ls : List (List Char))
    (h : ∀ l ∈ ls, l = [] ∨ l.getLast? = some '\n') :
    fgets_lines ls.flatten = (ls.map fgets_lines).flatten := by
  induction ls with
  | nil => rfl
  | cons l rest ih =>
    have ihr := ih (fun x hx => h x (List.mem_cons_of_mem _ hx))
    rcases h l (List.mem_cons_self _ _) with e | e
    · subst e
      simp only [List.flatten_cons, List.nil_append, List.map_cons, ihr]
      rfl
    · rw [List.flatten_cons, fgets_lines_append l _ e, ihr]
      rfl

/-- The lines read back from a written document whose records hold no '%' and each end
with a newline: the lines of each record in turn, then the trailer. -/
theorem written_lines (env : Env) (g : Session) (doc : List Char)
    (hp : percent_free env g) (h : igc_write_file env g = some doc)
    (hnl : ∀ r ∈ igc_records env g, r.getD [] = [] ∨ (r.getD []).getLast? = some '\n') :
    ∃ d : List Char, d.length = 6 ∧
      fgets_lines doc = ((igc_records env g).map (fun r => fgets_lines (r.getD []))).flatten ++
        [['G'] ++ d ++ ['\n']] := by
  obtain ⟨_, lines, hrec, hdoc⟩ := igc_write_file_some env g doc hp h
  have hlast := igc_records_flatten_getLast env g lines hrec
  refine ⟨checksum lines.flatten, chksum_to_string_length _, ?_⟩
  rw [hdoc, fgets_lines_with_trailer lines.flatten (checksum lines.flatten) hlast
    (chksum_to_string_length _) (chksum_to_string_plain _)]
  congr 1
  have hl : ∀ l ∈ lines, l = [] ∨ l.getLast? = some '\n' := by
    intro l hl
    exact hnl (some l) (by rw [hrec]; exact List.mem_map_of_mem _ hl)
  rw [fgets_lines_records lines hl, hrec, List.map_map]
  rfl

/-- A written document whose records hold no '%' and no NUL, each end with a newline, and
are read back as lines none of which begins with 'G', is answered CHKSUM_OK. -/
theorem written_verifies (env : Env) (g : Session) (buf0 doc : List Char)
    (hp : percent_free env g) (h : igc_write_file env g = some doc)
    (hnl : ∀ r ∈ igc_records env g, r.getD [] = [] ∨ (r.getD []).getLast? = some '\n')
    (hnul : ∀ r ∈ igc_records env g, '\x00' ∉ r.getD [])
    (hG : ∀ r ∈ igc_records env g, ∀ l ∈ fgets_lines (r.getD []), l.head? ≠ some 'G') :
    chksum_igc_file buf0 (some doc) = CHKSUM_RESULT.CHKSUM_OK := by
  obtain ⟨_, lines, hrec, hdoc⟩ := igc_write_file_some env g doc hp h
  have hlast := igc_records_flatten_getLast env g lines hrec
  have hmem : ∀ l ∈ lines, some l ∈ igc_records env g := by
    intro l hl
    rw [hrec]
    exact List.mem_map_of_mem _ hl
  rw [hdoc]
  apply verify_of_no_G buf0 _ hlast
  · intro hm
    obtain ⟨l, hl, hml⟩ := List.mem_flatten.mp hm
    exact hnul (some l) (hmem l hl) hml
  · intro x hx
    rw [fgets_lines_records lines (fun l hl => hnl (some l) (hmem l hl))] at hx
    obtain ⟨ls, hls, hxl⟩ := List.mem_flatten.mp hx
    obtain ⟨l, hl, rfl⟩ := List.mem_map.mp hls
    exact hG (some l) (hmem l hl) x hxl

/-- The decision on a written document whose records hold no '%'. -/
theorem written_document_decision (env : Env) (g : Session) (buf0 doc : List Char)
    (hp : percent_free env g) (h : igc_write_file env g = some doc) :
    ∃ lines : List (List Char), igc_records env g = lines.map some ∧
      doc = lines.flatten ++ ['G'] ++ checksum lines.flatten ++ ['\n'] ∧
      ('\x00' ∉ lines.flatten → (∀ l ∈ fgets_lines lines.flatten, l.head? ≠ some 'G') →
        chksum_igc_file buf0 (some doc) = CHKSUM_RESULT.CHKSUM_OK) ∧
      (∀ (pre post : List (List Char)) (L : List Char),
        fgets_lines lines.flatten = pre ++ L :: post →
        (∀ l ∈ pre, l.head? ≠ some 'G') → L.head? = some 'G' →
        (chksum_igc_file buf0 (some doc) = CHKSUM_RESULT.CHKSUM_OK ↔
          7 ≤ (cstr L).length ∧
            ((cstr L).drop 1).take 6 = checksum (pre.map cstr).flatten)) ∧
      (single_line_session g →
        '\x00' ∉ lines.flatten ∧ (∀ l ∈ fgets_lines lines.flatten, l.head? ≠ some 'G') ∧
        chksum_igc_file buf0 (some doc) = CHKSUM_RESULT.CHKSUM_OK) := by
  obtain ⟨_, lines, hrec, hdoc⟩ := igc_write_file_some env g doc hp h
  have hnl := igc_records_flatten_getLast env g lines hrec
  refine ⟨lines, hrec, hdoc, ?_, ?_, ?_⟩
  · intro hnul hG
    rw [hdoc]
    exact verify_of_no_G buf0 _ hnl hnul hG
  · intro pre post L hls hpre hL
    rw [hdoc]
    exact verify_first_G buf0 _ _ pre post L hnl (chksum_to_string_length _)
      (chksum_to_string_plain _) hls hpre hL
  · intro hg
    obtain ⟨h1, h2, h3⟩ := single_line_lines lines (fun l hl =>
      igc_records_shape env g hg (some l) (by rw [hrec]; exact List.mem_map_of_mem _ hl) l rfl)
    have hG : ∀ l ∈ fgets_lines lines.flatten, l.head? ≠ some 'G' := by
      intro l hl
      rw [h1] at hl
      exact startsOk_head l (h2 l hl).1
    refine ⟨h3, hG, ?_⟩
    rw [hdoc]
    exact verify_of_no_G buf0 _ hnl h3 hG

/-- C2 (amended): whenever `igc_write_file` writes a document, the document is what `fprintf`
wrote for the records (`lines`, in order) followed by a last line formed of the marker 'G',
the 6-character checksum (digits and upper-case letters only) and a newline; the checksum
is that of the concatenation of the records, absorbed from a fresh state, and the records
end with a newline.  When no record holds a '%' the records are written as they are, so the
checksum is that of all text written before the last line, the lines read back are the
lines of the records followed by that one trailer line, and the number of lines beginning
with 'G' is one more than among the lines of the records: none for a session with
single-line strings.  A document is written exactly when the file opens and every record
can be produced and written. -/
theorem trailer_invariant (env : Env) (g : Session) :
    (∀ doc, igc_write_file env g = some doc →
      ∃ lines written : List (List Char), igc_records env g = lines.map some ∧
        lines.map (fprintf env) = written.map some ∧
        doc = written.flatten ++ ['G'] ++ checksum lines.flatten ++ ['\n'] ∧
        checksum lines.flatten = chksum_to_string (chksum_string chksum_reset lines.flatten) ∧
        (checksum lines.flatten).length = 6 ∧
        (∀ c ∈ checksum lines.flatten, c ∈ base36) ∧
        lines.flatten.getLast? = some '\n' ∧
        (percent_free env g →
          written = lines ∧
          fgets_lines doc =
            fgets_lines lines.flatten ++ [['G'] ++ checksum lines.flatten ++ ['\n']] ∧
          (fgets_lines doc).countP (fun l => l.head? == some 'G') =
            (fgets_lines lines.flatten).countP (fun l => l.head? == some 'G') + 1 ∧
          (single_line_session g →
            (fgets_lines lines.flatten).countP (fun l => l.head? == some 'G') = 0))) ∧
    ((∃ doc, igc_write_file env g = some doc) ↔
      (env.fopen_ok = true ∧ ∀ r ∈ igc_records env g, r.bind (fprintf env) ≠ none)) := by
  constructor
  · intro doc h
    obtain ⟨_, lines, written, hrec, hw, hdoc⟩ := igc_write_file_written env g doc h
    have hnl := igc_records_flatten_getLast env g lines hrec
    refine ⟨lines, written, hrec, hw, hdoc, rfl, chksum_to_string_length _,
      fun c hc => chksum_to_string_mem _ c hc, hnl, ?_⟩
    intro hp
    have hwl := written_eq_of_no_percent env lines written
      (percent_free_lines env g lines hp hrec) hw
    have hls : fgets_lines doc =
        fgets_lines lines.flatten ++ [['G'] ++ checksum lines.flatten ++ ['\n']] := by
      rw [hdoc, hwl]
      exact fgets_lines_with_trailer _ _ hnl (chksum_to_string_length _)
        (chksum_to_string_plain _)
    refine ⟨hwl, hls, ?_, ?_⟩
    · rw [hls, List.countP_append]
      rfl
    · intro hg
      obtain ⟨h1, h2, _⟩ := single_line_lines lines (fun l hl =>
        igc_records_shape env g hg (some l) (by rw [hrec]; exact List.mem_map_of_mem _ hl)
          l rfl)
      rw [List.countP_eq_zero]
      intro l hl
      rw [h1] at hl
      simpa using startsOk_head l (h2 l hl).1
  · exact igc_write_file_isSome_iff env g

theorem sample_b_record :
    b_record sample_b = "B0101015130000N00115000WA0123401234027250\n".toList := by
  decide!

/-- C1 (amended): for every session whose records hold no '%', the document written by
`igc_write_file` is the records followed by the trailer with their checksum.  If the
records hold no NUL and no line of them, as `fgets` delivers the lines, begins with 'G', the
document is answered CHKSUM_OK by `chksum_igc_file`, whatever the line buffer held before.
If `L` is the first line of the records that begins with 'G', the answer is CHKSUM_OK
exactly when the string of `L` has at least 7 characters and its six characters after the
'G' are the checksum of the strings of the lines before `L`.  A session whose title, id,
checksum strings and path names hold no newline or NUL and whose task records are each
empty or one complete line not beginning with 'G' has records without NUL and without a
line beginning with 'G', so its documents are answered CHKSUM_OK. -/
theorem round_trip (env : Env) (g : Session) (buf0 doc : List Char)
    (hp : percent_free env g) (h : igc_write_file env g = some doc) :
    ∃ lines : List (List Char), igc_records env g = lines.map some ∧
      doc = lines.flatten ++ ['G'] ++ checksum lines.flatten ++ ['\n'] ∧
      ('\x00' ∉ lines.flatten → (∀ l ∈ fgets_lines lines.flatten, l.head? ≠ some 'G') →
        chksum_igc_file buf0 (some doc) = CHKSUM_RESULT.CHKSUM_OK) ∧
      (∀ (pre post : List (List Char)) (L : List Char),
        fgets_lines lines.flatten = pre ++ L :: post →
        (∀ l ∈ pre, l.head? ≠ some 'G') → L.head? = some 'G' →
        (chksum_igc_file buf0 (some doc) = CHKSUM_RESULT.CHKSUM_OK ↔
          7 ≤ (cstr L).length ∧
            ((cstr L).drop 1).take 6 = checksum (pre.map cstr).flatten)) ∧
      (single_line_session g →
        '\x00' ∉ lines.flatten ∧ (∀ l ∈ fgets_lines lines.flatten, l.head? ≠ some 'G') ∧
        chksum_igc_file buf0 (some doc) = CHKSUM_RESULT.CHKSUM_OK) :=
  written_document_decision env g buf0 doc hp h

theorem sample_records (g : Session) (h : g.igc_pos = [sample_b]) (env : Env) :
    igc_records env g = header_records g ++ task_records g ++ comment_records env g ++
      [emit "B0101015130000N00115000WA0123401234027250\n".toList] := by
  simp only [igc_records, h, List.map_cons, List.map_nil, sample_b_record]

set_option maxRecDepth 1000000 in
theorem sample_percent_free : percent_free sample_env sample_session := by
  unfold percent_free
  rw [sample_records sample_session rfl]
  decide

set_option maxRecDepth 1000000 in
theorem sample_session_written :
    ∃ doc, igc_write_file sample_env sample_session = some doc := by
  rw [igc_write_file_isSome_iff, sample_records sample_session rfl]
  decide

set_option maxRecDepth 1000000 in
theorem round_trip_witness :
    percent_free sample_env sample_session ∧ single_line_session sample_session ∧
    ∃ doc, igc_write_file sample_env sample_session = some doc ∧
      chksum_igc_file [] (some doc) = CHKSUM_RESULT.CHKSUM_OK := by
  obtain ⟨doc, hdoc⟩ := sample_session_written
  obtain ⟨_, _, _, _, _, hs⟩ :=
    round_trip sample_env sample_session [] doc sample_percent_free hdoc
  exact ⟨sample_percent_free, by decide, doc, hdoc, (hs (by decide)).2.2⟩

set_option maxRecDepth 1000000 in
/-- C1 as stated fails: with an aircraft title that holds a newline followed by 'G' a
document is written, and checking it gives CHKSUM_TOO_SHORT instead of CHKSUM_OK. -/
theorem round_trip_fails_two_line_title :
    (igc_write_file sample_env two_line_title_session).isSome = true ∧
    chksum_igc_file [] (igc_write_file sample_env two_line_title_session)
      = CHKSUM_RESULT.CHKSUM_TOO_SHORT := by
  unfold igc_write_file
  rw [sample_records two_line_title_session rfl]
  decide

set_option maxRecDepth 1000000 in
theorem trailer_invariant_witness :
    percent_free sample_env sample_session ∧ single_line_session sample_session ∧
    ∃ doc, igc_write_file sample_env sample_session = some doc ∧
      (∃ lines : List (List Char), igc_records sample_env sample_session = lines.map some ∧
        doc = lines.flatten ++ ['G'] ++ checksum lines.flatten ++ ['\n']) ∧
      (fgets_lines doc).countP (fun l => l.head? == some 'G') = 1 := by
  obtain ⟨doc, hdoc⟩ := sample_session_written
  obtain ⟨lines, written, h1, _, h2, _, _, _, _, h3⟩ :=
    (trailer_invariant sample_env sample_session).1 doc hdoc
  obtain ⟨hw, _, hc, hz⟩ := h3 sample_percent_free
  refine ⟨sample_percent_free, by decide, doc, hdoc, ⟨lines, h1, ?_⟩, ?_⟩
  · rw [h2, hw]
  · rw [hc, hz (by decide)]

set_option maxRecDepth 1000000 in
theorem trailer_like_written :
    ∃ doc, igc_write_file sample_env trailer_like_title_session = some doc := by
  rw [igc_write_file_isSome_iff, sample_records trailer_like_title_session rfl]
  decide

set_option maxRecDepth 1000000 in
theorem trailer_like_percent_free : percent_free sample_env trailer_like_title_session := by
  unfold percent_free
  rw [sample_records trailer_like_title_session rfl]
  decide

set_option maxRecDepth 1000000 in
/-- C2 as stated fails: with an aircraft title that holds a newline followed by "GABCDEF"
the document written has two lines formed of 'G', six characters and a newline, the first
of them inside the header, and the check of the document gives CHKSUM_BAD. -/
theorem second_trailer_line :
    ∃ doc d : List Char, igc_write_file sample_env trailer_like_title_session = some doc ∧
      d.length = 6 ∧
      (fgets_lines doc).filter (fun l => l.head? == some 'G') =
        ["GABCDEF\n".toList, ['G'] ++ d ++ ['\n']] ∧
      chksum_igc_file [] (some doc) = CHKSUM_RESULT.CHKSUM_BAD := by
  obtain ⟨doc, hdoc⟩ := trailer_like_written
  obtain ⟨d, hd, hls⟩ := written_lines sample_env trailer_like_title_session doc
    trailer_like_percent_free hdoc
    (by rw [sample_records trailer_like_title_session rfl]; decide)
  refine ⟨doc, d, hdoc, hd, ?_, ?_⟩
  · rw [hls, List.filter_append, sample_records trailer_like_title_session rfl]
    have : (((header_records trailer_like_title_session ++
        task_records trailer_like_title_session ++
        comment_records sample_env trailer_like_title_session ++
        [emit "B0101015130000N00115000WA0123401234027250\n".toList]).map
          (fun r => fgets_lines (r.getD []))).flatten).filter (fun l => l.head? == some 'G')
        = ["GABCDEF\n".toList] := by decide
    rw [this]
    rfl
  · rw [← hdoc]
    unfold igc_write_file
    rw [sample_records trailer_like_title_session rfl]
    decide

set_option maxRecDepth 1000000 in
/-- A title that holds a '%' in a session with single-line strings: the checksum absorbs
the record as composed, the file receives what `fprintf` makes of it, here the record
without its conversion. -/
theorem percent_title_written :
    single_line_session percent_title_session ∧
    ¬ percent_free sample_env percent_title_session ∧
    some "HFGTYGLIDERTYPE:50%discount\n".toList ∈
      igc_records sample_env percent_title_session ∧
    fprintf sample_env "HFGTYGLIDERTYPE:50%discount\n".toList =
      some "HFGTYGLIDERTYPE:50iscount\n".toList ∧
    (igc_write_file sample_env percent_title_session).isSome = true := by
  refine ⟨by decide, ?_, ?_, by decide, ?_⟩
  · unfold percent_free
    rw [sample_records percent_title_session rfl]
    decide
  · rw [sample_records percent_title_session rfl]
    decide
  · unfold igc_write_file
    rw [sample_records percent_title_session rfl]
    decide

theorem empty_file_result (buf0 : List Char) :
    chksum_igc_file buf0 (some []) =
      if buf0.head? ≠ some 'G' then CHKSUM_RESULT.CHKSUM_NOT_FOUND
      else if (cstr buf0).length < 7 then CHKSUM_RESULT.CHKSUM_TOO_SHORT
      else if ((cstr buf0).drop 1).take 6 = "012345".toList then CHKSUM_RESULT.CHKSUM_OK
      else CHKSUM_RESULT.CHKSUM_BAD := by
  have hscan : igc_scan (([] : List Char).length + 1) chksum_reset buf0 [] = (chksum_reset, buf0) :=
    rfl
  have hc : chksum_to_string chksum_reset = "012345".toList := by decide
  simp only [chksum_igc_file, chksum_igc_stream, hscan, hc]
  by_cases h1 : buf0.head? ≠ some 'G'
  · rw [if_pos h1, if_pos h1]
  · rw [if_neg h1, if_neg h1]
    by_cases h2 : (cstr buf0).length < 7
    · rw [if_pos (by simpa [CHKSUM_CHARS] using h2), if_pos h2]
    · rw [if_neg (by simpa [CHKSUM_CHARS] using h2), if_neg h2]
      have hiff := chksum_matches_iff "012345".toList (cstr buf0) rfl (by omega)
      by_cases h3 : chksum_matches "012345".toList (cstr buf0) = true
      · rw [if_pos h3, if_pos (hiff.mp h3)]
      · rw [if_neg h3, if_neg (fun e => h3 (hiff.mpr e))]

/-- C5: verification decision of `chksum_igc_file` on a readable document `doc`, whose lines
are the pieces `fgets` delivers.  (1) If no line begins with 'G' and the document is not
empty, the result is CHKSUM_NOT_FOUND.  (2) For the empty document no line is read and the
code tests the line buffer it never filled: the content `buf0` that buffer happens to have
decides, so the result is CHKSUM_NOT_FOUND only if `buf0` does not begin with 'G', and is
CHKSUM_OK when `buf0` holds 'G' followed by "012345", the checksum of nothing.  (3) If `L`
is the first line beginning with 'G' and its string has at least 7 characters, the result
is CHKSUM_OK exactly when the six characters after the 'G' equal the printed checksum of
the strings of all lines before `L`, absorbed from a fresh state, and CHKSUM_BAD otherwise.
(4) For a document without NUL characters the string of a line is the line itself.  (5) A
document that is a sequence of newline-terminated lines, each shorter than MAXBUF, is
delivered by `fgets` as exactly those lines. -/
theorem verification_decision (buf0 doc : List Char) :
    ((∀ l ∈ fgets_lines doc, l.head? ≠ some 'G') → doc ≠ [] →
      chksum_igc_file buf0 (some doc) = CHKSUM_RESULT.CHKSUM_NOT_FOUND) ∧
    (fgets_lines [] = [] ∧
      chksum_igc_file buf0 (some []) =
        if buf0.head? ≠ some 'G' then CHKSUM_RESULT.CHKSUM_NOT_FOUND
        else if (cstr buf0).length < 7 then CHKSUM_RESULT.CHKSUM_TOO_SHORT
        else if ((cstr buf0).drop 1).take 6 = "012345".toList then CHKSUM_RESULT.CHKSUM_OK
        else CHKSUM_RESULT.CHKSUM_BAD) ∧
    (∀ (pre post : List (List Char)) (L : List Char),
      fgets_lines doc = pre ++ L :: post →
      (∀ l ∈ pre, l.head? ≠ some 'G') → L.head? = some 'G' → 7 ≤ (cstr L).length →
      (chksum_igc_file buf0 (some doc) = CHKSUM_RESULT.CHKSUM_OK ↔
        ((cstr L).drop 1).take 6 = checksum (pre.map cstr).flatten) ∧
      (chksum_igc_file buf0 (some doc) ≠ CHKSUM_RESULT.CHKSUM_OK →
        chksum_igc_file buf0 (some doc) = CHKSUM_RESULT.CHKSUM_BAD) ∧
      ('\x00' ∉ doc → cstr L = L ∧ (pre.map cstr).flatten = pre.flatten)) ∧
    (∀ ls : List (List Char),
      (∀ l ∈ ls, l.length < MAXBUF ∧ l.getLast? = some '\n' ∧ '\n' ∉ l.dropLast) →
      doc = ls.flatten → fgets_lines doc = ls) := by
  refine ⟨fun hall hne => (igc_decision buf0 doc).1 hall (Or.inl hne),
    ⟨rfl, empty_file_result buf0⟩, (igc_decision buf0 doc).2, ?_⟩
  intro ls hls hdoc
  rw [hdoc]
  exact fgets_lines_newline_terminated ls hls

set_option maxRecDepth 100000 in
theorem verification_decision_witness :
    fgets_lines "AB\nGKBOK06\n".toList = ["AB\n".toList] ++ "GKBOK06\n".toList :: [] ∧
    chksum_igc_file [] (some "AB\nGKBOK06\n".toList) = CHKSUM_RESULT.CHKSUM_OK ∧
    chksum_igc_file [] (some "AB\nCD\n".toList) = CHKSUM_RESULT.CHKSUM_NOT_FOUND ∧
    chksum_igc_file "G012345".toList (some []) = CHKSUM_RESULT.CHKSUM_OK ∧
    chksum_igc_file "GAAAAAA".toList (some []) = CHKSUM_RESULT.CHKSUM_BAD ∧
    chksum_igc_file "G".toList (some []) = CHKSUM_RESULT.CHKSUM_TOO_SHORT :=
  ⟨by decide,
   ((verification_decision [] "AB\nGKBOK06\n".toList).2.2.1 ["AB\n".toList] []
      "GKBOK06\n".toList (by decide) (by decide) (by decide) (by decide)).1.mpr (by decide),
   (verification_decision [] "AB\nCD\n".toList).1 (by decide) (by decide),
   (verification_decision "G012345".toList []).2.1.2.trans (by decide),
   (verification_decision "GAAAAAA".toList []).2.1.2.trans (by decide),
   (verification_decision "G".toList []).2.1.2.trans (by decide)⟩

set_option maxRecDepth 100000 in
/-- C6 evaluated: a 'G' line with only five characters after the marker is reported as
CHKSUM_BAD when it ends with a newline (the newline is counted by `strlen`), and as
CHKSUM_TOO_SHORT only when it is the unterminated last line of the file. -/
theorem too_short_counts_newline :
    chksum_igc_file [] (some "AB\nG12345\n".toList) = CHKSUM_RESULT.CHKSUM_BAD ∧
    chksum_igc_file [] (some "AB\nG12345".toList) = CHKSUM_RESULT.CHKSUM_TOO_SHORT ∧
    chksum_igc_file [] (some "AB\nG1234\n".toList) = CHKSUM_RESULT.CHKSUM_TOO_SHORT := by
  decide

/-! ## Theorems: logging of positions -/

theorem igc_log_point_cases (buf : List igc_b) (p : UserStruct) :
    igc_log_point buf p = buf ∨ igc_log_point buf p = buf ++ [igc_b_of p] := by
  unfold igc_log_point
  split
  · split
    · exact Or.inr rfl
    · split
      · exact Or.inr rfl
      · exact Or.inl rfl
  · exact Or.inl rfl

theorem igc_log_point_same_time (buf : List igc_b) (p : UserStruct) (last : igc_b)
    (hlast : buf.getLast? = some last) (htime : p.zulu_time = last.zulu_time) :
    igc_log_point buf p = buf := by
  unfold igc_log_point
  split
  · simp only [hlast, htime, ne_eq, not_true_eq_false, if_false]
  · rfl

theorem igc_log_point_times_differ (buf : List igc_b) (p : UserStruct)
    (h : times_differ buf) : times_differ (igc_log_point buf p) := by
  unfold igc_log_point
  split
  · cases hl : buf.getLast? with
    | none =>
      have : buf = [] := List.getLast?_eq_none_iff.mp hl
      subst this
      simp [times_differ]
    | some last =>
      simp only []
      split
      · rename_i hne
        unfold times_differ
        rw [List.chain'_append]
        refine ⟨h, by simp, ?_⟩
        intro x hx y hy
        simp only [List.head?_cons, Option.mem_def, Option.some.injEq] at hy
        have hx2 : x = last := by
          rw [Option.mem_def, hl] at hx
          exact (Option.some.inj hx).symm
        rw [hx2, ← hy]
        exact fun e => hne e.symm
      · exact h
  · exact h

theorem igc_log_point_full (buf : List igc_b) (p : UserStruct)
    (h : ¬ buf.length < IGC_MAX_RECORDS) : igc_log_point buf p = buf := by
  unfold igc_log_point
  rw [if_neg h]

theorem igc_log_point_length_le (buf : List igc_b) (p : UserStruct)
    (h : buf.length ≤ IGC_MAX_RECORDS) : (igc_log_point buf p).length ≤ IGC_MAX_RECORDS := by
  by_cases hlt : buf.length < IGC_MAX_RECORDS
  · rcases igc_log_point_cases buf p with e | e
    · rw [e]; exact h
    · rw [e, List.length_append, List.length_singleton]; omega
  · rw [igc_log_point_full buf p hlt]; exact h

theorem foldl_log_point_length_le (ps : List UserStruct) (buf : List igc_b)
    (h : buf.length ≤ IGC_MAX_RECORDS) :
    (ps.foldl igc_log_point buf).length ≤ IGC_MAX_RECORDS := by
  induction ps generalizing buf with
  | nil => exact h
  | cons p rest ih => exact ih _ (igc_log_point_length_le buf p h)

theorem foldl_log_point_times_differ (ps : List UserStruct) (buf : List igc_b)
    (h : times_differ buf) : times_differ (ps.foldl igc_log_point buf) := by
  induction ps generalizing buf with
  | nil => exact h
  | cons p rest ih => exact ih _ (igc_log_point_times_differ buf p h)

theorem foldl_log_point_full (ps : List UserStruct) (buf : List igc_b)
    (h : ¬ buf.length < IGC_MAX_RECORDS) : ps.foldl igc_log_point buf = buf := by
  induction ps with
  | nil => rfl
  | cons p rest ih => rw [List.foldl_cons, igc_log_point_full buf p h, ih]

theorem igc_log_point_twice (buf : List igc_b) (p q : UserStruct)
    (h : p.zulu_time = q.zulu_time) :
    igc_log_point (igc_log_point buf p) q = igc_log_point buf p := by
  rcases igc_log_point_cases buf p with e | e
  · rw [e]
    by_cases hlt : buf.length < IGC_MAX_RECORDS
    · cases hl : buf.getLast? with
      | none =>
        have hnil : buf = [] := List.getLast?_eq_none_iff.mp hl
        subst hnil
        simp [igc_log_point, IGC_MAX_RECORDS] at e
      | some last =>
        have hpt : p.zulu_time = last.zulu_time := by
          by_contra hne
          have : igc_log_point buf p = buf ++ [igc_b_of p] := by
            unfold igc_log_point
            rw [if_pos hlt]
            simp only [hl, ne_eq, hne, not_false_eq_true, if_true]
          rw [e] at this
          simp at this
        exact igc_log_point_same_time buf q last hl (h ▸ hpt)
    · exact igc_log_point_full buf q hlt
  · rw [e]
    exact igc_log_point_same_time _ q (igc_b_of p) (List.getLast?_concat _) h.symm

/-- C14: dedup invariant of `igc_log_point`.  (1) A sample whose time equals the time of
the last retained sample of a non-empty buffer leaves the buffer unchanged.  (2) Of two
back-to-back samples with equal time the second is never retained, and on a fresh buffer
exactly the first is.  (3) After any sequence of calls, from a fresh buffer or from any
buffer without equal adjacent times, no two adjacent retained samples have equal time. -/
theorem dedup_invariant :
    (∀ (buf : List igc_b) (p : UserStruct) (last : igc_b),
      buf.getLast? = some last → p.zulu_time = last.zulu_time → igc_log_point buf p = buf) ∧
    (∀ (buf : List igc_b) (p q : UserStruct), p.zulu_time = q.zulu_time →
      igc_log_point (igc_log_point buf p) q = igc_log_point buf p) ∧
    (∀ p q : UserStruct, p.zulu_time = q.zulu_time →
      igc_log_point (igc_log_point [] p) q = [igc_b_of p]) ∧
    (∀ ps : List UserStruct, times_differ (ps.foldl igc_log_point [])) ∧
    (∀ (buf : List igc_b) (ps : List UserStruct), times_differ buf →
      times_differ (ps.foldl igc_log_point buf)) := by
  refine ⟨igc_log_point_same_time, igc_log_point_twice, ?_, ?_,
    fun buf ps h => foldl_log_point_times_differ ps buf h⟩
  · intro p q h
    rw [igc_log_point_twice [] p q h]
    rfl
  · intro ps
    exact foldl_log_point_times_differ ps [] (by simp [times_differ])

/-- C15: cap invariant of `igc_log_point`.  After any sequence of calls, from a fresh
buffer or from any buffer within the cap, at most IGC_MAX_RECORDS = 40000 samples are
retained; once 40000 are retained every further call, and any sequence of calls, leaves the
buffer as it is; and every call either leaves the buffer unchanged or appends the sample
at its end. -/
theorem cap_invariant :
    IGC_MAX_RECORDS = 40000 ∧
    (∀ ps : List UserStruct, (ps.foldl igc_log_point []).length ≤ 40000) ∧
    (∀ (buf : List igc_b) (ps : List UserStruct), buf.length ≤ 40000 →
      (ps.foldl igc_log_point buf).length ≤ 40000) ∧
    (∀ (buf : List igc_b) (p : UserStruct), buf.length = 40000 → igc_log_point buf p = buf) ∧
    (∀ (buf : List igc_b) (ps : List UserStruct), buf.length = 40000 →
      ps.foldl igc_log_point buf = buf) ∧
    (∀ (buf : List igc_b) (p : UserStruct),
      igc_log_point buf p = buf ∨ igc_log_point buf p = buf ++ [igc_b_of p]) := by
  refine ⟨rfl, ?_, ?_, ?_, ?_, igc_log_point_cases⟩
  · intro ps
    exact foldl_log_point_length_le ps [] (by simp)
  · intro buf ps h
    exact foldl_log_point_length_le ps buf h
  · intro buf p h
    exact igc_log_point_full buf p (by rw [h]; decide)
  · intro buf ps h
    exact foldl_log_point_full ps buf (by rw [h]; decide)

/-! ## Theorems: ground check -/

theorem ground_check_on_ground (n : Nat) (st : GroundState) (g t : Int) (hn : 2 ≤ n)
    (hg : g ≠ 0) : (igc_ground_check n st g t).1.igc_prev_on_ground ≠ 0 := by
  unfold igc_ground_check
  have h1 : ¬ n < 2 := by omega
  simp only [h1, if_false, hg, and_false, ne_eq, not_false_eq_true, true_and]
  split
  · simp
  · exact hg

theorem ground_check_takeoff (n : Nat) (st : GroundState) (t : Int) (hn : 2 ≤ n)
    (hp : st.igc_prev_on_ground ≠ 0) :
    igc_ground_check n st 0 t =
      ({ igc_prev_on_ground := 0, igc_takeoff_time := t }, GroundEvent.takeoff) := by
  unfold igc_ground_check
  have h1 : ¬ n < 2 := by omega
  simp [h1, hp]

theorem ground_check_airborne (n : Nat) (st : GroundState) (t : Int) (hn : 2 ≤ n)
    (hp : st.igc_prev_on_ground = 0) :
    igc_ground_check n st 0 t = (st, GroundEvent.quiet) := by
  unfold igc_ground_check
  have h1 : ¬ n < 2 := by omega
  cases st
  simp only at hp
  simp [h1, hp]

theorem ground_run_airborne (air : List (Nat × Int × Int)) (st : GroundState)
    (hair : ∀ c ∈ air, 2 ≤ c.1 ∧ c.2.1 = 0) (hp : st.igc_prev_on_ground = 0) :
    ground_run st air = st := by
  induction air with
  | nil => rfl
  | cons c rest ih =>
    obtain ⟨h1, h2⟩ := hair c (by simp)
    have hstep : igc_ground_check c.1 st c.2.1 c.2.2 = (st, GroundEvent.quiet) := by
      rw [h2]; exact ground_check_airborne c.1 st c.2.2 h1 hp
    have := ih (fun d hd => hair d (by simp [hd]))
    simp only [ground_run, List.foldl_cons, hstep] at this ⊢
    exact this

theorem ground_check_landing (n : Nat) (st : GroundState) (g t : Int) (hn : 2 ≤ n)
    (hg : g ≠ 0) (hp : st.igc_prev_on_ground = 0) :
    ((igc_ground_check n st g t).2 = GroundEvent.landing ↔ t - st.igc_takeoff_time > 80) ∧
    ((igc_ground_check n st g t).2 ≠ GroundEvent.landing →
      (igc_ground_check n st g t).2 = GroundEvent.quiet) := by
  unfold igc_ground_check
  have h1 : ¬ n < 2 := by omega
  simp only [h1, if_false, hg, and_false, hp, ne_eq, not_false_eq_true, true_and,
    IGC_MIN_FLIGHT_SECS_TO_LANDING]
  split <;> simp_all

/-- C17: landing debounce.  In every run in which, with at least 2 records stored at each
call, `igc_ground_check` sees an on-ground sample, then an airborne sample at time `t0`
(reported as takeoff), then only airborne samples (each reported as nothing), and then an
on-ground sample at time `t`, the landing is detected at that sample exactly when
`t - t0 > 80`, and otherwise nothing is detected; so a cycle shorter than 80 seconds gives
no landing and every cycle longer than 80 seconds does. -/
theorem landing_debounce (st : GroundState) (n1 n2 n3 : Nat) (g1 t1 t0 g3 t : Int)
    (air : List (Nat × Int × Int))
    (h1 : 2 ≤ n1) (h2 : 2 ≤ n2) (h3 : 2 ≤ n3) (hg1 : g1 ≠ 0) (hg3 : g3 ≠ 0)
    (hair : ∀ c ∈ air, 2 ≤ c.1 ∧ c.2.1 = 0) :
    (igc_ground_check n2 (igc_ground_check n1 st g1 t1).1 0 t0).2 = GroundEvent.takeoff ∧
    (∀ pre c post, air = pre ++ c :: post →
      (igc_ground_check c.1
        (ground_run (igc_ground_check n2 (igc_ground_check n1 st g1 t1).1 0 t0).1 pre)
        c.2.1 c.2.2).2 = GroundEvent.quiet) ∧
    ((igc_ground_check n3
        (ground_run (igc_ground_check n2 (igc_ground_check n1 st g1 t1).1 0 t0).1 air)
        g3 t).2 = GroundEvent.landing ↔ t - t0 > 80) ∧
    (t - t0 < 80 →
      (igc_ground_check n3
        (ground_run (igc_ground_check n2 (igc_ground_check n1 st g1 t1).1 0 t0).1 air)
        g3 t).2 = GroundEvent.quiet) := by
  have hs1 := ground_check_on_ground n1 st g1 t1 h1 hg1
  have hs2 := ground_check_takeoff n2 (igc_ground_check n1 st g1 t1).1 t0 h2 hs1
  rw [hs2]
  have hrun : ∀ l : List (Nat × Int × Int), (∀ c ∈ l, 2 ≤ c.1 ∧ c.2.1 = 0) →
      ground_run { igc_prev_on_ground := 0, igc_takeoff_time := t0 } l
        = { igc_prev_on_ground := 0, igc_takeoff_time := t0 } :=
    fun l hl => ground_run_airborne l _ hl rfl
  refine ⟨rfl, ?_, ?_, ?_⟩
  · intro pre c post hsplit
    have hpre : ∀ d ∈ pre, 2 ≤ d.1 ∧ d.2.1 = 0 := fun d hd => hair d (by rw [hsplit]; simp [hd])
    obtain ⟨hc1, hc2⟩ := hair c (by rw [hsplit]; simp)
    simp only [hrun pre hpre]
    rw [hc2, ground_check_airborne c.1 _ c.2.2 hc1 rfl]
  · simp only [hrun air hair]
    exact (ground_check_landing n3 _ g3 t h3 hg3 rfl).1
  · intro hlt
    simp only [hrun air hair]
    have h := ground_check_landing n3 { igc_prev_on_ground := 0, igc_takeoff_time := t0 }
      g3 t h3 hg3 rfl
    apply h.2
    intro hl
    have := h.1.mp hl
    simp only at this
    omega

theorem landing_debounce_witness :
    (igc_ground_check 5
        (ground_run (igc_ground_check 3 (igc_ground_check 2 ⟨0, 0⟩ 1 1000).1 0 1010).1
          [(4, 0, 1020), (5, 0, 1050)])
        1 1100).2 = GroundEvent.landing ↔ (1100 : Int) - 1010 > 80 :=
  (landing_debounce ⟨0, 0⟩ 2 3 5 1 1000 1010 1 1100 [(4, 0, 1020), (5, 0, 1050)]
    (by decide) (by decide) (by decide) (by decide) (by decide) (by decide)).2.2.1

theorem dedup_invariant_witness :
    igc_log_point (igc_log_point [] ⟨103 / 2, -5 / 4, 300, 1, 3661, 0⟩)
      ⟨103 / 2, -5 / 4, 301, 1, 3661, 0⟩ = [igc_b_of ⟨103 / 2, -5 / 4, 300, 1, 3661, 0⟩] :=
  dedup_invariant.2.2.1 ⟨103 / 2, -5 / 4, 300, 1, 3661, 0⟩
    ⟨103 / 2, -5 / 4, 301, 1, 3661, 0⟩ rfl

theorem cap_invariant_witness :
    (List.replicate 40000 sample_b).length = 40000 ∧
    igc_log_point (List.replicate 40000 sample_b) ⟨103 / 2, -5 / 4, 300, 1, 3665, 0⟩
      = List.replicate 40000 sample_b :=
  ⟨List.length_replicate _ _,
   cap_invariant.2.2.2.1 (List.replicate 40000 sample_b) ⟨103 / 2, -5 / 4, 300, 1, 3665, 0⟩
     (List.length_replicate _ _)⟩

/-! ## Theorems: fingerprint of aircraft.cfg -/

theorem starts_bracket_loop_found (m i : Nat) (rest : List Char) (h : i + m < 10) :
    starts_bracket_loop (List.replicate m ' ' ++ '[' :: rest) i = ((i + m : Nat) : Int) := by
  induction m generalizing i with
  | zero =>
    have hi : i < 10 := by omega
    simp [starts_bracket_loop, hi]
  | succ m ih =>
    have hi : i < 10 := by omega
    have := ih (i + 1) (by omega)
    rw [List.replicate_succ, List.cons_append, starts_bracket_loop, if_pos hi,
      if_neg (by decide), if_neg (by simp), this]
    congr 1
    omega

theorem starts_bracket_loop_nonneg (s : List Char) (i : Nat)
    (h : 0 ≤ starts_bracket_loop s i) :
    ∃ m rest, s = List.replicate m ' ' ++ '[' :: rest ∧ i + m < 10 := by
  induction s generalizing i with
  | nil => simp [starts_bracket_loop] at h
  | cons ch t ih =>
    unfold starts_bracket_loop at h
    by_cases hi : i < 10
    · simp only [hi, if_true] at h
      by_cases hb : ch = '['
      · exact ⟨0, t, by simp [hb], by omega⟩
      · simp only [hb, if_false] at h
        by_cases hs : ch = ' '
        · simp only [hs, ne_eq, not_true_eq_false, if_false] at h
          obtain ⟨m, rest, h1, h2⟩ := ih (i + 1) h
          exact ⟨m + 1, rest, by simp [List.replicate_succ, hs, h1], by omega⟩
        · simp [hs] at h
    · simp [hi] at h

theorem starts_bracket_iff (s : List Char) (k : Nat) :
    starts_bracket s = (k : Int) ↔
      k < 10 ∧ ∃ rest, s = List.replicate k ' ' ++ '[' :: rest := by
  constructor
  · intro h
    obtain ⟨m, rest, h1, h2⟩ := starts_bracket_loop_nonneg s 0 (by
      show 0 ≤ starts_bracket s
      rw [h]; exact Int.natCast_nonneg k)
    have := starts_bracket_loop_found m 0 rest h2
    rw [← h1] at this
    have hk : (k : Int) = ((0 + m : Nat) : Int) := by
      rw [← h]; exact this
    have hkm : k = m := by
      have := Int.ofNat.inj hk
      omega
    subst hkm
    exact ⟨by omega, rest, h1⟩
  · rintro ⟨hk, rest, rfl⟩
    have := starts_bracket_loop_found k 0 rest (by omega)
    simpa [starts_bracket] using this

theorem starts_bracket_neg_or (s : List Char) :
    starts_bracket s < 0 ∨ ∃ k : Nat, starts_bracket s = (k : Int) := by
  by_cases h : starts_bracket s < 0
  · exact Or.inl h
  · exact Or.inr ⟨(starts_bracket s).toNat, (Int.toNat_of_nonneg (by omega)).symm⟩

theorem strncmp_eq_iff (n : Nat) (a b : List Char) :
    strncmp_eq n a b = true ↔ a.take n = b.take n := by
  induction n generalizing a b with
  | zero => simp [strncmp_eq]
  | succ n ih =>
    cases a with
    | nil =>
      cases b with
      | nil => simp [strncmp_eq]
      | cons y b => simp [strncmp_eq]
    | cons x a =>
      cases b with
      | nil => simp [strncmp_eq]
      | cons y b => simp [strncmp_eq, ih]

theorem perf_match_iff (line : List Char) :
    perf_match line = true ↔
      ∃ (k : Nat) (rest : List Char), k < 10 ∧ line = List.replicate k ' ' ++ '[' :: rest ∧
        ∃ sl ∈ perf_strings, ('[' :: rest).take sl.2 = sl.1.take sl.2 := by
  unfold perf_match
  rcases starts_bracket_neg_or line with hneg | ⟨k, hk⟩
  · simp only [hneg, if_true, Bool.false_eq_true, false_iff]
    rintro ⟨k, rest, hk, hline, _⟩
    have := (starts_bracket_iff line k).mpr ⟨hk, rest, hline⟩
    rw [this] at hneg
    exact absurd hneg (by simp)
  · obtain ⟨hk10, rest, hline⟩ := (starts_bracket_iff line k).mp hk
    have hdrop : line.drop k = '[' :: rest := by
      rw [hline, List.drop_left' (by simp)]
    have key : (perf_strings.any (fun sl => strncmp_eq sl.2 ('[' :: rest) sl.1) = true) ↔
        ∃ sl ∈ perf_strings, ('[' :: rest).take sl.2 = sl.1.take sl.2 := by
      rw [List.any_eq_true]
      simp only [strncmp_eq_iff]
    simp only [hk, Int.toNat_ofNat, hdrop]
    rw [if_neg (by simp), key]
    constructor
    · rintro ⟨sl, hsl, h⟩
      exact ⟨k, rest, hk10, hline, sl, hsl, h⟩
    · rintro ⟨k2, rest2, hk2, hline2, sl, hsl, h⟩
      have h2 := (starts_bracket_iff line k2).mpr ⟨hk2, rest2, hline2⟩
      rw [hk] at h2
      have hkk : k = k2 := Int.ofNat.inj h2
      subst hkk
      have hr : rest2 = rest := by
        have := hline.symm.trans hline2
        simpa using (List.append_cancel_left this).symm
      subst hr
      exact ⟨sl, hsl, h⟩

/-- C13: `perf_match` works on the fixed ordered list of (prefix, n) pairs shown, every n
being at most the length of its prefix, and answers true for a line exactly when the line
is `k < 10` spaces followed by '[' (so '[' is its first non-space character, within the
first 10 characters) and for some pair of the list the n characters of the line starting
at that '[' equal the first n characters of the prefix; in particular every header
"[flaps.N]" matches, whatever N is. -/
theorem perf_match_spec :
    perf_strings.map (fun sl => (String.mk sl.1, sl.2)) =
      [("[airplane_geometry]", 5), ("[flaps.", 4), ("[flight_tuning]", 4),
       ("[water_ballast_system]", 3), ("[weight_and_balance]", 3), ("[generalenginedata]", 11),
       ("[jet_engine]", 4), ("[piston_engine]", 4), ("[propeller]", 4),
       ("[turbineenginedata]", 6), ("[turboprop_engine]", 6)] ∧
    (∀ sl ∈ perf_strings, sl.2 ≤ sl.1.length) ∧
    (∀ line : List Char, perf_match line = true ↔
      ∃ (k : Nat) (rest : List Char), k < 10 ∧ line = List.replicate k ' ' ++ '[' :: rest ∧
        ∃ sl ∈ perf_strings, ('[' :: rest).take sl.2 = sl.1.take sl.2) ∧
    (∀ N : List Char, perf_match ("[flaps.".toList ++ N ++ "]".toList) = true) := by
  refine ⟨by decide, by decide, perf_match_iff, ?_⟩
  intro N
  rw [perf_match_iff]
  refine ⟨0, "flaps.".toList ++ N ++ "]".toList, by decide, rfl,
    ("[flaps.".toList, 4), by decide, rfl⟩

theorem perf_match_of_not_header (l : List Char) (h : is_header l = false) :
    perf_match l = false := by
  unfold perf_match
  simp only [is_header, decide_eq_false_iff_not, not_le] at h
  simp [h]

theorem last_header_matches_append_header (before : List (List Char)) (l : List Char)
    (h : is_header l = true) : last_header_matches (before ++ [l]) = perf_match l := by
  simp [last_header_matches, List.filter_append, h]

theorem last_header_matches_append_data (before : List (List Char)) (l : List Char)
    (h : is_header l = false) :
    last_header_matches (before ++ [l]) = last_header_matches before := by
  simp [last_header_matches, List.filter_append, h]

theorem cfg_scan_eq (fuel : Nat) (flag : Bool) (chk : ChksumData) (file : List Char)
    (before : List (List Char)) (hflag : flag = last_header_matches before) :
    cfg_scan fuel flag chk file =
      chksum_string chk
        (absorbed_lines before ((fgets_lines_fuel fuel file).map cstr)).flatten := by
  induction fuel generalizing flag chk file before with
  | zero => simp [cfg_scan, fgets_lines_fuel, absorbed_lines, chksum_string]
  | succ fuel ih =>
    cases hf : fgets file with
    | none => simp [cfg_scan, fgets_lines_fuel, hf, absorbed_lines, chksum_string]
    | some lr =>
      obtain ⟨line, rest⟩ := lr
      simp only [cfg_scan, fgets_lines_fuel, hf, List.map_cons, absorbed_lines]
      by_cases hh : is_header (cstr line) = true
      · have hsb : ¬ starts_bracket (cstr line) < 0 := by
          simp only [is_header, decide_eq_true_eq] at hh
          omega
        have hnext := last_header_matches_append_header before (cstr line) hh
        rw [ih (perf_match (cstr line)) chk rest (before ++ [cstr line]) hnext.symm]
        simp [hh, hsb]
      · have hh2 : is_header (cstr line) = false := by simpa using hh
        have hsb : starts_bracket (cstr line) < 0 := by
          simp only [is_header, decide_eq_false_iff_not, not_le] at hh2
          exact hh2
        have hnext := last_header_matches_append_data before (cstr line) hh2
        by_cases hfl : flag = true
        · rw [ih flag (chksum_string chk (cstr line)) rest (before ++ [cstr line])
            (by rw [hnext]; exact hflag)]
          simp [hfl, hsb, hh2, ← hflag, chksum_string_append]
        · have hfl2 : flag = false := by simpa using hfl
          rw [ih (perf_match (cstr line)) chk rest (before ++ [cstr line])
            (by rw [hnext, perf_match_of_not_header _ hh2, ← hflag, hfl2])]
          simp [hfl2, hh2, ← hflag]

theorem absorbed_lines_data (before ds : List (List Char))
    (hds : ∀ l ∈ ds, is_header l = false) :
    absorbed_lines before ds = if last_header_matches before then ds else [] := by
  induction ds generalizing before with
  | nil => simp [absorbed_lines]
  | cons l rest ih =>
    have hl : is_header l = false := hds l (by simp)
    have hrest := ih (before ++ [l]) (fun x hx => hds x (by simp [hx]))
    rw [absorbed_lines, hrest, last_header_matches_append_data before l hl]
    cases last_header_matches before <;> simp [hl]

theorem absorbed_lines_append (before xs ys : List (List Char)) :
    absorbed_lines before (xs ++ ys) =
      absorbed_lines before xs ++ absorbed_lines (before ++ xs) ys := by
  induction xs generalizing before with
  | nil => simp [absorbed_lines]
  | cons l rest ih =>
    have h := ih (before ++ [l])
    have e : before ++ [l] ++ rest = before ++ l :: rest := by simp
    rw [e] at h
    rw [List.cons_append, absorbed_lines, absorbed_lines, h, List.append_assoc]

theorem absorbed_lines_not_header (before lines : List (List Char)) (l : List Char)
    (h : l ∈ absorbed_lines before lines) : is_header l = false ∧ l ∈ lines := by
  induction lines generalizing before with
  | nil => simp [absorbed_lines] at h
  | cons x rest ih =>
    rw [absorbed_lines, List.mem_append] at h
    rcases h with h | h
    · split at h
      · rename_i hc
        simp only [List.mem_singleton] at h
        subst h
        simp only [Bool.and_eq_true, Bool.not_eq_true'] at hc
        exact ⟨hc.1, by simp⟩
      · simp at h
    · obtain ⟨h1, h2⟩ := ih _ h
      exact ⟨h1, by simp [h2]⟩

theorem absorbed_lines_header (before : List (List Char)) (h : List Char)
    (hh : is_header h = true) : absorbed_lines before [h] = [] := by
  simp [absorbed_lines, hh]

theorem cfg_example_lines (a b c d : List Char) (ha : data_line a) (hb : data_line b)
    (hc : data_line c) (hd : data_line d) :
    (fgets_lines ("[flaps.1]\n".toList ++ a ++ b ++ "[sound]\n".toList ++ c ++ d)).map cstr
      = ["[flaps.1]\n".toList, a, b, "[sound]\n".toList, c, d] := by
  have hflat : "[flaps.1]\n".toList ++ a ++ b ++ "[sound]\n".toList ++ c ++ d
      = ["[flaps.1]\n".toList, a, b, "[sound]\n".toList, c, d].flatten := by
    simp [List.flatten]
  have hall : ∀ l ∈ ["[flaps.1]\n".toList, a, b, "[sound]\n".toList, c, d],
      (l.length < MAXBUF ∧ l.getLast? = some '\n' ∧ '\n' ∉ l.dropLast) ∧ '\x00' ∉ l := by
    intro l hl
    simp only [List.mem_cons, List.mem_singleton, List.not_mem_nil, or_false] at hl
    rcases hl with h | h | h | h | h | h <;> subst h
    · decide
    · exact ⟨⟨ha.1, ha.2.1, ha.2.2.1⟩, ha.2.2.2.1⟩
    · exact ⟨⟨hb.1, hb.2.1, hb.2.2.1⟩, hb.2.2.2.1⟩
    · decide
    · exact ⟨⟨hc.1, hc.2.1, hc.2.2.1⟩, hc.2.2.2.1⟩
    · exact ⟨⟨hd.1, hd.2.1, hd.2.2.1⟩, hd.2.2.2.1⟩
  rw [hflat, fgets_lines_newline_terminated _ (fun l hl => (hall l hl).1)]
  rw [show List.map cstr ["[flaps.1]\n".toList, a, b, "[sound]\n".toList, c, d]
      = List.map id ["[flaps.1]\n".toList, a, b, "[sound]\n".toList, c, d] from
    List.map_congr_left (fun l hl => cstr_of_no_nul l (hall l hl).2)]
  simp

theorem cfg_example_absorbed (a b c d : List Char) (ha : data_line a) (hb : data_line b)
    (hc : data_line c) (hd : data_line d) :
    absorbed_lines [] ["[flaps.1]\n".toList, a, b, "[sound]\n".toList, c, d] = [a, b] := by
  have hF : is_header "[flaps.1]\n".toList = true := by decide
  have hS : is_header "[sound]\n".toList = true := by decide
  have e : ["[flaps.1]\n".toList, a, b, "[sound]\n".toList, c, d]
      = ["[flaps.1]\n".toList] ++ ([a, b] ++ (["[sound]\n".toList] ++ [c, d])) := rfl
  have hab : ∀ l ∈ [a, b], is_header l = false := by
    intro l hl
    simp only [List.mem_cons, List.mem_singleton, List.not_mem_nil, or_false] at hl
    rcases hl with h | h <;> subst h
    · exact ha.2.2.2.2
    · exact hb.2.2.2.2
  have hcd : ∀ l ∈ [c, d], is_header l = false := by
    intro l hl
    simp only [List.mem_cons, List.mem_singleton, List.not_mem_nil, or_false] at hl
    rcases hl with h | h <;> subst h
    · exact hc.2.2.2.2
    · exact hd.2.2.2.2
  have m1 : last_header_matches ([] ++ ["[flaps.1]\n".toList]) = true := by
    rw [last_header_matches_append_header _ _ hF]; decide
  have m2 : last_header_matches ([] ++ ["[flaps.1]\n".toList] ++ [a, b]
      ++ ["[sound]\n".toList]) = false := by
    rw [last_header_matches_append_header _ _ hS]; decide
  rw [e, absorbed_lines_append, absorbed_lines_append, absorbed_lines_append,
    absorbed_lines_data _ [a, b] hab, absorbed_lines_data _ [c, d] hcd, m1, m2,
    absorbed_lines_header _ _ hF, absorbed_lines_header _ _ hS]
  rfl

/-- The `double` nearest to 0.15 degrees is written as 9 minutes and 000 thousandths: the
product by 60 rounds to 9 exactly. -/
theorem b_record_rounds_as_double :
    dbl (15 / 100) = fifteen_hundredths_b.latitude ∧
    c_int (dbl (fifteen_hundredths_b.latitude * 60)) = 9 ∧
    c_int (fifteen_hundredths_b.latitude * 60) = 8 ∧
    b_record fifteen_hundredths_b = "B0000000009000N00009000EA0000000000027000\n".toList :=
  ⟨by decide!, by decide!, by decide!, by decide!⟩

theorem b_record_sample_at (t : Int) : b_record (sample_at t) = sample_line t := by
  have e1 : c_int |(103 / 2 : ℚ)| = 51 := by decide!
  have e2 : c_int (dbl (dbl (|(103 / 2 : ℚ)| - ((51 : Int) : ℚ)) * 60)) = 30 := by decide!
  have e3 : c_int (dbl (dbl (dbl (|(103 / 2 : ℚ)| - ((51 : Int) : ℚ)) -
      dbl (((30 : Int) : ℚ) / 60)) * 60000)) = 0 := by decide!
  have e4 : c_int |(-5 / 4 : ℚ)| = 1 := by decide!
  have e5 : c_int (dbl (dbl (|(-5 / 4 : ℚ)| - ((1 : Int) : ℚ)) * 60)) = 15 := by decide!
  have e6 : c_int (dbl (dbl (dbl (|(-5 / 4 : ℚ)| - ((1 : Int) : ℚ)) -
      dbl (((15 : Int) : ℚ) / 60)) * 60000)) = 0 := by decide!
  have e7 : c_int (12347 / 10 : ℚ) = 1234 := by decide!
  have e8 : ((103 / 2 : ℚ) > 0) = True := by norm_num
  have e9 : ((-5 / 4 : ℚ) > 0) = False := by norm_num
  unfold b_record sample_at sample_b sample_line
  simp only [e1, e2, e3, e4, e5, e6, e7, e8, e9]
  rfl

theorem session_with_records (env : Env) (n : Nat) :
    igc_records env (session_with n) =
      header_records sample_session ++ task_records sample_session ++
        comment_records env sample_session ++
        (List.range n).map (fun i => emit (sample_line (3661 + 4 * i))) := by
  have h1 : header_records (session_with n) = header_records sample_session := rfl
  have h2 : task_records (session_with n) = task_records sample_session := rfl
  have h3 : comment_records env (session_with n) = comment_records env sample_session := rfl
  have h4 : (session_with n).igc_pos = (List.range n).map (fun i => sample_at (3661 + 4 * i)) :=
    rfl
  have h5 : ((List.range n).map (fun i => sample_at (3661 + 4 * i))).map
      (fun b => emit (b_record b)) =
      (List.range n).map (fun i => emit (sample_line (3661 + 4 * i))) := by
    rw [List.map_map]
    apply List.map_congr_left
    intro i _
    simp only [Function.comp, b_record_sample_at]
  unfold igc_records
  rw [h1, h2, h3, h4, h5]

theorem finalize_autosave (env : Env) (g : Session) :
    (g.igc_pos.length ≤ 4 →
      finalize env g FinalizeReason.autosave_on_quit = none ∧
      finalize env g FinalizeReason.autosave_on_crash = none) ∧
    (4 < g.igc_pos.length → ∀ r, finalize env g r = igc_write_file env g) ∧
    finalize env g FinalizeReason.menu_write_log = igc_write_file env g := by
  refine ⟨?_, ?_, rfl⟩
  · intro h
    have : ¬ g.igc_pos.length > IGC_MIN_RECORDS := by simp only [IGC_MIN_RECORDS]; omega
    simp [finalize, this]
  · intro h r
    have : g.igc_pos.length > IGC_MIN_RECORDS := by simp only [IGC_MIN_RECORDS]; omega
    cases r <;> simp [finalize, this]

theorem finalize_some (env : Env) (g : Session) (r : FinalizeReason) (doc : List Char)
    (h : finalize env g r = some doc) : igc_write_file env g = some doc := by
  cases r
  · exact h
  · simp only [finalize] at h
    split at h
    · exact h
    · cases h
  · simp only [finalize] at h
    split at h
    · exact h
    · cases h

set_option maxRecDepth 1000000 in
theorem session_with_written (n : Nat) (hn : n ≤ 5) :
    ∃ doc, igc_write_file sample_env (session_with n) = some doc := by
  rw [igc_write_file_isSome_iff, session_with_records]
  interval_cases n <;> decide

set_option maxRecDepth 1000000 in
theorem session_with_percent_free (n : Nat) (hn : n ≤ 5) :
    percent_free sample_env (session_with n) := by
  unfold percent_free
  rw [session_with_records]
  interval_cases n <;> decide

/-- C16 as stated fails: with 3 accepted samples the manual save from the menu composes a
document. -/
theorem finalize_menu_three_samples :
    (session_with 3).igc_pos.length = 3 ∧
    (finalize sample_env (session_with 3) FinalizeReason.menu_write_log).isSome = true := by
  refine ⟨rfl, ?_⟩
  obtain ⟨doc, hdoc⟩ := session_with_written 3 (by decide)
  rw [(finalize_autosave sample_env (session_with 3)).2.2, hdoc]
  rfl

/-- C16 (amended): the autosaves on quit and on crash compose no document when fewer than 4
samples have been accepted, and call `igc_write_file` when more than 4 have; the manual
save from the menu calls `igc_write_file` whatever the count.  Every document composed,
for any reason, for a session whose records hold no '%' is the records followed by the
trailer with their checksum; it is answered CHKSUM_OK by `chksum_igc_file` when the records
hold no NUL and no line of them begins with 'G', in particular for a session with
single-line strings. -/
theorem finalize_minimum (env : Env) (g : Session) (buf0 : List Char) :
    (g.igc_pos.length < 4 →
      finalize env g FinalizeReason.autosave_on_quit = none ∧
      finalize env g FinalizeReason.autosave_on_crash = none) ∧
    (4 < g.igc_pos.length → ∀ r, finalize env g r = igc_write_file env g) ∧
    finalize env g FinalizeReason.menu_write_log = igc_write_file env g ∧
    (∀ (r : FinalizeReason) (doc : List Char), percent_free env g →
      finalize env g r = some doc →
      ∃ lines : List (List Char), igc_records env g = lines.map some ∧
        doc = lines.flatten ++ ['G'] ++ checksum lines.flatten ++ ['\n'] ∧
        ('\x00' ∉ lines.flatten → (∀ l ∈ fgets_lines lines.flatten, l.head? ≠ some 'G') →
          chksum_igc_file buf0 (some doc) = CHKSUM_RESULT.CHKSUM_OK) ∧
        (single_line_session g →
          chksum_igc_file buf0 (some doc) = CHKSUM_RESULT.CHKSUM_OK)) := by
  refine ⟨fun h => (finalize_autosave env g).1 (by omega), (finalize_autosave env g).2.1,
    rfl, ?_⟩
  intro r doc hp h
  obtain ⟨lines, h1, h2, h3, _, h5⟩ :=
    written_document_decision env g buf0 doc hp (finalize_some env g r doc h)
  exact ⟨lines, h1, h2, h3, fun hg => (h5 hg).2.2⟩

set_option maxRecDepth 1000000 in
theorem finalize_minimum_witness :
    (session_with 3).igc_pos.length < 4 ∧
    finalize sample_env (session_with 3) FinalizeReason.autosave_on_quit = none ∧
    4 < (session_with 5).igc_pos.length ∧
    percent_free sample_env (session_with 5) ∧ single_line_session (session_with 5) ∧
    ∃ doc, finalize sample_env (session_with 5) FinalizeReason.autosave_on_quit = some doc ∧
      chksum_igc_file [] (some doc) = CHKSUM_RESULT.CHKSUM_OK := by
  obtain ⟨doc, hdoc⟩ := session_with_written 5 (by decide)
  have h3 : (session_with 3).igc_pos.length < 4 := by decide
  have h5 : 4 < (session_with 5).igc_pos.length := by decide
  have hp := session_with_percent_free 5 (by decide)
  have hT := finalize_minimum sample_env (session_with 3) []
  have hF := finalize_minimum sample_env (session_with 5) []
  have hq : finalize sample_env (session_with 5) FinalizeReason.autosave_on_quit = some doc := by
    rw [hF.2.1 h5, hdoc]
  obtain ⟨_, _, _, _, hs⟩ := hF.2.2.2 FinalizeReason.autosave_on_quit doc hp hq
  exact ⟨h3, (hT.1 h3).1, h5, hp, by decide, doc, hq, hs (by decide)⟩

/-! ## Theorems: order of the records -/

theorem header_records_eq (g : Session) : header_records g = (header_texts g).map emit := rfl

theorem comment_records_eq (env : Env) (g : Session) :
    comment_records env g = date_time_line env.today :: (comment_texts env g).map emit := rfl

theorem task_records_eq (g : Session) : task_records g = (task_strings g).map emit_record := by
  unfold task_records task_strings
  split <;> simp

theorem emit_record_eq (s l : List Char) (h : emit_record s = some l) : l = s := by
  unfold emit_record at h
  exact (Option.some.inj h).symm

theorem no_percent_iff (s : List Char) : no_percent s = true ↔ '%' ∉ s := by
  simp [no_percent]

theorem no_percent_append (a b : List Char) :
    no_percent (a ++ b) = (no_percent a && no_percent b) := by
  simp [no_percent, List.contains_eq_any_beq, List.any_append, Bool.not_or]

theorem no_percent_of_forall (s : List Char) (h : ∀ c ∈ s, c ≠ '%') : no_percent s = true := by
  rw [no_percent_iff]
  exact fun hm => h _ hm rfl

theorem no_percent_drop (s : List Char) (n : Nat) (h : no_percent s = true) :
    no_percent (s.drop n) = true := by
  rw [no_percent_iff] at h ⊢
  exact fun hm => h (List.mem_of_mem_drop hm)

theorem toDigitsCore_no_percent (fuel n : Nat) (ds : List Char) (h : no_percent ds = true) :
    no_percent (Nat.toDigitsCore 10 fuel n ds) = true := by
  induction fuel generalizing n ds with
  | zero => simpa [Nat.toDigitsCore] using h
  | succ fuel ih =>
    have hd : no_percent (Nat.digitChar (n % 10) :: ds) = true := by
      rw [no_percent_iff] at h ⊢
      intro hm
      rcases List.mem_cons.mp hm with e | e
      · have hall : ∀ d < 10, Nat.digitChar d ≠ '%' := by decide
        exact hall _ (Nat.mod_lt _ (by decide)) e.symm
      · exact h e
    simp only [Nat.toDigitsCore]
    split
    · exact hd
    · exact ih _ _ hd

theorem toDigits_no_percent (n : Nat) : no_percent (Nat.toDigits 10 n) = true :=
  toDigitsCore_no_percent _ _ [] rfl

theorem fmt_d_no_percent (p : Nat) (v : Int) : no_percent (fmt_d p v) = true := by
  unfold fmt_d
  rw [no_percent_append, no_percent_append, toDigits_no_percent]
  have h1 : no_percent (if v < 0 then ['-'] else []) = true := by split <;> rfl
  have h2 : no_percent (List.replicate (p - (Nat.toDigits 10 v.natAbs).length) '0') = true := by
    apply no_percent_of_forall
    intro c hc
    rw [List.eq_of_mem_replicate hc]
    decide
  rw [h1, h2]
  rfl

theorem chksum_to_string_no_percent (st : ChksumData) :
    no_percent (chksum_to_string st) = true := by
  apply no_percent_of_forall
  intro c hc
  have hb : ∀ c ∈ base36, c ≠ '%' := by decide
  exact hb c (chksum_to_string_mem st c hc)

theorem path_to_name_no_percent (fe : List Char → Bool) (path : List Char)
    (h : no_percent path = true) : no_percent (path_to_name fe path) = true := by
  unfold path_to_name
  split
  · decide
  · exact no_percent_drop _ _ h

theorem emit_all (s : List Char) (h : no_percent s = true) :
    Option.all no_percent (emit s) = true := by
  unfold emit
  split
  · exact h
  · rfl

theorem b_record_no_percent (b : igc_b) : no_percent (b_record b) = true := by
  unfold b_record b_format
  simp only [no_percent_append, fmt_d_no_percent, Bool.and_true, Bool.true_and]
  split_ifs <;> decide

theorem date_time_line_no_percent (today : Tm) :
    Option.all no_percent (date_time_line today) = true := by
  unfold date_time_line
  simp only []
  split
  · apply emit_all
    simp only [no_percent_append, fmt_d_no_percent, toDigits_no_percent, Bool.and_true]
    decide
  · rfl

/-- A session whose copied strings hold no '%' has no '%' in any record. -/
theorem percent_free_of_strings (env : Env) (g : Session) (h : percent_free_strings g) :
    percent_free env g := by
  obtain ⟨hT, hI, h1, h2, h3, h4, h5, h6, p1, p2, p3, p4, p5, p6, htask⟩ := h
  have n1 := path_to_name_no_percent env.file_exists _ p1
  have n2 := path_to_name_no_percent env.file_exists _ p2
  have n3 := path_to_name_no_percent env.file_exists _ p3
  have n4 := path_to_name_no_percent env.file_exists _ p4
  have n5 := path_to_name_no_percent env.file_exists _ p5
  have n6 := path_to_name_no_percent env.file_exists _ p6
  intro r hr
  simp only [igc_records, List.mem_append, List.mem_map] at hr
  rcases hr with ((hr | hr) | hr) | ⟨b, _, rfl⟩
  · simp only [header_records, List.mem_cons, List.mem_singleton, List.not_mem_nil,
      or_false] at hr
    rcases hr with e | e | e | e | e | e | e | e | e | e | e | e | e | e | e | e <;>
      rw [e] <;> apply emit_all <;>
      first
      | decide
      | (simp only [no_percent_append, fmt_d_no_percent, hT, hI, Bool.and_true]; decide)
  · rw [task_records_eq] at hr
    obtain ⟨s, hs, rfl⟩ := List.mem_map.mp hr
    exact htask s hs
  · simp only [comment_records, List.mem_cons, List.mem_singleton, List.not_mem_nil,
      or_false] at hr
    rcases hr with e | e | e | e | e | e | e | e | e | e | e <;> rw [e]
    · exact date_time_line_no_percent _
    · apply emit_all; simp only [no_percent_append, h1, n1, Bool.and_true]; decide
    · apply emit_all; simp only [no_percent_append, h3, n3, Bool.and_true]; decide
    · apply emit_all; simp only [no_percent_append, h4, n4, Bool.and_true]; decide
    · apply emit_all; simp only [no_percent_append, h6, n6, Bool.and_true]; decide
    · apply emit_all; simp only [no_percent_append, h5, n5, Bool.and_true]; decide
    · apply emit_all; simp only [no_percent_append, h2, n2, Bool.and_true]; decide
    · apply emit_all; split <;> decide
    · apply emit_all; split <;> decide
    · apply emit_all; split <;> decide
    · apply emit_all
      simp only [no_percent_append, chksum_chksum, chksum_to_string_no_percent, Bool.and_true]
      decide
  · exact emit_all _ (b_record_no_percent b)

theorem map_some_eq_map_emit (L T : List (List Char)) (f : List Char → Option (List Char))
    (hf : ∀ s l, f s = some l → l = s) (h : L.map some = T.map f) : L = T := by
  induction T generalizing L with
  | nil => simpa using h
  | cons t rest ih =>
    cases L with
    | nil => simp at h
    | cons l L2 =>
      simp only [List.map_cons, List.cons.injEq] at h
      rw [hf t l h.1.symm, ih L2 h.2]

theorem date_time_line_start (today : Tm) (d : List Char) (h : date_time_line today = some d) :
    d.take 30 = "L FSX date/time on users PC:  ".toList := by
  unfold date_time_line at h
  simp only [] at h
  split at h
  · obtain ⟨rfl, _⟩ := emit_eq _ _ h
    rfl
  · cases h

theorem b_record_head (b : igc_b) : (b_record b).head? = some 'B' := by
  unfold b_record b_format
  rfl

theorem header_texts_prefixes (g : Session) :
    (header_texts g).map (List.take 5) =
      ["AXXX ".toList, "HFDTE".toList, "HFFXA".toList, "HFPLT".toList, "HFCM2".toList,
       "HFGTY".toList, "HFGID".toList, "HFDTM".toList, "HFRFW".toList, "HFRHW".toList,
       "HFFTY".toList, "HFGPS".toList, "HFPRS".toList, "HFCID".toList, "HFCCL".toList,
       "I0236".toList] := by
  rfl

theorem comment_texts_prefixes (env : Env) (g : Session) :
    (comment_texts env g).map (List.take 13) =
      ["L FSX FLT che".toList, "L FSX WX chec".toList, "L FSX CMX che".toList,
       "L FSX mission".toList, "L FSX aircraf".toList, "L FSX AIR che".toList,
       "L FSX Cumulus".toList, "L FSX WX stat".toList, "L FSX Thermal".toList,
       "L FSX GENERAL".toList] := by
  simp only [comment_texts, List.map_cons, List.map_nil]
  split_ifs <;> rfl

theorem igc_records_eq (env : Env) (g : Session) :
    igc_records env g = (header_texts g).map emit ++ (task_strings g).map emit_record ++
      (date_time_line env.today :: (comment_texts env g).map emit) ++
      (g.igc_pos.map b_record).map emit := by
  rw [List.map_map, Function.comp_def, ← header_records_eq, ← task_records_eq,
    ← comment_records_eq, igc_records]

/-- The records of a written document, as texts, in the order written. -/
theorem written_records (env : Env) (g : Session) (lines : List (List Char))
    (h : igc_records env g = lines.map some) :
    ∃ d : List Char, date_time_line env.today = some d ∧
      lines = header_texts g ++ task_strings g ++ (d :: comment_texts env g) ++
        g.igc_pos.map b_record := by
  rw [igc_records_eq] at h
  obtain ⟨l123, lB, rfl, h123, hB⟩ := List.map_eq_append_iff.mp h.symm
  obtain ⟨l12, lC, rfl, h12, hC⟩ := List.map_eq_append_iff.mp h123
  obtain ⟨lH, lT, rfl, hH, hT⟩ := List.map_eq_append_iff.mp h12
  have eH := map_some_eq_map_emit lH _ emit (fun s l hs => (emit_eq s l hs).1) hH
  have eT := map_some_eq_map_emit lT _ emit_record emit_record_eq hT
  have eB := map_some_eq_map_emit lB _ emit (fun s l hs => (emit_eq s l hs).1) hB
  cases lC with
  | nil => simp at hC
  | cons d lC2 =>
    simp only [List.map_cons, List.cons.injEq] at hC
    have eC := map_some_eq_map_emit lC2 _ emit (fun s l hs => (emit_eq s l hs).1) hC.2
    exact ⟨d, hC.1.symm, by rw [eH, eT, eB, eC]⟩

/-- C18 as stated fails: in the document written for the sample session the first task
record is record number 16 and the aggregate-checksum comment is record number 31, so the
route lines come before the aggregate-checksum line, not after it. -/
theorem route_before_aggregate :
    ∃ (doc : List Char) (lines : List (List Char)),
      igc_write_file sample_env sample_session = some doc ∧
      igc_records sample_env sample_session = lines.map some ∧
      doc = lines.flatten ++ ['G'] ++ checksum lines.flatten ++ ['\n'] ∧
      lines.get? 16 = some "C040709123000000000000100Sample task\n".toList ∧
      (lines.get? 31).map (List.take 22) = some "L FSX GENERAL CHECKSUM".toList := by
  obtain ⟨doc, hdoc⟩ := sample_session_written
  obtain ⟨_, lines, hrec, hlines⟩ := igc_write_file_some _ _ doc sample_percent_free hdoc
  obtain ⟨d, _, hl⟩ := written_records _ _ lines hrec
  refine ⟨doc, lines, hdoc, hrec, hlines, ?_, ?_⟩
  · rw [hl]; rfl
  · rw [hl]; rfl

/-- C18 (amended): in every written document the records appear in this order: the 16
header records (manufacturer/version, date, fixed identity lines with the aircraft type and
id lines, ending with the I record), then the task records (only when `c_wp_count > 1`),
then the comment records (date/time of the PC, the six file-checksum lines, the three
lock-status lines, the aggregate-checksum line), then one position record per stored
position, then the trailer; so the task records come before the aggregate-checksum line.
The document holds, in this order, what `fprintf` wrote for each record: the record itself
whenever no record holds a '%'. -/
theorem composition_order (env : Env) (g : Session) (doc : List Char)
    (h : igc_write_file env g = some doc) :
    ∃ (d : List Char) (written : List (List Char)), date_time_line env.today = some d ∧
      (header_texts g ++ task_strings g ++ (d :: comment_texts env g) ++
        g.igc_pos.map b_record).map (fprintf env) = written.map some ∧
      doc = written.flatten ++ ['G'] ++
        checksum (header_texts g ++ task_strings g ++ (d :: comment_texts env g) ++
          g.igc_pos.map b_record).flatten ++ ['\n'] ∧
      (percent_free env g →
        doc = (header_texts g ++ task_strings g ++ (d :: comment_texts env g) ++
            g.igc_pos.map b_record).flatten ++ ['G'] ++
          checksum (header_texts g ++ task_strings g ++ (d :: comment_texts env g) ++
            g.igc_pos.map b_record).flatten ++ ['\n']) ∧
      (header_texts g).map (List.take 5) =
        ["AXXX ".toList, "HFDTE".toList, "HFFXA".toList, "HFPLT".toList, "HFCM2".toList,
         "HFGTY".toList, "HFGID".toList, "HFDTM".toList, "HFRFW".toList, "HFRHW".toList,
         "HFFTY".toList, "HFGPS".toList, "HFPRS".toList, "HFCID".toList, "HFCCL".toList,
         "I0236".toList] ∧
      (header_texts g).get? 0 = some "AXXX sim_logger v1.18\n".toList ∧
      (header_texts g).get? 5 = some ("HFGTYGLIDERTYPE:".toList ++ g.TITLE ++ ['\n']) ∧
      (header_texts g).get? 6 = some ("HFGIDGLIDERID:".toList ++ g.ATC_ID ++ ['\n']) ∧
      (g.c_wp_count ≤ 1 → task_strings g = []) ∧
      (1 < g.c_wp_count → task_strings g = [g.c.getD 0 [], g.c.getD 1 []] ++
        (List.range g.c_wp_count).map (fun i => g.c.getD (i + 2) []) ++ [g.c_landing]) ∧
      d.take 30 = "L FSX date/time on users PC:  ".toList ∧
      (comment_texts env g).map (List.take 13) =
        ["L FSX FLT che".toList, "L FSX WX chec".toList, "L FSX CMX che".toList,
         "L FSX mission".toList, "L FSX aircraf".toList, "L FSX AIR che".toList,
         "L FSX Cumulus".toList, "L FSX WX stat".toList, "L FSX Thermal".toList,
         "L FSX GENERAL".toList] ∧
      (∀ b ∈ g.igc_pos, (b_record b).head? = some 'B') := by
  obtain ⟨_, lines, written, hrec, hw, hlines⟩ := igc_write_file_written env g doc h
  obtain ⟨d, hd, hl⟩ := written_records env g lines hrec
  refine ⟨d, written, hd, by rw [← hl]; exact hw, by rw [hlines, hl], ?_,
    header_texts_prefixes g, rfl, rfl, rfl, ?_, ?_,
    date_time_line_start _ d hd, comment_texts_prefixes env g, fun b _ => b_record_head b⟩
  · intro hp
    rw [hlines, written_eq_of_no_percent env lines written
      (percent_free_lines env g lines hp hrec) hw, hl]
  · intro hc
    have : ¬ g.c_wp_count > 1 := by omega
    simp [task_strings, this]
  · intro hc
    simp [task_strings, hc]

theorem composition_order_witness :
    ∃ doc d, igc_write_file sample_env sample_session = some doc ∧
      doc = (header_texts sample_session ++ task_strings sample_session ++
          (d :: comment_texts sample_env sample_session) ++
          sample_session.igc_pos.map b_record).flatten ++ ['G'] ++
        checksum (header_texts sample_session ++ task_strings sample_session ++
          (d :: comment_texts sample_env sample_session) ++
          sample_session.igc_pos.map b_record).flatten ++ ['\n'] := by
  obtain ⟨doc, hdoc⟩ := sample_session_written
  obtain ⟨d, _, _, _, _, h2, _⟩ := composition_order sample_env sample_session doc hdoc
  exact ⟨doc, d, hdoc, h2 sample_percent_free⟩

/-! ## Theorems: position records -/

theorem head_of_take_eq (l p : List Char) (n : Nat) (c : Char) (hn : 0 < n)
    (hp : l.take n = p) (hc : p.head? = some c) : l.head? = some c := by
  cases l with
  | nil => rw [← hp] at hc; simp at hc
  | cons x t =>
    obtain ⟨m, rfl⟩ : ∃ m, n = m + 1 := ⟨n - 1, by omega⟩
    rw [← hp] at hc
    simpa using hc

theorem header_texts_head (g : Session) (l : List Char) (hl : l ∈ header_texts g) :
    l.head? ≠ some 'B' := by
  have hp := header_texts_prefixes g
  have hm : l.take 5 ∈ (header_texts g).map (List.take 5) := List.mem_map_of_mem _ hl
  rw [hp] at hm
  simp only [List.mem_cons, List.mem_singleton, List.not_mem_nil, or_false] at hm
  rcases hm with h | h | h | h | h | h | h | h | h | h | h | h | h | h | h | h
  all_goals first
    | rw [head_of_take_eq l _ 5 'A' (by decide) h rfl]; decide
    | rw [head_of_take_eq l _ 5 'H' (by decide) h rfl]; decide
    | rw [head_of_take_eq l _ 5 'I' (by decide) h rfl]; decide

theorem comment_texts_head (env : Env) (g : Session) (l : List Char)
    (hl : l ∈ comment_texts env g) : l.head? ≠ some 'B' := by
  have hp := comment_texts_prefixes env g
  have hm : l.take 13 ∈ (comment_texts env g).map (List.take 13) := List.mem_map_of_mem _ hl
  rw [hp] at hm
  simp only [List.mem_cons, List.mem_singleton, List.not_mem_nil, or_false] at hm
  rcases hm with h | h | h | h | h | h | h | h | h | h
  all_goals (rw [head_of_take_eq l _ 13 'L' (by decide) h rfl]; decide)

theorem other_records_getLast (env : Env) (g : Session) (d : List Char) :
    (header_texts g ++ task_strings g ++ (d :: comment_texts env g)).flatten.getLast?
      = some '\n' := by
  apply flatten_getLast_newline _
    ("L FSX GENERAL CHECKSUM            ".toList ++ chksum_chksum g (therm_code_of env) ++
      "  <---- CHECK THIS FIRST".toList)
  rw [List.getLast?_append_of_ne_nil _ (by simp)]
  simp [comment_texts, List.getLast?_cons_cons]

theorem fgets_lines_positions (bs : List (List Char)) (d : List Char)
    (hbs : ∀ l ∈ bs, line_shape l) (hd : d.length = 6) (hdp : plainb d = true) :
    fgets_lines (bs.flatten ++ ['G'] ++ d ++ ['\n']) = bs ++ [['G'] ++ d ++ ['\n']] := by
  have hdrop : (['G'] ++ d ++ ['\n']).dropLast = ['G'] ++ d := List.dropLast_concat
  have hcomplete : ∀ l ∈ bs ++ [['G'] ++ d ++ ['\n']],
      l.length < MAXBUF ∧ l.getLast? = some '\n' ∧ plainb l.dropLast = true := by
    intro l hl
    rcases List.mem_append.mp hl with h | h
    · exact (hbs l h).2
    · rw [List.mem_singleton.mp h]
      refine ⟨?_, List.getLast?_concat _, by rw [hdrop, plainb_append, hdp]; rfl⟩
      simp only [List.length_append, List.length_singleton, hd, MAXBUF]
      decide
  have hdoc : bs.flatten ++ ['G'] ++ d ++ ['\n'] = (bs ++ [['G'] ++ d ++ ['\n']]).flatten := by
    simp [List.flatten_append]
  rw [hdoc]
  exact fgets_lines_complete _ hcomplete

/-- C19 (amended): in every written document of a session with n stored positions whose
records hold no '%', the records written are some other records followed by exactly n
position records, the i-th being the 'B' record of the i-th stored position, and directly
after them comes the trailer.  Each position record begins with 'B' and is one complete
line, so the lines read back are the lines of the other records, then these n position
lines, then the trailer line, and the number of lines beginning with 'B' is n plus the
number of such lines among the other records.  That number is zero when the session's
strings are single-line and no task record begins with 'B'. -/
theorem position_lines (env : Env) (g : Session) (doc : List Char)
    (hp : percent_free env g) (h : igc_write_file env g = some doc) :
    ∃ others : List (List Char),
      doc = others.flatten ++ (g.igc_pos.map b_record).flatten ++ ['G'] ++
        checksum (others.flatten ++ (g.igc_pos.map b_record).flatten) ++ ['\n'] ∧
      (g.igc_pos.map b_record).length = g.igc_pos.length ∧
      (∀ (i : Nat) (b : igc_b), g.igc_pos.get? i = some b →
        (g.igc_pos.map b_record).get? i = some (b_record b)) ∧
      (∀ b ∈ g.igc_pos, (b_record b).head? = some 'B' ∧ line_shape (b_record b)) ∧
      fgets_lines doc = fgets_lines others.flatten ++ g.igc_pos.map b_record ++
        [['G'] ++ checksum (others.flatten ++ (g.igc_pos.map b_record).flatten) ++ ['\n']] ∧
      (fgets_lines doc).countP (fun l => l.head? == some 'B') =
        (fgets_lines others.flatten).countP (fun l => l.head? == some 'B') +
          g.igc_pos.length ∧
      (single_line_session g → (∀ r ∈ task_strings g, r.head? ≠ some 'B') →
        (fgets_lines others.flatten).countP (fun l => l.head? == some 'B') = 0) := by
  obtain ⟨_, lines, hrec, hlines⟩ := igc_write_file_some env g doc hp h
  obtain ⟨d, hd, hl⟩ := written_records env g lines hrec
  have hB : ∀ b ∈ g.igc_pos, line_shape (b_record b) := by
    intro b hb
    have hall : ∀ r ∈ igc_records env g, r ≠ none := by
      intro r hr
      rw [hrec] at hr
      obtain ⟨l, _, rfl⟩ := List.mem_map.mp hr
      simp
    have hin : emit (b_record b) ∈ igc_records env g := by
      rw [igc_records_eq]
      simp only [List.mem_append, List.mem_map]
      exact Or.inr ⟨b_record b, ⟨b, hb, rfl⟩, rfl⟩
    cases he : emit (b_record b) with
    | none => exact absurd he (hall _ hin)
    | some l =>
      have := b_record_shape b l he
      rwa [(emit_eq _ _ he).1] at this
  have hBs : ∀ l ∈ g.igc_pos.map b_record, line_shape l := by
    intro l hl2
    obtain ⟨b, hb, rfl⟩ := List.mem_map.mp hl2
    exact hB b hb
  have hBhead : ∀ l ∈ g.igc_pos.map b_record, (l.head? == some 'B') = true := by
    intro l hl2
    obtain ⟨b, hb, rfl⟩ := List.mem_map.mp hl2
    rw [b_record_head b]
    rfl
  have hread : fgets_lines doc =
      fgets_lines (header_texts g ++ task_strings g ++ (d :: comment_texts env g)).flatten ++
        g.igc_pos.map b_record ++
        [['G'] ++ checksum ((header_texts g ++ task_strings g ++
          (d :: comment_texts env g)).flatten ++ (g.igc_pos.map b_record).flatten) ++
          ['\n']] := by
    rw [hlines, hl, List.flatten_append, List.append_assoc, List.append_assoc,
      List.append_assoc, fgets_lines_append _ _ (other_records_getLast env g d),
      ← List.append_assoc, ← List.append_assoc,
      fgets_lines_positions (g.igc_pos.map b_record) (checksum ((header_texts g ++
        task_strings g ++ (d :: comment_texts env g)).flatten ++
        (g.igc_pos.map b_record).flatten)) hBs (chksum_to_string_length _)
        (chksum_to_string_plain _)]
    exact (List.append_assoc _ _ _).symm
  refine ⟨header_texts g ++ task_strings g ++ (d :: comment_texts env g), ?_,
    List.length_map _ _, ?_, fun b hb => ⟨b_record_head b, hB b hb⟩, hread, ?_, ?_⟩
  · rw [hlines, hl, List.flatten_append]
  · intro i b hi
    rw [List.get?_eq_getElem?] at hi ⊢
    rw [List.getElem?_map, hi]
    rfl
  · rw [hread, List.countP_append, List.countP_append,
      List.countP_eq_length.mpr hBhead, List.length_map]
    rfl
  · intro hg htask
    have hshape : ∀ l ∈ header_texts g ++ task_strings g ++ (d :: comment_texts env g),
        l = [] ∨ line_shape l := by
      intro l hl2
      exact igc_records_shape env g hg (some l)
        (by rw [hrec, hl]; exact List.mem_map_of_mem _ (List.mem_append_left _ hl2)) l rfl
    obtain ⟨h1, _, _⟩ := single_line_lines _ hshape
    rw [List.countP_eq_zero]
    intro l hl2
    rw [h1] at hl2
    have hm := (List.mem_filter.mp hl2).1
    have hne : l.head? ≠ some 'B' := by
      simp only [List.mem_append, List.mem_cons] at hm
      rcases hm with (hm | hm) | hm | hm
      · exact header_texts_head g l hm
      · exact htask l hm
      · rw [hm, head_of_take_eq d _ 30 'L' (by decide) (date_time_line_start _ d hd) rfl]
        decide
      · exact comment_texts_head env g l hm
    simpa using hne

set_option maxRecDepth 1000000 in
theorem position_lines_witness :
    percent_free sample_env (session_with 5) ∧
    single_line_session (session_with 5) ∧
    (∀ r ∈ task_strings (session_with 5), r.head? ≠ some 'B') ∧
    ∃ doc, igc_write_file sample_env (session_with 5) = some doc ∧
      (fgets_lines doc).countP (fun l => l.head? == some 'B') = 5 := by
  obtain ⟨doc, hdoc⟩ := session_with_written 5 (by decide)
  have hp := session_with_percent_free 5 (by decide)
  obtain ⟨others, _, _, _, _, _, hcount, hzero⟩ :=
    position_lines sample_env (session_with 5) doc hp hdoc
  refine ⟨hp, by decide, by decide, doc, hdoc, ?_⟩
  rw [hcount, hzero (by decide) (by decide)]
  rfl

set_option maxRecDepth 1000000 in
theorem position_like_written :
    ∃ doc, igc_write_file sample_env position_like_title_session = some doc := by
  rw [igc_write_file_isSome_iff, sample_records position_like_title_session rfl]
  decide

set_option maxRecDepth 1000000 in
theorem position_like_percent_free :
    percent_free sample_env position_like_title_session := by
  unfold percent_free
  rw [sample_records position_like_title_session rfl]
  decide

set_option maxRecDepth 1000000 in
/-- C19 as stated fails: with one stored position and an aircraft title that holds a
newline followed by the text of a position record, the document written has two lines
beginning with 'B', the first of them inside the header, and is answered CHKSUM_OK. -/
theorem position_line_in_title :
    position_like_title_session.igc_pos.length = 1 ∧
    ∃ doc : List Char, igc_write_file sample_env position_like_title_session = some doc ∧
      (fgets_lines doc).filter (fun l => l.head? == some 'B') =
        ["B0101015130000N00115000WA0123401234027250\n".toList,
         "B0101015130000N00115000WA0123401234027250\n".toList] ∧
      chksum_igc_file [] (some doc) = CHKSUM_RESULT.CHKSUM_OK := by
  obtain ⟨doc, hdoc⟩ := position_like_written
  obtain ⟨d, hd, hls⟩ := written_lines sample_env position_like_title_session doc
    position_like_percent_free hdoc
    (by rw [sample_records position_like_title_session rfl]; decide)
  refine ⟨rfl, doc, hdoc, ?_, ?_⟩
  · rw [hls, List.filter_append, sample_records position_like_title_session rfl]
    have : (((header_records position_like_title_session ++
        task_records position_like_title_session ++
        comment_records sample_env position_like_title_session ++
        [emit "B0101015130000N00115000WA0123401234027250\n".toList]).map
          (fun r => fgets_lines (r.getD []))).flatten).filter (fun l => l.head? == some 'B')
        = ["B0101015130000N00115000WA0123401234027250\n".toList,
           "B0101015130000N00115000WA0123401234027250\n".toList] := by decide
    rw [this]
    rfl
  · apply written_verifies sample_env position_like_title_session [] doc
      position_like_percent_free hdoc
    · rw [sample_records position_like_title_session rfl]; decide
    · rw [sample_records position_like_title_session rfl]; decide
    · rw [sample_records position_like_title_session rfl]; decide

/-- C20 evaluated: for a position with altitude -3.5 m (time, latitude, longitude and rpm
in range) each altitude field is written as the six characters "-00003", so the record has
43 characters before the newline and the fields after the altitude are shifted. -/
theorem negative_altitude_record :
    b_record below_sea_level_b = "B1200005215000N00445000EA-00003-00003027240\n".toList ∧
    (b_record below_sea_level_b).length = 44 ∧
    ((b_record below_sea_level_b).drop 25).take 6 = "-00003".toList := by
  have h : b_record below_sea_level_b =
      "B1200005215000N00445000EA-00003-00003027240\n".toList := by
    decide!
  rw [h]
  decide

/-! ## Theorems: substitution of one character -/

theorem chk_map_inj (j k : Nat) (hj : j < 63) (hk : k < 63)
    (h : chk_map.getD j 0 = chk_map.getD k 0) : j = k := by
  have hnd : chk_map.Nodup := by decide
  have hlen : chk_map.length = 63 := by decide
  have hj2 : j < chk_map.length := by omega
  have hk2 : k < chk_map.length := by omega
  have e1 : chk_map.getD j 0 = chk_map[j] := by
    simp [List.getD, List.getElem?_eq_getElem hj2]
  have e2 : chk_map.getD k 0 = chk_map[k] := by
    simp [List.getD, List.getElem?_eq_getElem hk2]
  rw [e1, e2] at h
  exact (List.Nodup.getElem_inj_iff hnd).mp h

theorem slot_ne_of_slot_ne (x y m i : Nat) (hx : x < 63) (hy : y < 63) (hxy : x ≠ y) :
    chk_map.getD ((x + m + i) % CHK_CHARS) 0 ≠ chk_map.getD ((y + m + i) % CHK_CHARS) 0 := by
  intro h
  have := chk_map_inj _ _ (Nat.mod_lt _ (by decide)) (Nat.mod_lt _ (by decide)) h
  simp only [CHK_CHARS] at this
  omega

theorem slot_ne_of_map_ne (x m n i : Nat) (hm : m < 63) (hn : n < 63) (hmn : m ≠ n) :
    chk_map.getD ((x + m + i) % CHK_CHARS) 0 ≠ chk_map.getD ((x + n + i) % CHK_CHARS) 0 := by
  intro h
  have := chk_map_inj _ _ (Nat.mod_lt _ (by decide)) (Nat.mod_lt _ (by decide)) h
  simp only [CHK_CHARS] at this
  omega

theorem incr_same_char (s t : ChksumData) (c : Char) (h : slots_all_differ s t) :
    slots_all_differ (incr_chksum s c) (incr_chksum t c) := by
  obtain ⟨hidx, hs, ht, hd⟩ := h
  by_cases hc : find_c_pos c = CHK_CHARS
  · have e1 : incr_chksum s c = s := by simp [incr_chksum, hc]
    have e2 : incr_chksum t c = t := by simp [incr_chksum, hc]
    rw [e1, e2]
    exact ⟨hidx, hs, ht, hd⟩
  · refine ⟨?_, incr_chksum_inv s c hs, incr_chksum_inv t c ht, ?_⟩
    · rw [incr_chksum_found s c hc, incr_chksum_found t c hc, hidx]
    · obtain ⟨a0, a1, a2, a3, a4, a5, hsn⟩ := length_six s.num hs.2.1
      obtain ⟨b0, b1, b2, b3, b4, b5, htn⟩ := length_six t.num ht.2.1
      have hsv := hs.2.2
      have htv := ht.2.2
      rw [hsn] at hsv hd
      rw [htn] at htv hd
      simp only [List.mem_cons, List.mem_singleton, List.not_mem_nil, or_false,
        forall_eq_or_imp, forall_eq, CHK_CHARS] at hsv htv
      have hd0 := hd 0 (by decide)
      have hd1 := hd 1 (by decide)
      have hd2 := hd 2 (by decide)
      have hd3 := hd 3 (by decide)
      have hd4 := hd 4 (by decide)
      have hd5 := hd 5 (by decide)
      simp only [List.getD_cons_zero, List.getD_cons_succ] at hd0 hd1 hd2 hd3 hd4 hd5
      rw [incr_chksum_found s c hc, incr_chksum_found t c hc, hsn, htn, hidx,
        incr_loop_six, incr_loop_six]
      intro i hi
      interval_cases i
      · exact slot_ne_of_slot_ne _ _ _ _ hsv.1 htv.1 hd0
      · exact slot_ne_of_slot_ne _ _ _ _ hsv.2.1 htv.2.1 hd1
      · exact slot_ne_of_slot_ne _ _ _ _ hsv.2.2.1 htv.2.2.1 hd2
      · exact slot_ne_of_slot_ne _ _ _ _ hsv.2.2.2.1 htv.2.2.2.1 hd3
      · exact slot_ne_of_slot_ne _ _ _ _ hsv.2.2.2.2.1 htv.2.2.2.2.1 hd4
      · exact slot_ne_of_slot_ne _ _ _ _ hsv.2.2.2.2.2 htv.2.2.2.2.2 hd5

theorem find_c_pos_inj (a b : Char) (ha : a ∈ chk_source) (hb : b ∈ chk_source)
    (h : find_c_pos a = find_c_pos b) : a = b := by
  have h1 := (find_c_pos_mem a ha).2
  have h2 := (find_c_pos_mem b hb).2
  rw [h, h2] at h1
  exact (Option.some.inj h1).symm

theorem incr_diff_char (s : ChksumData) (a b : Char) (ha : a ∈ chk_source)
    (hb : b ∈ chk_source) (hab : a ≠ b) (hs : ChksumInv s) :
    slots_all_differ (incr_chksum s a) (incr_chksum s b) := by
  have hpa := (find_c_pos_mem a ha).1
  have hpb := (find_c_pos_mem b hb).1
  have hca : find_c_pos a ≠ CHK_CHARS := by omega
  have hcb : find_c_pos b ≠ CHK_CHARS := by omega
  have hpab : find_c_pos a ≠ find_c_pos b := fun e => hab (find_c_pos_inj a b ha hb e)
  have hm : chk_map.getD ((find_c_pos a + s.index) % CHK_CHARS) 0 ≠
      chk_map.getD ((find_c_pos b + s.index) % CHK_CHARS) 0 := by
    intro h
    have := chk_map_inj _ _ (Nat.mod_lt _ (by decide)) (Nat.mod_lt _ (by decide)) h
    simp only [CHK_CHARS] at this hpa hpb
    omega
  refine ⟨?_, incr_chksum_inv s a hs, incr_chksum_inv s b hs, ?_⟩
  · rw [incr_chksum_found s a hca, incr_chksum_found s b hcb]
  · obtain ⟨a0, a1, a2, a3, a4, a5, hsn⟩ := length_six s.num hs.2.1
    rw [incr_chksum_found s a hca, incr_chksum_found s b hcb, hsn, incr_loop_six,
      incr_loop_six]
    intro i hi
    interval_cases i <;>
      exact slot_ne_of_map_ne _ _ _ _ (chk_map_getD_lt _) (chk_map_getD_lt _) hm

theorem chksum_string_same (s t : ChksumData) (post : List Char)
    (h : slots_all_differ s t) :
    slots_all_differ (chksum_string s post) (chksum_string t post) := by
  induction post generalizing s t with
  | nil => exact h
  | cons c rest ih => exact ih _ _ (incr_same_char s t c h)

theorem substitution_states (pre post : List Char) (a b : Char) (ha : a ∈ chk_source)
    (hb : b ∈ chk_source) (hab : a ≠ b) :
    slots_all_differ (chksum_string chksum_reset (pre ++ a :: post))
      (chksum_string chksum_reset (pre ++ b :: post)) := by
  rw [chksum_string_append, chksum_string_append]
  exact chksum_string_same _ _ post
    (incr_diff_char _ a b ha hb hab (chksum_string_inv _ pre chksum_reset_inv))

theorem base36_inj (u v : Nat) (hu : u < 36) (hv : v < 36)
    (h : chk_source.getD u '0' = chk_source.getD v '0') : u = v := by
  have hnd : chk_source.Nodup := by decide
  have hlen : chk_source.length = 63 := by decide
  have hu2 : u < chk_source.length := by omega
  have hv2 : v < chk_source.length := by omega
  have e1 : chk_source.getD u '0' = chk_source[u] := by
    simp [List.getD, List.getElem?_eq_getElem hu2]
  have e2 : chk_source.getD v '0' = chk_source[v] := by
    simp [List.getD, List.getElem?_eq_getElem hv2]
  rw [e1, e2] at h
  exact (List.Nodup.getElem_inj_iff hnd).mp h

theorem chksum_to_string_eq_iff (s t : ChksumData) :
    chksum_to_string s = chksum_to_string t ↔
      ∀ i, i < 6 → s.num.getD i 0 % 36 = t.num.getD i 0 % 36 := by
  unfold chksum_to_string
  rw [List.map_inj_left]
  simp only [List.mem_range, CHKSUM_CHARS]
  constructor
  · intro h i hi
    exact base36_inj _ _ (Nat.mod_lt _ (by decide)) (Nat.mod_lt _ (by decide)) (h i hi)
  · intro h i hi
    rw [h i hi]

/-- C11 as stated fails: "4H4qJw" and "LH4qJw" differ only in their first character, both
recognized, and have the same printed checksum "LIOIBH". -/
theorem substitution_collision :
    '4' ∈ chk_source ∧ 'L' ∈ chk_source ∧ '4' ≠ 'L' ∧
    checksum ([] ++ '4' :: "H4qJw".toList) = "LIOIBH".toList ∧
    checksum ([] ++ 'L' :: "H4qJw".toList) = "LIOIBH".toList := by
  decide

/-- C11 (amended): for every string and every position of it holding a recognized
character, replacing that character by a different recognized character leaves the final
index unchanged and changes every one of the six slots of the final state; the printed
checksum changes too, except when each of the six slots differs from its counterpart by
exactly 36 (the checksum prints the slots modulo 36). -/
theorem substitution_changes_checksum (pre post : List Char) (a b : Char)
    (ha : a ∈ chk_source) (hb : b ∈ chk_source) (hab : a ≠ b) :
    (chksum_string chksum_reset (pre ++ a :: post)).index =
      (chksum_string chksum_reset (pre ++ b :: post)).index ∧
    (∀ i, i < 6 → (chksum_string chksum_reset (pre ++ a :: post)).num.getD i 0 ≠
      (chksum_string chksum_reset (pre ++ b :: post)).num.getD i 0) ∧
    (checksum (pre ++ a :: post) = checksum (pre ++ b :: post) ↔
      ∀ i, i < 6 →
        (chksum_string chksum_reset (pre ++ a :: post)).num.getD i 0 + 36 =
          (chksum_string chksum_reset (pre ++ b :: post)).num.getD i 0 ∨
        (chksum_string chksum_reset (pre ++ b :: post)).num.getD i 0 + 36 =
          (chksum_string chksum_reset (pre ++ a :: post)).num.getD i 0) := by
  obtain ⟨hidx, hs, ht, hd⟩ := substitution_states pre post a b ha hb hab
  refine ⟨hidx, hd, ?_⟩
  have hlt : ∀ (st : ChksumData), ChksumInv st → ∀ i, i < 6 → st.num.getD i 0 < 63 := by
    intro st hst i hi
    have hlen : i < st.num.length := by rw [hst.2.1]; exact hi
    have : st.num.getD i 0 = st.num[i] := by
      simp [List.getD, List.getElem?_eq_getElem hlen]
    rw [this]
    exact hst.2.2 _ (List.getElem_mem hlen)
  unfold checksum
  rw [chksum_to_string_eq_iff]
  constructor
  · intro h i hi
    have h1 := hlt _ hs i hi
    have h2 := hlt _ ht i hi
    have h3 := hd i hi
    have h4 := h i hi
    omega
  · intro h i hi
    rcases h i hi with e | e <;> omega

theorem substitution_changes_checksum_witness :
    'A' ∈ chk_source ∧ 'b' ∈ chk_source ∧ 'A' ≠ 'b' ∧
    ∀ i, i < 6 → (chksum_string chksum_reset ("x".toList ++ 'A' :: "y".toList)).num.getD i 0 ≠
      (chksum_string chksum_reset ("x".toList ++ 'b' :: "y".toList)).num.getD i 0 :=
  ⟨by decide, by decide, by decide,
   (substitution_changes_checksum "x".toList "y".toList 'A' 'b' (by decide) (by decide)
     (by decide)).2.1⟩

/-! ## Theorems: fields of the position record -/

set_option maxRecDepth 100000 in
theorem fmt_d_two_nat : ∀ n : Nat, n < 100 →
    fmt_d 2 (n : Int) = [Nat.digitChar (n / 10), Nat.digitChar (n % 10)] := by
  decide

set_option maxRecDepth 1000000 in
set_option maxHeartbeats 4000000 in
theorem fmt_d_three_nat : ∀ n : Nat, n < 1000 →
    fmt_d 3 (n : Int) =
      [Nat.digitChar (n / 100), Nat.digitChar (n / 10 % 10), Nat.digitChar (n % 10)] := by
  decide

theorem fmt_d_two (v : Int) (h0 : 0 ≤ v) (h : v < 100) :
    fmt_d 2 v = [Nat.digitChar (v.toNat / 10), Nat.digitChar (v.toNat % 10)] := by
  have := fmt_d_two_nat v.toNat (by omega)
  rwa [Int.toNat_of_nonneg h0] at this

theorem fmt_d_three (v : Int) (h0 : 0 ≤ v) (h : v < 1000) :
    fmt_d 3 v = [Nat.digitChar (v.toNat / 100), Nat.digitChar (v.toNat / 10 % 10),
      Nat.digitChar (v.toNat % 10)] := by
  have := fmt_d_three_nat v.toNat (by omega)
  rwa [Int.toNat_of_nonneg h0] at this

theorem digitChar_isDigit (n : Nat) : (Nat.digitChar (n % 10)).isDigit = true := by
  have h : ∀ d < 10, (Nat.digitChar d).isDigit = true := by decide
  exact h _ (Nat.mod_lt _ (by decide))

theorem time_fields (t : Int) (h0 : 0 ≤ t) (h : t < 86400) :
    t.tdiv 3600 = t / 3600 ∧ (t - t.tdiv 3600 * 3600).tdiv 60 = (t - t / 3600 * 3600) / 60 ∧
    t.tmod 60 = t % 60 ∧
    0 ≤ t / 3600 ∧ t / 3600 < 24 ∧
    0 ≤ (t - t / 3600 * 3600) / 60 ∧ (t - t / 3600 * 3600) / 60 < 60 ∧
    0 ≤ t % 60 ∧ t % 60 < 60 ∧
    3600 * (t / 3600) + 60 * ((t - t / 3600 * 3600) / 60) + t % 60 = t := by
  have e1 : t.tdiv 3600 = t / 3600 := Int.tdiv_eq_ediv h0 (by decide)
  have e3 : t.tmod 60 = t % 60 := Int.tmod_eq_emod h0 (by decide)
  have hrem : 0 ≤ t - t / 3600 * 3600 := by omega
  have e2 : (t - t.tdiv 3600 * 3600).tdiv 60 = (t - t / 3600 * 3600) / 60 := by
    rw [e1]; exact Int.tdiv_eq_ediv hrem (by decide)
  refine ⟨e1, e2, e3, ?_, ?_, ?_, ?_, ?_, ?_, ?_⟩ <;> omega

theorem b_record_time_head (b : igc_b) (h0 : 0 ≤ b.zulu_time) (h : b.zulu_time < 86400) :
    (b_record b).take 7 =
      ['B', Nat.digitChar ((b.zulu_time / 3600).toNat / 10),
        Nat.digitChar ((b.zulu_time / 3600).toNat % 10),
        Nat.digitChar (((b.zulu_time - b.zulu_time / 3600 * 3600) / 60).toNat / 10),
        Nat.digitChar (((b.zulu_time - b.zulu_time / 3600 * 3600) / 60).toNat % 10),
        Nat.digitChar ((b.zulu_time % 60).toNat / 10),
        Nat.digitChar ((b.zulu_time % 60).toNat % 10)] := by
  obtain ⟨e1, e2, e3, a1, a2, a3, a4, a5, a6, _⟩ := time_fields b.zulu_time h0 h
  unfold b_record
  simp only [b_format]
  rw [e2, e1, e3, fmt_d_two _ a1 (by omega), fmt_d_two _ a3 (by omega), fmt_d_two _ a5 (by omega)]
  simp only [List.append_assoc, List.cons_append, List.nil_append, List.singleton_append]
  rfl

/-- C21: for a stored position whose time of day t lies in [0,86400), the hour, minute and
second fields of the position line are HH = t div 3600 < 24, MM = (t - 3600*HH) div 60 < 60
and SS = t mod 60, they recompose to t, and the line starts with 'B' followed by exactly the
two decimal digits of each of the three fields. -/
theorem time_fields_two_digits (b : igc_b) (h0 : 0 ≤ b.zulu_time) (h : b.zulu_time < 86400) :
    b.zulu_time.tdiv 3600 = b.zulu_time / 3600 ∧
    (b.zulu_time - b.zulu_time.tdiv 3600 * 3600).tdiv 60
      = (b.zulu_time - 3600 * (b.zulu_time / 3600)) / 60 ∧
    b.zulu_time.tmod 60 = b.zulu_time % 60 ∧
    0 ≤ b.zulu_time / 3600 ∧ b.zulu_time / 3600 < 24 ∧
    0 ≤ (b.zulu_time - 3600 * (b.zulu_time / 3600)) / 60 ∧
    (b.zulu_time - 3600 * (b.zulu_time / 3600)) / 60 < 60 ∧
    0 ≤ b.zulu_time % 60 ∧ b.zulu_time % 60 < 60 ∧
    3600 * (b.zulu_time / 3600) + 60 * ((b.zulu_time - 3600 * (b.zulu_time / 3600)) / 60)
      + b.zulu_time % 60 = b.zulu_time ∧
    (b_record b).take 7 =
      ['B', Nat.digitChar ((b.zulu_time / 3600).toNat / 10),
        Nat.digitChar ((b.zulu_time / 3600).toNat % 10),
        Nat.digitChar (((b.zulu_time - 3600 * (b.zulu_time / 3600)) / 60).toNat / 10),
        Nat.digitChar (((b.zulu_time - 3600 * (b.zulu_time / 3600)) / 60).toNat % 10),
        Nat.digitChar ((b.zulu_time % 60).toNat / 10),
        Nat.digitChar ((b.zulu_time % 60).toNat % 10)] ∧
    ∀ ch ∈ ((b_record b).take 7).tail, ch.isDigit = true := by
  have hm : 3600 * (b.zulu_time / 3600) = b.zulu_time / 3600 * 3600 := by ring
  obtain ⟨e1, e2, e3, a1, a2, a3, a4, a5, a6, a7⟩ := time_fields b.zulu_time h0 h
  have hd : ∀ d < 10, (Nat.digitChar d).isDigit = true := by decide
  rw [hm, b_record_time_head b h0 h]
  refine ⟨e1, e2, e3, a1, a2, a3, a4, a5, a6, by omega, rfl, ?_⟩
  intro ch hch
  simp only [List.tail_cons, List.mem_cons, List.mem_singleton, List.not_mem_nil, or_false] at hch
  rcases hch with h1 | h1 | h1 | h1 | h1 | h1 <;> subst h1 <;> apply hd <;> omega

set_option maxRecDepth 1000000 in
theorem time_fields_two_digits_witness :
    (b_record sample_b).take 7 = "B010101".toList := by
  have h := (time_fields_two_digits sample_b (by decide) (by decide)).2.2.2.2.2.2.2.2.2.2.1
  rw [h]; decide


theorem enl_field_nonneg (rpm : Int) (h : 0 ≤ rpm) :
    0 ≤ (if rpm > 9990 then 999 else rpm.tdiv 10) ∧
    (if rpm > 9990 then 999 else rpm.tdiv 10) ≤ 999 ∧
    (fmt_d 3 (if rpm > 9990 then 999 else rpm.tdiv 10)).length = 3 := by
  have e : rpm.tdiv 10 = rpm / 10 := Int.tdiv_eq_ediv h (by decide)
  rw [e]
  have hb : 0 ≤ (if rpm > 9990 then 999 else rpm / 10) ∧
      (if rpm > 9990 then 999 else rpm / 10) ≤ 999 := by
    split_ifs <;> omega
  refine ⟨hb.1, hb.2, ?_⟩
  rw [fmt_d_three _ hb.1 (by omega)]
  rfl

/-- C22 evaluated: for a position whose rpm is -55 (time, latitude, longitude and altitude in
range) the load-proxy field is the four characters "-005", so the record has 42 characters
before the newline instead of 41 and the field is not three digits. -/
theorem negative_rpm_record :
    b_record negative_rpm_b = "B0101015130000N00115000WA0123401234027-005\n".toList ∧
    (b_record negative_rpm_b).length = 43 ∧
    (b_record negative_rpm_b).drop 38 = "-005\n".toList := by
  have h : b_record negative_rpm_b =
      "B0101015130000N00115000WA0123401234027-005\n".toList := by
    decide!
  rw [h]
  decide


/-! ## Theorems: the general checksum -/

theorem chksum_chksum_eq (g : Session) (therm_code : Nat) :
    chksum_chksum g therm_code =
      checksum (g.chksum_flt ++ g.chksum_air ++ g.chksum_wx ++ g.chksum_cmx ++ g.chksum_cfg ++
        g.chksum_xml ++
        (if g.cx_code = 0 then "CX UNLOCKED".toList else "CX LOCKED".toList) ++
        (if g.wx_code = 0 then "WX UNLOCKED".toList else "WX LOCKED".toList) ++
        (if therm_code = 0 then "THERM FILE PRESENT".toList else "NO THERM FILE".toList)) := by
  unfold chksum_chksum checksum
  simp only [chksum_string_append]

/-- C23: the digest of `chksum_chksum` is the checksum, from a fresh accumulator, of the
six fingerprint strings in the order FLT, AIR, WX, CMX, aircraft.cfg, mission XML followed by
the three lock labels; hence two sessions with the same six fingerprint strings whose three
codes agree on being zero get the same digest, whatever else differs. -/
theorem aggregate_digest (g g2 : Session) (therm_code therm_code2 : Nat)
    (hflt : g2.chksum_flt = g.chksum_flt) (hair : g2.chksum_air = g.chksum_air)
    (hwx : g2.chksum_wx = g.chksum_wx) (hcmx : g2.chksum_cmx = g.chksum_cmx)
    (hcfg : g2.chksum_cfg = g.chksum_cfg) (hxml : g2.chksum_xml = g.chksum_xml)
    (hcx : g2.cx_code = 0 ↔ g.cx_code = 0) (hw : g2.wx_code = 0 ↔ g.wx_code = 0)
    (ht : therm_code2 = 0 ↔ therm_code = 0) :
    chksum_chksum g therm_code =
      checksum (g.chksum_flt ++ g.chksum_air ++ g.chksum_wx ++ g.chksum_cmx ++ g.chksum_cfg ++
        g.chksum_xml ++
        (if g.cx_code = 0 then "CX UNLOCKED".toList else "CX LOCKED".toList) ++
        (if g.wx_code = 0 then "WX UNLOCKED".toList else "WX LOCKED".toList) ++
        (if therm_code = 0 then "THERM FILE PRESENT".toList else "NO THERM FILE".toList)) ∧
    chksum_chksum g2 therm_code2 = chksum_chksum g therm_code := by
  refine ⟨chksum_chksum_eq g therm_code, ?_⟩
  rw [chksum_chksum_eq, chksum_chksum_eq, hflt, hair, hwx, hcmx, hcfg, hxml]
  simp only [hcx, hw, ht]

set_option maxRecDepth 1000000 in
theorem aggregate_digest_witness :
    chksum_chksum sample_session 1 =
      checksum "B7RYLNF9P2PY000000000000KBOK06000000CX UNLOCKEDWX LOCKEDNO THERM FILE".toList ∧
    chksum_chksum
      { sample_session with wx_code := 5, TITLE := "ASK21".toList, igc_pos := [] } 2 =
      chksum_chksum sample_session 1 :=
  aggregate_digest sample_session
    { sample_session with wx_code := 5, TITLE := "ASK21".toList, igc_pos := [] } 1 2
    rfl rfl rfl rfl rfl rfl (by decide) (by decide) (by decide)


/-! ## Theorems: steps of the ground check that detect nothing -/

theorem ground_check_quiet (n : Nat) (st : GroundState) (g t : Int)
    (hq : (igc_ground_check n st g t).2 = GroundEvent.quiet) :
    (igc_ground_check n st g t).1 = { st with igc_prev_on_ground := g } := by
  unfold igc_ground_check at hq ⊢
  split_ifs at hq ⊢ <;> simp_all

theorem ground_check_bounce (n : Nat) (st : GroundState) (g t : Int) (hn : 2 ≤ n)
    (hp : st.igc_prev_on_ground = 0) (hg : g ≠ 0) (ht : t - st.igc_takeoff_time ≤ 80) :
    igc_ground_check n st g t = ({ st with igc_prev_on_ground := g }, GroundEvent.quiet) := by
  unfold igc_ground_check
  have h1 : ¬ n < 2 := by omega
  have h2 : ¬ t - st.igc_takeoff_time > IGC_MIN_FLIGHT_SECS_TO_LANDING := by
    simp only [IGC_MIN_FLIGHT_SECS_TO_LANDING]; omega
  simp [h1, hp, hg, h2]

/-- C29 as stated fails: with 10 records stored, a tracker that is Airborne since time 100
and receives an on-ground sample at time 150 (50 seconds after takeoff) detects nothing but
becomes Grounded, and the next airborne sample is detected as a new takeoff at time 160. -/
theorem bounce_becomes_grounded :
    phase 10 ⟨0, 100⟩ = Phase.Airborne ∧
    igc_ground_check 10 ⟨0, 100⟩ 1 150 = (⟨1, 100⟩, GroundEvent.quiet) ∧
    phase 10 (igc_ground_check 10 ⟨0, 100⟩ 1 150).1 = Phase.Grounded ∧
    igc_ground_check 10 (igc_ground_check 10 ⟨0, 100⟩ 1 150).1 0 160
      = (⟨0, 160⟩, GroundEvent.takeoff) := by
  decide

/-- C29 amended: a step of `igc_ground_check` that detects neither a takeoff nor a landing
keeps the takeoff time and sets the remembered flag to the flag of the sample; the phase is
unchanged by it except in one case, which always detects nothing: with at least 2 records
stored, an Airborne tracker given an on-ground sample 80 seconds or less after takeoff
becomes Grounded. -/
theorem quiet_step (n : Nat) (st : GroundState) (g t : Int)
    (hq : (igc_ground_check n st g t).2 = GroundEvent.quiet) :
    (igc_ground_check n st g t).1.igc_takeoff_time = st.igc_takeoff_time ∧
    (igc_ground_check n st g t).1.igc_prev_on_ground = g ∧
    (phase n (igc_ground_check n st g t).1 ≠ phase n st ↔
      (2 ≤ n ∧ st.igc_prev_on_ground = 0 ∧ g ≠ 0)) ∧
    (2 ≤ n ∧ st.igc_prev_on_ground = 0 ∧ g ≠ 0 →
      t - st.igc_takeoff_time ≤ 80 ∧ phase n st = Phase.Airborne ∧
      phase n (igc_ground_check n st g t).1 = Phase.Grounded) ∧
    ∀ n2 st2 g2 t2, 2 ≤ n2 → st2.igc_prev_on_ground = 0 → g2 ≠ 0 →
      t2 - st2.igc_takeoff_time ≤ 80 →
      (igc_ground_check n2 st2 g2 t2).2 = GroundEvent.quiet := by
  have hs := ground_check_quiet n st g t hq
  refine ⟨by rw [hs], by rw [hs], ?_, ?_, ?_⟩
  · rw [hs]
    unfold igc_ground_check at hq
    unfold phase
    by_cases h1 : n < 2
    · simp only [h1, if_true, ne_eq, not_true_eq_false, false_iff]
      omega
    · have h2 : 2 ≤ n := by omega
      simp only [h1, if_false, h2, true_and]
      by_cases hp : st.igc_prev_on_ground = 0
      · by_cases hg : g = 0 <;> simp [hp, hg]
      · by_cases hg : g = 0
        · simp [h1, hp, hg] at hq
        · simp [hp, hg]
  · rintro ⟨h2, hp, hg⟩
    have h1 : ¬ n < 2 := by omega
    refine ⟨?_, ?_, ?_⟩
    · unfold igc_ground_check at hq
      by_contra hlt
      have : t - st.igc_takeoff_time > IGC_MIN_FLIGHT_SECS_TO_LANDING := by
        simp only [IGC_MIN_FLIGHT_SECS_TO_LANDING]; omega
      simp [h1, hp, hg, this] at hq
    · simp [phase, h1, hp]
    · rw [hs]; simp [phase, h1, hg]
  · intro n2 st2 g2 t2 h2 hp hg ht
    rw [ground_check_bounce n2 st2 g2 t2 h2 hp hg ht]

theorem quiet_step_witness :
    (igc_ground_check 10 ⟨0, 100⟩ 1 150).2 = GroundEvent.quiet ∧
    (igc_ground_check 10 ⟨0, 100⟩ 1 150).1.igc_takeoff_time = 100 ∧
    (igc_ground_check 10 ⟨0, 100⟩ 1 150).1.igc_prev_on_ground = 1 :=
  ⟨by decide, (quiet_step 10 ⟨0, 100⟩ 1 150 (by decide)).1,
    (quiet_step 10 ⟨0, 100⟩ 1 150 (by decide)).2.1⟩


/-! ## Theorems: cleaning of flight plan lines -/

set_option maxRecDepth 1000000 in
theorem safe_of_mem : ∀ ch ∈ PLN_WCHARS,
    (ch.isDigit || ch.isAlpha || decide (ch ∈ ['.', '<', '>', ',', ' '])) = true := by
  decide

set_option maxRecDepth 1000000 in
theorem mem_of_small : ∀ n : Nat, n < 128 →
    ((Char.ofNat n).isDigit || (Char.ofNat n).isAlpha ||
      decide (Char.ofNat n ∈ ['.', '<', '>', ',', ' '])) = true → Char.ofNat n ∈ PLN_WCHARS := by
  decide

theorem small_of_safe (ch : Char)
    (h : (ch.isDigit || ch.isAlpha || decide (ch ∈ ['.', '<', '>', ',', ' '])) = true) :
    ch.toNat < 128 := by
  simp only [Bool.or_eq_true, decide_eq_true_eq, List.mem_cons, List.mem_singleton,
    List.not_mem_nil, or_false] at h
  rcases h with (h | h) | h
  · simp only [Char.isDigit, Bool.and_eq_true, decide_eq_true_eq] at h
    have := h.2
    rw [UInt32.le_def] at this
    simp only [Char.toNat]
    exact lt_of_le_of_lt this (by decide)
  · simp only [Char.isAlpha, Char.isUpper, Char.isLower, Bool.or_eq_true, Bool.and_eq_true,
      decide_eq_true_eq] at h
    rcases h with h | h
    · have := h.2
      rw [UInt32.le_def] at this
      exact lt_of_le_of_lt this (by decide)
    · have := h.2
      rw [UInt32.le_def] at this
      exact lt_of_le_of_lt this (by decide)
  · rcases h with h | h | h | h | h <;> subst h <;> decide

theorem mem_PLN_WCHARS_iff (ch : Char) :
    ch ∈ PLN_WCHARS ↔
      (ch.isDigit || ch.isAlpha || decide (ch ∈ ['.', '<', '>', ',', ' '])) = true := by
  constructor
  · exact safe_of_mem ch
  · intro h
    have h1 := mem_of_small ch.toNat (small_of_safe ch h)
    rw [Char.ofNat_toNat] at h1
    exact h1 h

theorem clean_string_idem (inp : List Char) :
    clean_string (clean_string inp) = clean_string inp := by
  unfold clean_string
  rw [List.map_map]
  apply List.map_congr_left
  intro ch _
  have hb : ' ' ∈ PLN_WCHARS := by decide
  simp only [Function.comp]
  by_cases h : ch ∈ PLN_WCHARS
  · simp [h]
  · simp [h, hb]

theorem pln_step_clean (MAXCHAR : Nat) (scan : List Char → LLA → LLA)
    (st : Option (Route × LLA)) (in_buf : List Char) :
    pln_step MAXCHAR scan st (clean_string in_buf) = pln_step MAXCHAR scan st in_buf := by
  unfold pln_step
  rw [clean_string_idem]
  have : (clean_string in_buf).length = in_buf.length := by simp [clean_string]
  rw [this]

theorem pln_loop_clean (MAXCHAR : Nat) (scan : List Char → LLA → LLA) (today : Tm) (r : Route)
    (lines : List (List Char)) :
    pln_loop MAXCHAR scan today r (lines.map clean_string) =
      pln_loop MAXCHAR scan today r lines := by
  unfold pln_loop
  rw [List.foldl_map]
  congr 1
  funext st in_buf
  exact pln_step_clean MAXCHAR scan st in_buf

/-- C24: `clean_string` returns a string of the length of its input in which each position
holds the input character when that is a digit, an ASCII letter or one of '.', '<', '>', ','
and ' ', and a blank otherwise; every character of the result is in this safe set, and the
loop of `pln_to_c` stores the same whether it is given the lines or the cleaned lines, so
that what it stores is built from cleaned lines only. -/
theorem clean_string_spec (inp : List Char) :
    (clean_string inp).length = inp.length ∧
    (∀ i : Nat, (clean_string inp)[i]? = (inp[i]?).map (fun ch =>
      if (ch.isDigit || ch.isAlpha || decide (ch ∈ ['.', '<', '>', ',', ' '])) = true
      then ch else ' ')) ∧
    (clean_string inp).all (fun ch =>
      ch.isDigit || ch.isAlpha || decide (ch ∈ ['.', '<', '>', ',', ' '])) = true ∧
    (∀ (MAXCHAR : Nat) (scan : List Char → LLA → LLA) (today : Tm) (r : Route)
      (lines : List (List Char)),
      pln_loop MAXCHAR scan today r (lines.map clean_string) =
        pln_loop MAXCHAR scan today r lines) := by
  refine ⟨by simp [clean_string], ?_, ?_, pln_loop_clean⟩
  · intro i
    unfold clean_string
    rw [List.getElem?_map]
    congr 1
    funext ch
    by_cases h : ch ∈ PLN_WCHARS
    · rw [if_pos h, if_pos ((mem_PLN_WCHARS_iff ch).mp h)]
    · rw [if_neg h, if_neg (fun hc => h ((mem_PLN_WCHARS_iff ch).mpr hc))]
  · rw [List.all_eq_true]
    intro ch hch
    unfold clean_string at hch
    rw [List.mem_map] at hch
    obtain ⟨a, _, ha⟩ := hch
    by_cases h : a ∈ PLN_WCHARS
    · rw [if_pos h] at ha
      subst ha
      exact (mem_PLN_WCHARS_iff a).mp h
    · rw [if_neg h] at ha
      subst ha
      decide


/-! ## Theorems: conversion of a coordinate pair -/

theorem fmt_f0_three (x : ℚ) (h0 : 0 ≤ x) (h : c_round x < 1000) :
    fmt_f0 3 x = fmt_d 3 (c_round x) := by
  have hr : 0 ≤ c_round x := by
    unfold c_round
    apply Int.floor_nonneg.mpr
    linarith
  have hx : ¬ x < 0 := not_lt.mpr h0
  have hv : ¬ c_round x < 0 := not_lt.mpr hr
  have hn : (c_round x).natAbs = (c_round x).toNat := by omega
  unfold fmt_f0 fmt_d
  simp only [hx, hv, if_false, abs_of_nonneg h0, List.length_nil, Nat.sub_zero, hn]

theorem lla_format_in_range (v : LLA)
    (h1 : 0 ≤ v.lat_degs ∧ v.lat_degs ≤ 90) (h2 : 0 ≤ v.lat_mins ∧ v.lat_mins ≤ 59)
    (h3 : 0 ≤ v.lat_secs ∧ c_round (v.lat_secs / 60 * 1000) < 1000)
    (h4 : 0 ≤ v.long_degs ∧ v.long_degs ≤ 180) (h5 : 0 ≤ v.long_mins ∧ v.long_mins ≤ 59)
    (h6 : 0 ≤ v.long_secs ∧ c_round (v.long_secs / 60 * 1000) < 1000) :
    (lla_format (lla_scale v)).length = 18 ∧ lla_record v = lla_format (lla_scale v) ∧
    (lla_record v).getLast? = some v.long_NS ∧
    ((lla_record v).drop 5).take 3 = fmt_d 3 (c_round (v.lat_secs / 60 * 1000)) := by
  have a3 : 0 ≤ v.lat_secs / 60 * 1000 := by
    have := h3.1; positivity
  have a6 : 0 ≤ v.long_secs / 60 * 1000 := by
    have := h6.1; positivity
  have r3 : 0 ≤ c_round (v.lat_secs / 60 * 1000) := by
    unfold c_round; apply Int.floor_nonneg.mpr; linarith
  have r6 : 0 ≤ c_round (v.long_secs / 60 * 1000) := by
    unfold c_round; apply Int.floor_nonneg.mpr; linarith
  have hf : lla_format (lla_scale v) =
      ['C'] ++ fmt_d 2 v.lat_degs ++ fmt_d 2 v.lat_mins ++
        fmt_d 3 (c_round (v.lat_secs / 60 * 1000)) ++ [v.lat_NS] ++
        fmt_d 3 v.long_degs ++ fmt_d 2 v.long_mins ++
        fmt_d 3 (c_round (v.long_secs / 60 * 1000)) ++ [v.long_NS] := by
    unfold lla_format lla_scale
    simp only
    rw [fmt_f0_three _ a3 h3.2, fmt_f0_three _ a6 h6.2]
  have hlen : (lla_format (lla_scale v)).length = 18 := by
    rw [hf, fmt_d_two _ h1.1 (by omega), fmt_d_two _ h2.1 (by omega),
      fmt_d_three _ r3 h3.2, fmt_d_three _ h4.1 (by omega), fmt_d_two _ h5.1 (by omega),
      fmt_d_three _ r6 h6.2]
    rfl
  have hrec : lla_record v = lla_format (lla_scale v) := by
    unfold lla_record
    rw [List.take_append_of_le_length (by omega), List.take_of_length_le (by omega)]
  refine ⟨hlen, hrec, ?_, ?_⟩
  · rw [hrec, hf, List.getLast?_concat]
  · rw [hrec, hf, fmt_d_two _ h1.1 (by omega), fmt_d_two _ h2.1 (by omega),
      fmt_d_three _ r3 h3.2]
    rfl

/-- C25 evaluated: for the coordinate pair 51 30 59.984375 N, 1 15 0 W, whose values are in
the ranges of the claim, the thousandths of the latitude minute are printed as the four
characters "1000", the string has 19 characters, and the 18 characters copied into the route
record end with the digit '0' and not with the longitude hemisphere letter 'W'. -/
theorem late_seconds_record :
    late_seconds_lla.lat_secs < 60 ∧
    lla_format (lla_scale late_seconds_lla) = "C51301000N00115000W".toList ∧
    (lla_format (lla_scale late_seconds_lla)).length = 19 ∧
    lla_record late_seconds_lla = "C51301000N00115000".toList ∧
    (lla_record late_seconds_lla).getLast? = some '0' := by
  have h : lla_format (lla_scale late_seconds_lla) = "C51301000N00115000W".toList := by
    unfold lla_format lla_scale late_seconds_lla fmt_f0 c_round
    norm_num [abs_of_nonneg]
    decide
  refine ⟨by norm_num [late_seconds_lla], h, ?_, ?_, ?_⟩
  · rw [h]; decide
  · unfold lla_record; rw [h]; decide
  · unfold lla_record; rw [h]; decide




/-! ## Theorems: the turnpoint count of the flight plan -/

theorem pln_line_count (scan : List Char → LLA → LLA) (st st2 : Route × LLA)
    (line_buf : List Char) (h : pln_line scan st line_buf = some st2) :
    st2.1.c.length = st.1.c.length ∧
    st2.1.c_wp_count = st.1.c_wp_count + (if entry_line line_buf = true then 1 else 0) := by
  unfold pln_line at h
  unfold entry_line
  split at h
  · rename_i p hp
    simp only [Option.map_eq_some'] at h
    obtain ⟨b, _, hb⟩ := h
    subst hb
    simp only [hp, Option.isNone_some, Bool.false_and, Bool.false_eq_true, if_false,
      Nat.add_zero, List.length_set, and_self]
  · rename_i h1
    split at h
    · rename_i p hp
      simp only [Option.map_eq_some'] at h
      obtain ⟨b, _, hb⟩ := h
      subst hb
      simp only [h1, hp, Option.isNone_some, Option.isNone_none, Bool.true_and, Bool.false_and,
        Bool.false_eq_true, if_false, Nat.add_zero, List.length_set, and_self]
    · rename_i h2
      split at h
      · rename_i p hp
        simp only [Option.map_eq_some'] at h
        obtain ⟨b, _, hb⟩ := h
        subst hb
        simp only [h1, h2, hp, Option.isNone_some, Option.isNone_none, Bool.true_and,
          Bool.false_and, Bool.false_eq_true, if_false, Nat.add_zero, and_self]
      · rename_i h3
        split at h
        · rename_i p hp
          simp only [Option.some.injEq] at h
          subst h
          simp only [h1, h2, h3, hp, Option.isNone_some, Option.isNone_none, Bool.true_and,
            Bool.false_and, Bool.false_eq_true, if_false, Nat.add_zero, List.length_set,
            and_self]
        · rename_i h4
          split at h
          · rename_i p hp
            simp only [Option.some.injEq] at h
            subst h
            simp only [h1, h2, h3, h4, hp, Option.isNone_some, Option.isNone_none,
              Bool.true_and, Bool.false_and, Bool.false_eq_true, if_false, Nat.add_zero,
              and_self]
          · rename_i h5
            split at h
            · rename_i p hp
              simp only [Option.map_eq_some'] at h
              obtain ⟨r1, hr1, hb⟩ := h
              subst hb
              unfold store_waypoint at hr1
              simp only [h1, h2, h3, h4, h5, hp, Option.isNone_none, Option.isSome_some,
                Bool.and_self, if_true]
              split at hr1
              · dsimp only at hr1
                split at hr1
                · split at hr1
                  · split at hr1
                    · simp only [Option.some.injEq] at hr1
                      subst hr1
                      simp only [List.length_set, and_self]
                    · exact absurd hr1 (by simp)
                  · exact absurd hr1 (by simp)
                · exact absurd hr1 (by simp)
              · simp only [Option.some.injEq] at hr1
                subst hr1
                simp only [and_self]
            · rename_i h6
              simp only [h6, Option.isSome_none, Bool.and_false, Bool.false_eq_true, if_false,
                Nat.add_zero]
              split at h
              · split at h
                · dsimp only at h
                  split at h
                  · simp only [Option.some.injEq] at h
                    subst h
                    simp only [List.length_set, and_self]
                  · exact absurd h (by simp)
                · simp only [Option.some.injEq] at h
                  subst h
                  simp only [and_self]
              · simp only [Option.some.injEq] at h
                subst h
                simp only [and_self]


theorem pln_fold_none (MAXCHAR : Nat) (scan : List Char → LLA → LLA)
    (lines : List (List Char)) : lines.foldl (pln_step MAXCHAR scan) none = none := by
  induction lines with
  | nil => rfl
  | cons l ls ih => simpa [List.foldl_cons, pln_step] using ih

theorem pln_fold_count (MAXCHAR : Nat) (scan : List Char → LLA → LLA)
    (lines : List (List Char)) : ∀ st st2 : Route × LLA,
    lines.foldl (pln_step MAXCHAR scan) (some st) = some st2 →
    st2.1.c.length = st.1.c.length ∧
    st2.1.c_wp_count = st.1.c_wp_count + lines.countP waypoint_entry := by
  induction lines with
  | nil =>
    intro st st2 h
    simp only [List.foldl_nil, Option.some.injEq] at h
    subst h
    simp
  | cons l ls ih =>
    intro st st2 h
    rw [List.foldl_cons] at h
    cases hs : pln_step MAXCHAR scan (some st) l with
    | none =>
      rw [hs, pln_fold_none] at h
      exact absurd h (by simp)
    | some st1 =>
      rw [hs] at h
      obtain ⟨h1, h2⟩ := ih st1 st2 h
      have hl : pln_line scan st (clean_string l) = some st1 := by
        unfold pln_step at hs
        simp only at hs
        split at hs
        · exact hs
        · exact absurd hs (by simp)
      obtain ⟨h3, h4⟩ := pln_line_count scan st st1 (clean_string l) hl
      refine ⟨by rw [h1, h3], ?_⟩
      rw [h2, h4, List.countP_cons]
      unfold waypoint_entry
      omega

theorem poke_getD (buf : List Char) (off : Nat) (s : List Char) (i : Nat) :
    (poke buf off s).getD i '\x00' =
      if i < off then buf.getD i '\x00'
      else if i < off + s.length then s.getD (i - off) '\x00' else buf.getD i '\x00' := by
  have hA : ((buf ++ List.replicate (off - buf.length) '\x00').take off).length = off := by
    simp only [List.length_take, List.length_append, List.length_replicate]
    omega
  unfold poke
  simp only [List.getD_eq_getElem?_getD]
  by_cases h1 : i < off
  · rw [if_pos h1, List.append_assoc, List.getElem?_append_left (by rw [hA]; exact h1),
      List.getElem?_take_of_lt h1]
    by_cases h2 : i < buf.length
    · rw [List.getElem?_append_left h2]
    · rw [List.getElem?_append_right (by omega), List.getElem?_replicate,
        List.getElem?_eq_none (by omega)]
      split <;> rfl
  · rw [if_neg h1]
    by_cases h2 : i < off + s.length
    · rw [if_pos h2, List.append_assoc, List.getElem?_append_right (by rw [hA]; omega), hA,
        List.getElem?_append_left (by omega)]
    · rw [if_neg h2, List.getElem?_append_right
        (by rw [List.length_append, hA]; omega), List.length_append, hA, List.getElem?_drop]
      congr 2
      omega


theorem pln_start_facts (today : Tm) (r : Route) :
    (pln_start today r).c.length = r.c.length ∧ (pln_start today r).c_wp_count = 0 := by
  unfold pln_start
  simp only [List.length_set, and_self]

theorem inject_count_c0 (r : Route) (hc : 0 < r.c.length) (hn : r.c_wp_count ≤ 101) :
    (inject_count r).c.getD 0 [] =
      poke (r.c.getD 0 []) 23
        [Nat.digitChar ((r.c_wp_count - 2) / 10), Nat.digitChar ((r.c_wp_count - 2) % 10)] := by
  have hs : (if r.c_wp_count > 2 then fmt_d 2 ((r.c_wp_count : Int) - 2) else "00".toList) =
      [Nat.digitChar ((r.c_wp_count - 2) / 10), Nat.digitChar ((r.c_wp_count - 2) % 10)] := by
    by_cases h : r.c_wp_count > 2
    · rw [if_pos h]
      have e : ((r.c_wp_count : Int) - 2) = ((r.c_wp_count - 2 : Nat) : Int) := by omega
      rw [e, fmt_d_two_nat _ (by omega)]
    · rw [if_neg h]
      have e : r.c_wp_count - 2 = 0 := by omega
      rw [e]
      rfl
  unfold inject_count
  simp only [hs]
  rw [List.getD_eq_getElem?_getD, List.getElem?_set_self hc]
  rfl

/-- C26 as stated fails: in this plan three lines hold "<ATCWaypoint ", but the first of
them also holds the title and is taken by the title handler, so two waypoints are counted
and characters 23 and 24 of the header record are "00" and not "01". -/
theorem title_line_hides_waypoint :
    (fgets_lines title_on_waypoint_line_plan).countP has_waypoint_tag = 3 ∧
    (pln_to_c 127 sample_scan sample_today route_init (some title_on_waypoint_line_plan)).map
      (fun res => (res.2.c_wp_count, cstr (res.2.c.getD 0 []))) =
      some (2, "C040709123000000000000100Sample task\n".toList) := by
  decide

/-- C26 amended: when `pln_to_c` parses a plan without leaving its buffers and n lines of
the plan are taken by the waypoint handler (lines that hold "<ATCWaypoint " and none of the
five tags tested before it), with n at most 101, then `c_wp_count` is n, characters 23 and
24 of `c[0]` are the two decimal digits of max(0, n - 2), every other byte of `c[0]` and
every other buffer is as the loop left it. -/
theorem turnpoint_count (MAXCHAR : Nat) (scan : List Char → LLA → LLA) (today : Tm)
    (r : Route) (text : List Char) (res : CHKSUM_RESULT × Route)
    (hc : r.c.length = MAXC)
    (h : pln_to_c MAXCHAR scan today r (some text) = some res)
    (hn : (fgets_lines text).countP waypoint_entry ≤ 101) :
    res.2.c_wp_count = (fgets_lines text).countP waypoint_entry ∧
    ∃ st, pln_loop MAXCHAR scan today r (fgets_lines text) = some st ∧
      (res.2.c.getD 0 []).getD 23 '\x00' =
        Nat.digitChar (((fgets_lines text).countP waypoint_entry - 2) / 10) ∧
      (res.2.c.getD 0 []).getD 24 '\x00' =
        Nat.digitChar (((fgets_lines text).countP waypoint_entry - 2) % 10) ∧
      (∀ i, i ≠ 23 → i ≠ 24 →
        (res.2.c.getD 0 []).getD i '\x00' = (st.1.c.getD 0 []).getD i '\x00') ∧
      (∀ k, k ≠ 0 → res.2.c.getD k [] = st.1.c.getD k []) ∧
      res.2.c_landing = st.1.c_landing := by
  unfold pln_to_c at h
  simp only at h
  cases hl : pln_loop MAXCHAR scan today r (fgets_lines text) with
  | none =>
    rw [hl] at h
    exact absurd h (by simp)
  | some st =>
    rw [hl] at h
    simp only [Option.some.injEq] at h
    subst h
    unfold pln_loop at hl
    obtain ⟨h1, h2⟩ := pln_fold_count MAXCHAR scan (fgets_lines text) _ st hl
    obtain ⟨h3, h4⟩ := pln_start_facts today r
    simp only at h1 h2
    rw [h3, hc] at h1
    rw [h4, Nat.zero_add] at h2
    have hlen : 0 < st.1.c.length := by rw [h1]; decide
    have hc0 := inject_count_c0 st.1 hlen (by rw [h2]; exact hn)
    have hcount : (inject_count st.1).c_wp_count = st.1.c_wp_count := rfl
    refine ⟨by rw [hcount, h2], st, rfl, ?_, ?_, ?_, ?_, rfl⟩
    · show ((inject_count st.1).c.getD 0 []).getD 23 '\x00' = _
      rw [hc0, poke_getD, h2]
      rfl
    · show ((inject_count st.1).c.getD 0 []).getD 24 '\x00' = _
      rw [hc0, poke_getD, h2]
      rfl
    · intro i hi1 hi2
      show ((inject_count st.1).c.getD 0 []).getD i '\x00' = _
      rw [hc0, poke_getD]
      simp only [List.length_cons, List.length_nil]
      split
      · rfl
      · split
        · omega
        · rfl
    · intro k hk
      show (inject_count st.1).c.getD k [] = _
      unfold inject_count
      simp only [List.getD_eq_getElem?_getD]
      rw [List.getElem?_set_ne (by omega)]

set_option maxRecDepth 1000000 in
theorem turnpoint_count_witness :
    (fgets_lines sample_plan).countP waypoint_entry = 3 ∧
    ((pln_to_c 127 sample_scan sample_today route_init (some sample_plan)).map
      (fun res => res.2.c_wp_count)) = some 3 := by
  have hd : (pln_to_c 127 sample_scan sample_today route_init (some sample_plan)).isSome
      = true := by decide
  obtain ⟨res, hres⟩ := Option.isSome_iff_exists.mp hd
  have hcnt : (fgets_lines sample_plan).countP waypoint_entry = 3 := by decide
  have := (turnpoint_count 127 sample_scan sample_today route_init sample_plan res rfl hres
    (by rw [hcnt]; decide)).1
  refine ⟨hcnt, ?_⟩
  rw [hres, Option.map_some', this, hcnt]

/-! ## Theorems: columns of the names in the route records -/

theorem begins_append (t x : List Char) : begins t (t ++ x) = true := by
  induction t with
  | nil => rfl
  | cons a t ih => simp [begins, ih]

theorem strstr_blank_pad (k : Nat) (t x : List Char) :
    strstr (List.replicate k ' ' ++ ('<' :: t) ++ x) ('<' :: t) = some k := by
  induction k with
  | zero =>
    have hb := begins_append ('<' :: t) x
    simp only [List.replicate_zero, List.nil_append, List.cons_append] at hb ⊢
    simp only [strstr, hb, if_true]
  | succ k ih =>
    have hne : begins ('<' :: t) (' ' :: (List.replicate k ' ' ++ ('<' :: t) ++ x)) = false := by
      simp [begins]
    rw [List.replicate_succ, List.cons_append, List.cons_append]
    simp only [strstr, hne, Bool.false_eq_true, if_false, ih, Option.map_some']

theorem strchr_skip (a b : List Char) (ch : Char) (h : ch ∉ a) :
    strchr (a ++ ch :: b) ch = some a.length := by
  induction a with
  | nil => simp [strchr]
  | cons x a ih =>
    have hx : x ≠ ch := fun e => h (by simp [e])
    have ha : ch ∉ a := fun e => h (by simp [e])
    have e := ih ha
    rw [List.cons_append]
    simp only [strchr, hx, if_false, List.length_cons]
    rw [e]
    rfl

theorem store_name_canonical (k : Nat) (t name rest buf : List Char) (off : Nat)
    (ht : '<' ∉ t) (hname : '<' ∉ name) (hfit : off + name.length + 2 ≤ MAXBUF) :
    store_name (List.replicate k ' ' ++ ('<' :: t) ++ name ++ '<' :: rest) k (t.length + 1)
      buf off = some (poke buf off (name ++ ['\n', '\x00'])) := by
  have hdrop1 : (List.replicate k ' ' ++ ('<' :: t) ++ name ++ '<' :: rest).drop (k + 1) =
      (t ++ name) ++ '<' :: rest := by
    have : List.replicate k ' ' ++ ('<' :: t) ++ name ++ '<' :: rest =
        (List.replicate k ' ' ++ ['<']) ++ ((t ++ name) ++ '<' :: rest) := by simp
    rw [this, List.drop_left' (by simp)]
  have hdrop2 : (List.replicate k ' ' ++ ('<' :: t) ++ name ++ '<' :: rest).drop
      (k + (t.length + 1)) = name ++ '<' :: rest := by
    have : List.replicate k ' ' ++ ('<' :: t) ++ name ++ '<' :: rest =
        (List.replicate k ' ' ++ ('<' :: t)) ++ (name ++ '<' :: rest) := by simp
    rw [this, List.drop_left' (by simp)]
  have hend : value_end (List.replicate k ' ' ++ ('<' :: t) ++ name ++ '<' :: rest) k =
      some (t.length + name.length + (k + 1)) := by
    unfold value_end
    rw [hdrop1, strchr_skip _ _ _ (by simp [ht, hname])]
    simp
  have hcopy : strncpy_s (List.replicate k ' ' ++ ('<' :: t) ++ name ++ '<' :: rest)
      (k + (t.length + 1))
      (((t.length + name.length + (k + 1) : Nat) : Int) - (k : Int) - ((t.length + 1 : Nat) : Int))
      = some name := by
    have hc : (((t.length + name.length + (k + 1) : Nat) : Int) - (k : Int) -
        ((t.length + 1 : Nat) : Int)) = (name.length : Int) := by push_cast; ring
    have hlen : k + (t.length + 1) ≤
        (List.replicate k ' ' ++ ('<' :: t) ++ name ++ '<' :: rest).length := by
      simp
    have hm : name.length < MAXBUF := by omega
    unfold strncpy_s
    rw [if_pos hlen, hdrop2, hc]
    simp only [Int.toNat_ofNat, List.length_append, List.length_cons]
    have h0 : ¬ ((name.length : Int) < 0) := by omega
    rw [if_neg h0, Nat.min_eq_left (Nat.le_add_right _ _), if_pos hm, List.take_left' rfl]
  unfold store_name
  rw [hend]
  simp only
  rw [hcopy]
  simp only
  unfold store_text
  rw [if_pos hfit]


theorem store_waypoint_canonical (r : Route) (k : Nat) (t a4 name rest : List Char) (q : Char)
    (ht : t.length = 12) (ht2 : '>' ∉ t) (ha : a4.length = 4) (ha2 : '>' ∉ a4)
    (hname : '>' ∉ name) (hq : q ≠ '>') (hfit : 18 + name.length + 2 ≤ MAXBUF)
    (hwp : r.c_wp_count + 2 < MAXC) :
    store_waypoint r (List.replicate k ' ' ++ ('<' :: t) ++ a4 ++ name ++ q :: '>' :: rest) k =
      some { r with
        c_wp_count := r.c_wp_count + 1,
        c := r.c.set (r.c_wp_count + 2)
          (poke (r.c.getD (r.c_wp_count + 2) []) 18 (name ++ ['\n', '\x00'])) } := by
  have hdrop1 : (List.replicate k ' ' ++ ('<' :: t) ++ a4 ++ name ++ q :: '>' :: rest).drop k =
      (('<' :: t) ++ a4 ++ name ++ [q]) ++ '>' :: rest := by
    have : List.replicate k ' ' ++ ('<' :: t) ++ a4 ++ name ++ q :: '>' :: rest =
        List.replicate k ' ' ++ ((('<' :: t) ++ a4 ++ name ++ [q]) ++ '>' :: rest) := by simp
    rw [this, List.drop_left' (by simp)]
  have hdrop2 : (List.replicate k ' ' ++ ('<' :: t) ++ a4 ++ name ++ q :: '>' :: rest).drop
      (k + 17) = name ++ q :: '>' :: rest := by
    have : List.replicate k ' ' ++ ('<' :: t) ++ a4 ++ name ++ q :: '>' :: rest =
        (List.replicate k ' ' ++ ('<' :: t) ++ a4) ++ (name ++ q :: '>' :: rest) := by simp
    rw [this, List.drop_left' (by simp; omega)]
  have hnot : '>' ∉ ('<' :: t) ++ a4 ++ name ++ [q] := by
    simp only [List.mem_append, List.mem_cons, List.mem_singleton, List.not_mem_nil, or_false,
      not_or]
    exact ⟨⟨⟨⟨by decide, ht2⟩, ha2⟩, hname⟩, fun e => hq e.symm⟩
  have hend : strchr ((List.replicate k ' ' ++ ('<' :: t) ++ a4 ++ name ++ q :: '>' :: rest).drop
      k) '>' = some (name.length + 18) := by
    rw [hdrop1, strchr_skip _ _ _ hnot]
    simp only [List.length_append, List.length_cons, List.length_nil, ht, ha]
    congr 1
    omega
  have hcopy : strncpy_s (List.replicate k ' ' ++ ('<' :: t) ++ a4 ++ name ++ q :: '>' :: rest)
      (k + 17) (((name.length + 18 : Nat) : Int) - 18) = some name := by
    have hc : (((name.length + 18 : Nat) : Int) - 18) = (name.length : Int) := by
      push_cast; ring
    have hlen : k + 17 ≤
        (List.replicate k ' ' ++ ('<' :: t) ++ a4 ++ name ++ q :: '>' :: rest).length := by
      simp; omega
    have hm : name.length < MAXBUF := by omega
    unfold strncpy_s
    rw [if_pos hlen, hdrop2, hc]
    simp only [Int.toNat_ofNat, List.length_append, List.length_cons]
    have h0 : ¬ ((name.length : Int) < 0) := by omega
    rw [if_neg h0, Nat.min_eq_left (Nat.le_add_right _ _), if_pos hm, List.take_left' rfl]
  have hidx : r.c_wp_count + 1 + 1 < MAXC := by omega
  unfold store_waypoint
  simp only
  rw [hend]
  simp only
  rw [if_pos hidx, hcopy]
  simp only
  unfold store_text
  rw [if_pos hfit]

/-- C27 as stated fails: in the records stored for the sample plan the departure name
"Start field" and the turnpoint name "TP1" both start at column 18 of their record, directly
after the 18 characters of the coordinates; only the title, in the header record, starts at
another column, 25. -/
theorem names_share_column :
    (pln_to_c 127 sample_scan sample_today route_init (some sample_plan)).map
      (fun res => (cstr (res.2.c.getD 0 []), cstr (res.2.c.getD 1 []),
        cstr (res.2.c.getD 3 []))) =
      some ("C040709123000000000000101Sample task\n".toList,
        "C5130250N00115750WStart field\n".toList, "C5130250N00115750WTP1\n".toList) ∧
    ("C5130250N00115750WStart field\n".toList).drop 18 = "Start field\n".toList ∧
    ("C5130250N00115750WTP1\n".toList).drop 18 = "TP1\n".toList ∧
    ("C040709123000000000000101Sample task\n".toList).drop 25 = "Sample task\n".toList := by
  decide!

/-- C27 amended: the free text of a route record is stored at a fixed column of its buffer,
and this column is 18 both for the departure name in `c[1]` and for a waypoint name in
`c[c_wp_count+1]`: a line holding the departure name and a line holding a waypoint name,
neither holding a tag tested earlier, store the name followed by a newline from byte 18 on,
so that character i of the name is byte 18 + i of the buffer. -/
theorem name_columns (scan : List Char → LLA → LLA) (r : Route) (v : LLA) (k : Nat)
    (name rest a4 : List Char) (q : Char)
    (hname1 : '<' ∉ name) (hname2 : '>' ∉ name) (hfit : name.length + 20 ≤ MAXBUF)
    (ha : a4.length = 4) (ha2 : '>' ∉ a4) (hq : q ≠ '>') (hwp : r.c_wp_count + 2 < MAXC)
    (hd1 : strstr (departure_line k name rest) "<Title>".toList = none)
    (hw1 : strstr (waypoint_line k a4 name q rest) "<Title>".toList = none)
    (hw2 : strstr (waypoint_line k a4 name q rest) "<DepartureName>".toList = none)
    (hw3 : strstr (waypoint_line k a4 name q rest) "<DestinationName>".toList = none)
    (hw4 : strstr (waypoint_line k a4 name q rest) "<DepartureLLA>".toList = none)
    (hw5 : strstr (waypoint_line k a4 name q rest) "<DestinationLLA>".toList = none) :
    pln_line scan (r, v) (departure_line k name rest) =
      some ({ r with c := r.c.set 1 (poke (r.c.getD 1 []) 18 (name ++ ['\n', '\x00'])) }, v) ∧
    pln_line scan (r, v) (waypoint_line k a4 name q rest) =
      some ({ r with
        c_wp_count := r.c_wp_count + 1,
        c := r.c.set (r.c_wp_count + 2)
          (poke (r.c.getD (r.c_wp_count + 2) []) 18 (name ++ ['\n', '\x00'])) }, v) ∧
    ∀ (buf : List Char) (i : Nat), i < name.length →
      (poke buf 18 (name ++ ['\n', '\x00'])).getD (18 + i) '\x00' = name.getD i '\x00' := by
  have hdep : strstr (departure_line k name rest) "<DepartureName>".toList = some k := by
    have := strstr_blank_pad k "DepartureName>".toList (name ++ '<' :: rest)
    rw [← List.append_assoc] at this
    exact this
  have hway : strstr (waypoint_line k a4 name q rest) "<ATCWaypoint ".toList = some k := by
    have := strstr_blank_pad k "ATCWaypoint ".toList (a4 ++ name ++ q :: '>' :: rest)
    simp only [← List.append_assoc] at this
    exact this
  have hs1 := store_name_canonical k "DepartureName>".toList name rest (r.c.getD 1 []) 18
    (by decide) hname1 (by omega)
  have hs2 := store_waypoint_canonical r k "ATCWaypoint ".toList a4 name rest q (by decide)
    (by decide) ha ha2 hname2 hq (by omega) hwp
  refine ⟨?_, ?_, ?_⟩
  · unfold pln_line
    simp only [hd1, hdep]
    have e : store_name (departure_line k name rest) k 15 (r.c.getD 1 []) 18 =
        some (poke (r.c.getD 1 []) 18 (name ++ ['\n', '\x00'])) := hs1
    rw [e]
    rfl
  · unfold pln_line
    simp only [hw1, hw2, hw3, hw4, hw5, hway]
    have e : store_waypoint r (waypoint_line k a4 name q rest) k = _ := hs2
    rw [e]
    rfl
  · intro buf i hi
    rw [poke_getD]
    have h1 : ¬ 18 + i < 18 := by omega
    have h2 : 18 + i < 18 + (name ++ ['\n', '\x00']).length := by
      simp only [List.length_append]; omega
    rw [if_neg h1, if_pos h2, Nat.add_sub_cancel_left]
    simp only [List.getD_eq_getElem?_getD]
    rw [List.getElem?_append_left hi]

theorem name_columns_witness :
    pln_line sample_scan (route_init, lla_init)
        (departure_line 4 "Start field".toList " DepartureName> ".toList) =
      some ({ route_init with
        c := route_init.c.set 1
          (poke (route_init.c.getD 1 []) 18 ("Start field".toList ++ ['\n', '\x00'])) },
        lla_init) :=
  (name_columns sample_scan route_init lla_init 4 "Start field".toList
    " DepartureName> ".toList "id  ".toList ' ' (by decide) (by decide) (by decide) (by decide)
    (by decide) (by decide) (by decide) (by decide) (by decide) (by decide) (by decide)
    (by decide) (by decide)).1


/-! ## Theorems: the message dispatcher -/

theorem on_flightplan_facts (w : Sim) (a a1 : App) (f : List Char)
    (h : on_flightplan w a f = some a1) :
    a1.g.igc_pos = [] ∧ a1.files = a.files ∧ a1.g.wx_code = a.g.wx_code := by
  unfold on_flightplan at h
  simp only at h
  split at h
  · simp only [Option.some.injEq] at h
    subst h
    exact ⟨rfl, rfl, rfl⟩
  · exact absurd h (by simp)

theorem dispatch_samples (w : Sim) (a a1 : App) (m : Recv)
    (h : MyDispatchProcSO w a m = some a1) :
    ∀ b ∈ a1.g.igc_pos, b ∈ a.g.igc_pos ∨ ∃ p, m = Recv.REQUEST_USER_POS p ∧ b = igc_b_of p := by
  intro b hb
  cases m with
  | REQUEST_USER_POS p =>
    simp only [MyDispatchProcSO, Option.some.injEq] at h
    subst h
    unfold on_user_pos at hb
    simp only at hb
    split at hb
    · rcases igc_log_point_cases a.g.igc_pos p with e | e
      · rw [e] at hb; exact Or.inl hb
      · rw [e, List.mem_append, List.mem_singleton] at hb
        rcases hb with hb | hb
        · exact Or.inl hb
        · exact Or.inr ⟨p, rfl, hb⟩
    · exact Or.inl hb
  | EVENT_FLIGHTPLAN f =>
    simp only [MyDispatchProcSO] at h
    rw [(on_flightplan_facts w a a1 f h).1] at hb
    exact absurd hb (List.not_mem_nil b)
  | REQUEST_AIRCRAFT_DATA s =>
    cases s <;>
    · simp only [MyDispatchProcSO, Option.some.injEq] at h
      subst h
      exact Or.inl hb
  | QUIT =>
    simp only [MyDispatchProcSO, Option.some.injEq] at h
    subst h
    unfold on_quit at hb
    split at hb
    · exact absurd hb (List.not_mem_nil b)
    · exact Or.inl hb
  | EVENT_FLIGHT f =>
    simp only [MyDispatchProcSO, Option.some.injEq] at h
    subst h
    exact absurd hb (List.not_mem_nil b)
  | EVENT_AIRCRAFT f =>
    simp only [MyDispatchProcSO, Option.some.injEq] at h
    subst h
    exact absurd hb (List.not_mem_nil b)
  | _ =>
    simp only [MyDispatchProcSO, Option.some.injEq] at h
    subst h
    exact Or.inl hb

theorem dispatch_files (w : Sim) (a a1 : App) (m : Recv)
    (h : MyDispatchProcSO w a m = some a1) :
    ∀ doc ∈ a1.files, doc ∈ a.files ∨ igc_write_file w.env a.g = some doc := by
  intro doc hd
  have hw : ∀ d ∈ write_log w a, d ∈ a.files ∨ igc_write_file w.env a.g = some d := by
    intro d hd
    unfold write_log at hd
    split at hd
    · rename_i x hx
      rw [List.mem_append, List.mem_singleton] at hd
      rcases hd with hd | hd
      · exact Or.inl hd
      · exact Or.inr (by rw [hx, hd])
    · exact Or.inl hd
  cases m with
  | EVENT_MENU_WRITE_LOG =>
    simp only [MyDispatchProcSO, Option.some.injEq] at h
    subst h
    exact hw doc hd
  | QUIT =>
    simp only [MyDispatchProcSO, Option.some.injEq] at h
    subst h
    unfold on_quit at hd
    split at hd
    · exact hw doc hd
    · exact Or.inl hd
  | EVENT_FLIGHTPLAN f =>
    simp only [MyDispatchProcSO] at h
    rw [(on_flightplan_facts w a a1 f h).2.1] at hd
    exact Or.inl hd
  | REQUEST_AIRCRAFT_DATA s =>
    cases s <;>
    · simp only [MyDispatchProcSO, Option.some.injEq] at h
      subst h
      exact Or.inl hd
  | _ =>
    simp only [MyDispatchProcSO, Option.some.injEq] at h
    subst h
    exact Or.inl hd

theorem dispatch_all_samples (w : Sim) (ms : List Recv) : ∀ (a a2 : App),
    dispatch_all w a ms = some a2 →
    ∀ b ∈ a2.g.igc_pos, b ∈ a.g.igc_pos ∨ ∃ p, Recv.REQUEST_USER_POS p ∈ ms ∧ b = igc_b_of p := by
  induction ms with
  | nil =>
    intro a a2 h b hb
    simp only [dispatch_all, Option.some.injEq] at h
    subst h
    exact Or.inl hb
  | cons m ms ih =>
    intro a a2 h b hb
    unfold dispatch_all at h
    split at h
    · rename_i a1 h1
      rcases ih a1 a2 h b hb with hb1 | ⟨p, hp, e⟩
      · rcases dispatch_samples w a a1 m h1 b hb1 with hb0 | ⟨p, hp, e⟩
        · exact Or.inl hb0
        · exact Or.inr ⟨p, by rw [hp]; exact List.mem_cons_self _ _, e⟩
      · exact Or.inr ⟨p, List.mem_cons_of_mem _ hp, e⟩
    · exact absurd h (by simp)

theorem dispatch_all_files (w : Sim) (ms : List Recv) : ∀ (a a2 : App),
    dispatch_all w a ms = some a2 →
    ∀ doc ∈ a2.files, doc ∈ a.files ∨ ∃ pre post a3, ms = pre ++ post ∧
      dispatch_all w a pre = some a3 ∧ igc_write_file w.env a3.g = some doc := by
  induction ms with
  | nil =>
    intro a a2 h doc hd
    simp only [dispatch_all, Option.some.injEq] at h
    subst h
    exact Or.inl hd
  | cons m ms ih =>
    intro a a2 h doc hd
    unfold dispatch_all at h
    split at h
    · rename_i a1 h1
      rcases ih a1 a2 h doc hd with hd1 | ⟨pre, post, a3, e, hrun, hdoc⟩
      · rcases dispatch_files w a a1 m h1 doc hd1 with hd0 | hw
        · exact Or.inl hd0
        · exact Or.inr ⟨[], m :: ms, a, rfl, rfl, hw⟩
      · refine Or.inr ⟨m :: pre, post, a3, by rw [e]; rfl, ?_, hdoc⟩
        unfold dispatch_all
        rw [h1]
        exact hrun
    · exact absurd h (by simp)


/-- C28: each of the three file-load messages (flight file, aircraft file, flight plan)
leaves the count of stored positions at 0 and writes no log file; hence in every state
reached afterwards the stored positions all come from position messages received after the
load, and every log file written afterwards is composed from such a state.  The dispatcher
always completes for a flight or aircraft file, and for a flight plan whenever `pln_to_c`
does. -/
theorem load_starts_new_log (w : Sim) (a a1 : App) (m : Recv) (f : List Char)
    (hm : m = Recv.EVENT_FLIGHT f ∨ m = Recv.EVENT_AIRCRAFT f ∨ m = Recv.EVENT_FLIGHTPLAN f)
    (h : MyDispatchProcSO w a m = some a1) :
    a1.g.igc_pos.length = 0 ∧ a1.files = a.files ∧
    (∀ ms a2, dispatch_all w a1 ms = some a2 →
      (∀ b ∈ a2.g.igc_pos, ∃ p, Recv.REQUEST_USER_POS p ∈ ms ∧ b = igc_b_of p) ∧
      (∀ doc ∈ a2.files, doc ∈ a.files ∨ ∃ pre post a3, ms = pre ++ post ∧
        dispatch_all w a1 pre = some a3 ∧ igc_write_file w.env a3.g = some doc ∧
        ∀ b ∈ a3.g.igc_pos, ∃ p, Recv.REQUEST_USER_POS p ∈ pre ∧ b = igc_b_of p)) ∧
    (MyDispatchProcSO w a (Recv.EVENT_FLIGHT f)).isSome = true ∧
    (MyDispatchProcSO w a (Recv.EVENT_AIRCRAFT f)).isSome = true ∧
    (MyDispatchProcSO w a (Recv.EVENT_FLIGHTPLAN f)).isSome =
      (pln_to_c w.MAXCHAR w.scan w.env.today a.route (w.read_wide f)).isSome := by
  have h0 : a1.g.igc_pos = [] ∧ a1.files = a.files := by
    rcases hm with hm | hm | hm
    · subst hm
      simp only [MyDispatchProcSO, Option.some.injEq] at h
      subst h
      exact ⟨rfl, rfl⟩
    · subst hm
      simp only [MyDispatchProcSO, Option.some.injEq] at h
      subst h
      exact ⟨rfl, rfl⟩
    · subst hm
      simp only [MyDispatchProcSO] at h
      exact ⟨(on_flightplan_facts w a a1 f h).1, (on_flightplan_facts w a a1 f h).2.1⟩
  have hs : ∀ ms a2, dispatch_all w a1 ms = some a2 →
      ∀ b ∈ a2.g.igc_pos, ∃ p, Recv.REQUEST_USER_POS p ∈ ms ∧ b = igc_b_of p := by
    intro ms a2 h2 b hb
    rcases dispatch_all_samples w ms a1 a2 h2 b hb with hb1 | hb1
    · rw [h0.1] at hb1
      exact absurd hb1 (List.not_mem_nil b)
    · exact hb1
  refine ⟨by rw [h0.1]; rfl, h0.2, ?_, rfl, rfl, ?_⟩
  · intro ms a2 h2
    refine ⟨hs ms a2 h2, ?_⟩
    intro doc hd
    rcases dispatch_all_files w ms a1 a2 h2 doc hd with hd1 | ⟨pre, post, a3, e, hrun, hdoc⟩
    · rw [h0.2] at hd1
      exact Or.inl hd1
    · exact Or.inr ⟨pre, post, a3, e, hrun, hdoc, hs pre a3 hrun⟩
  · simp only [MyDispatchProcSO]
    unfold on_flightplan
    simp only
    split
    · rename_i res hres
      rw [hres]
      rfl
    · rename_i hres
      rw [hres]
      rfl

theorem load_starts_new_log_witness :
    sample_app.g.igc_pos.length = 5 ∧
    (on_flight sample_sim sample_app "C:\\FSX\\flights\\task.FLT".toList).g.igc_pos.length = 0 ∧
    (on_flight sample_sim sample_app "C:\\FSX\\flights\\task.FLT".toList).files =
      sample_app.files :=
  ⟨by decide,
    (load_starts_new_log sample_sim sample_app _ (Recv.EVENT_FLIGHT _)
      "C:\\FSX\\flights\\task.FLT".toList (Or.inl rfl) rfl).1,
    (load_starts_new_log sample_sim sample_app _ (Recv.EVENT_FLIGHT _)
      "C:\\FSX\\flights\\task.FLT".toList (Or.inl rfl) rfl).2.1⟩

/-- C30: a call of the dispatcher sets the weather lock flag `wx_code` to 0 exactly for the
weather-mode message; a flight-file load sets it to 1 when the weather file beside the
flight file can be opened and leaves it otherwise; every other message leaves it; so the
flag becomes 0 only by the weather-mode message, and its value after any message is the same
for two file systems in which the same files can be opened, whatever the files hold. -/
theorem wx_code_changes (w : Sim) (a a1 : App) (m : Recv)
    (h : MyDispatchProcSO w a m = some a1) :
    (m = Recv.EVENT_WEATHER → a1.g.wx_code = 0) ∧
    (∀ f, m = Recv.EVENT_FLIGHT f → a1.g.wx_code =
      if (w.read (with_extension f "WX".toList)).isSome = true then 1 else a.g.wx_code) ∧
    (m ≠ Recv.EVENT_WEATHER → (∀ f, m ≠ Recv.EVENT_FLIGHT f) → a1.g.wx_code = a.g.wx_code) ∧
    (a1.g.wx_code = 0 → a.g.wx_code ≠ 0 → m = Recv.EVENT_WEATHER) ∧
    (∀ (w2 : Sim) (a2 : App), (∀ p, (w2.read p).isSome = (w.read p).isSome) →
      MyDispatchProcSO w2 a m = some a2 → a2.g.wx_code = a1.g.wx_code) := by
  have hfl : ∀ (w1 : Sim) (f : List Char), (on_flight w1 a f).g.wx_code =
      if (w1.read (with_extension f "WX".toList)).isSome = true then 1 else a.g.wx_code := by
    intro w1 f
    unfold on_flight chksum_binary_file
    simp only
    cases w1.read (with_extension f "WX".toList) with
    | none => simp [igc_reset_log]
    | some x => simp
  cases m with
  | EVENT_WEATHER =>
    simp only [MyDispatchProcSO, Option.some.injEq] at h
    subst h
    refine ⟨fun _ => rfl, fun f e => (by cases e), fun e => absurd rfl e, fun _ _ => rfl, ?_⟩
    intro w2 a2 _ h2
    simp only [MyDispatchProcSO, Option.some.injEq] at h2
    subst h2
    rfl
  | EVENT_FLIGHT f =>
    simp only [MyDispatchProcSO, Option.some.injEq] at h
    subst h
    refine ⟨fun e => (by cases e), ?_, fun _ e => absurd rfl (e f), ?_, ?_⟩
    · intro f2 e
      cases e
      exact hfl w f
    · intro h1 h2
      rw [hfl w f] at h1
      split at h1
      · exact absurd h1 (by decide)
      · exact absurd h1 h2
    · intro w2 a2 hw h2
      simp only [MyDispatchProcSO, Option.some.injEq] at h2
      subst h2
      rw [hfl w f, hfl w2 f, hw]
  | EVENT_FLIGHTPLAN f =>
    simp only [MyDispatchProcSO] at h
    have e := (on_flightplan_facts w a a1 f h).2.2
    refine ⟨fun e => (by cases e), fun f e => (by cases e), fun _ _ => e,
      fun h1 h2 => absurd (e ▸ h1) h2, ?_⟩
    intro w2 a2 _ h2
    simp only [MyDispatchProcSO] at h2
    rw [(on_flightplan_facts w2 a a2 f h2).2.2, e]
  | REQUEST_AIRCRAFT_DATA s =>
    cases s <;>
    · simp only [MyDispatchProcSO, Option.some.injEq] at h
      subst h
      refine ⟨fun e => (by cases e), fun f e => (by cases e), fun _ _ => rfl,
        fun h1 h2 => absurd h1 h2, ?_⟩
      intro w2 a2 _ h2
      simp only [MyDispatchProcSO, Option.some.injEq] at h2
      subst h2
      rfl
  | QUIT =>
    have hq : ∀ w1 : Sim, (on_quit w1 a).g.wx_code = a.g.wx_code := by
      intro w1
      unfold on_quit
      split <;> rfl
    simp only [MyDispatchProcSO, Option.some.injEq] at h
    subst h
    refine ⟨fun e => (by cases e), fun f e => (by cases e), fun _ _ => hq w,
      fun h1 h2 => absurd (hq w ▸ h1) h2, ?_⟩
    intro w2 a2 _ h2
    simp only [MyDispatchProcSO, Option.some.injEq] at h2
    subst h2
    rw [hq, hq]
  | REQUEST_USER_POS p =>
    simp only [MyDispatchProcSO, Option.some.injEq] at h
    subst h
    refine ⟨fun e => (by cases e), fun f e => (by cases e), fun _ _ => rfl,
      fun h1 h2 => absurd h1 h2, ?_⟩
    intro w2 a2 _ h2
    simp only [MyDispatchProcSO, Option.some.injEq] at h2
    subst h2
    rfl
  | _ =>
    simp only [MyDispatchProcSO, Option.some.injEq] at h
    subst h
    refine ⟨fun e => (by cases e), fun f e => (by cases e), fun _ _ => rfl,
      fun h1 h2 => absurd h1 h2, ?_⟩
    intro w2 a2 _ h2
    simp only [MyDispatchProcSO, Option.some.injEq] at h2
    subst h2
    rfl

theorem wx_code_changes_witness :
    sample_app.g.wx_code = 0 ∧
    (on_flight sample_sim sample_app "C:\\FSX\\flights\\task.FLT".toList).g.wx_code = 1 :=
  ⟨rfl, by
    have h := (wx_code_changes sample_sim sample_app _
      (Recv.EVENT_FLIGHT "C:\\FSX\\flights\\task.FLT".toList) rfl).2.1 _ rfl
    rw [h]
    decide⟩


/-! ## Theorems: substitution changes every slot -/

set_option maxRecDepth 1000000 in
theorem slot_update_onto (m i v : Nat) (hv : v < 63) :
    ∃ x, x < 63 ∧ chk_map.getD ((x + m + i) % CHK_CHARS) 0 = v := by
  have hmem : ∀ u, u < 63 → ∃ j, j < 63 ∧ chk_map.getD j 0 = u := by decide
  obtain ⟨j, hj, hju⟩ := hmem v hv
  refine ⟨(j + 63 - (m + i) % 63) % 63, Nat.mod_lt _ (by decide), ?_⟩
  have e : ((j + 63 - (m + i) % 63) % 63 + m + i) % CHK_CHARS = j := by
    simp only [CHK_CHARS]
    omega
  rw [e, hju]

/-- C31: for every string and every position of it holding a recognized character, replacing
that character by a different recognized character leaves the final index unchanged and
changes every one of the six slots of the final accumulator, before the slots are printed
modulo 36.  The reasons are stated with it: `chk_map` takes different values at different
positions below 63, and for every `map_num` and slot number the slot update
`x -> chk_map[(x + map_num + i) % 63]` is one-to-one on the values below 63, stays below 63
and reaches every value below 63. -/
theorem substitution_changes_slots (pre post : List Char) (a b : Char)
    (ha : a ∈ chk_source) (hb : b ∈ chk_source) (hab : a ≠ b) :
    (chksum_string chksum_reset (pre ++ a :: post)).index =
      (chksum_string chksum_reset (pre ++ b :: post)).index ∧
    (∀ i, i < 6 → (chksum_string chksum_reset (pre ++ a :: post)).num.getD i 0 ≠
      (chksum_string chksum_reset (pre ++ b :: post)).num.getD i 0) ∧
    (∀ j k, j < 63 → k < 63 → chk_map.getD j 0 = chk_map.getD k 0 → j = k) ∧
    (∀ m i x y, x < 63 → y < 63 →
      chk_map.getD ((x + m + i) % CHK_CHARS) 0 = chk_map.getD ((y + m + i) % CHK_CHARS) 0 →
      x = y) ∧
    (∀ m i x, chk_map.getD ((x + m + i) % CHK_CHARS) 0 < 63) ∧
    (∀ m i v, v < 63 → ∃ x, x < 63 ∧ chk_map.getD ((x + m + i) % CHK_CHARS) 0 = v) := by
  obtain ⟨hidx, _, _, hd⟩ := substitution_states pre post a b ha hb hab
  refine ⟨hidx, hd, chk_map_inj, ?_, ?_, slot_update_onto⟩
  · intro m i x y hx hy h
    by_contra hxy
    exact slot_ne_of_slot_ne x y m i hx hy hxy h
  · intro m i x
    exact chk_map_getD_lt _

set_option maxRecDepth 1000000 in
theorem substitution_changes_slots_witness :
    (chksum_string chksum_reset ([] ++ '4' :: "H4qJw".toList)).index =
      (chksum_string chksum_reset ([] ++ 'L' :: "H4qJw".toList)).index ∧
    (chksum_string chksum_reset ([] ++ '4' :: "H4qJw".toList)).num.getD 0 0 ≠
      (chksum_string chksum_reset ([] ++ 'L' :: "H4qJw".toList)).num.getD 0 0 :=
  ⟨(substitution_changes_slots [] "H4qJw".toList '4' 'L' (by decide) (by decide)
      (by decide)).1,
   (substitution_changes_slots [] "H4qJw".toList '4' 'L' (by decide) (by decide)
      (by decide)).2.1 0 (by decide)⟩


/-! ## Theorems: the autosaves -/

/-- C33: the quit message and the failure of the message loop call `igc_write_file` exactly
when more than `IGC_MIN_RECORDS` = 4 positions are stored, so a log with exactly 4 positions
is not saved; a log file is added exactly when in addition `igc_write_file` produces its
document; after the quit message with more than 4 positions the count of stored positions
is 0, otherwise (and after a failure of the message loop in every case) the stored positions
are kept. -/
theorem autosave_threshold (w : Sim) (a : App) :
    IGC_MIN_RECORDS = 4 ∧
    (a.g.igc_pos.length ≤ 4 →
      MyDispatchProcSO w a Recv.QUIT = some { a with quit := 1 } ∧
      on_dispatch_failure w a = a ∧
      finalize w.env a.g FinalizeReason.autosave_on_quit = none ∧
      finalize w.env a.g FinalizeReason.autosave_on_crash = none) ∧
    (4 < a.g.igc_pos.length →
      MyDispatchProcSO w a Recv.QUIT =
        some { a with files := write_log w a, g := igc_reset_log a.g, quit := 1 } ∧
      (igc_reset_log a.g).igc_pos.length = 0 ∧
      on_dispatch_failure w a = { a with files := write_log w a } ∧
      finalize w.env a.g FinalizeReason.autosave_on_quit = igc_write_file w.env a.g ∧
      finalize w.env a.g FinalizeReason.autosave_on_crash = igc_write_file w.env a.g) ∧
    (∀ doc, igc_write_file w.env a.g = some doc → write_log w a = a.files ++ [doc]) ∧
    (igc_write_file w.env a.g = none → write_log w a = a.files) := by
  refine ⟨rfl, ?_, ?_, ?_, ?_⟩
  · intro h
    have hn : ¬ a.g.igc_pos.length > IGC_MIN_RECORDS := by
      simp only [IGC_MIN_RECORDS]; omega
    refine ⟨?_, ?_, ((finalize_autosave w.env a.g).1 h).1, ((finalize_autosave w.env a.g).1 h).2⟩
    · simp only [MyDispatchProcSO, on_quit, if_neg hn]
    · simp only [on_dispatch_failure, if_neg hn]
  · intro h
    have hp : a.g.igc_pos.length > IGC_MIN_RECORDS := by
      simp only [IGC_MIN_RECORDS]; omega
    refine ⟨?_, rfl, ?_, (finalize_autosave w.env a.g).2.1 h _,
      (finalize_autosave w.env a.g).2.1 h _⟩
    · simp only [MyDispatchProcSO, on_quit, if_pos hp]
    · simp only [on_dispatch_failure, if_pos hp]
  · intro doc h
    simp only [write_log, h]
  · intro h
    simp only [write_log, h]

set_option maxRecDepth 1000000 in
theorem autosave_threshold_witness :
    ({ sample_app with g := session_with 4 } : App).g.igc_pos.length ≤ 4 ∧
    MyDispatchProcSO sample_sim { sample_app with g := session_with 4 } Recv.QUIT =
      some { ({ sample_app with g := session_with 4 } : App) with quit := 1 } ∧
    4 < sample_app.g.igc_pos.length ∧
    MyDispatchProcSO sample_sim sample_app Recv.QUIT =
      some { sample_app with
        files := write_log sample_sim sample_app, g := igc_reset_log sample_app.g, quit := 1 } :=
  ⟨by decide,
   ((autosave_threshold sample_sim { sample_app with g := session_with 4 }).2.1
      (by decide)).1,
   by decide,
   ((autosave_threshold sample_sim sample_app).2.2.1 (by decide)).1⟩


/-! ## Theorems: the takeoff time -/

theorem ground_check_time (n : Nat) (st : GroundState) (g t : Int) :
    (igc_ground_check n st g t).2 = GroundEvent.takeoff ∧
      (igc_ground_check n st g t).1.igc_takeoff_time = t ∧ 2 ≤ n ∧
      st.igc_prev_on_ground ≠ 0 ∧ g = 0 ∨
    (igc_ground_check n st g t).2 ≠ GroundEvent.takeoff ∧
      (igc_ground_check n st g t).1.igc_takeoff_time = st.igc_takeoff_time := by
  unfold igc_ground_check
  split_ifs with h1 h2 h3
  · exact Or.inr ⟨by simp, rfl⟩
  · exact Or.inl ⟨rfl, rfl, by omega, h2.1, h2.2⟩
  · exact Or.inr ⟨by simp, rfl⟩
  · exact Or.inr ⟨by simp, rfl⟩

theorem ground_check_early_airborne (n : Nat) (st : GroundState) (t : Int) (hn : n < 2) :
    igc_ground_check n st 0 t = ({ st with igc_prev_on_ground := 0 }, GroundEvent.quiet) := by
  unfold igc_ground_check
  rw [if_pos hn]

theorem ground_run_early (early : List (Nat × Int × Int)) (st : GroundState)
    (hearly : ∀ c ∈ early, c.1 < 2 ∧ c.2.1 = 0)
    (h0 : early ≠ [] ∨ st.igc_prev_on_ground = 0) :
    ground_run st early = { st with igc_prev_on_ground := 0 } := by
  induction early generalizing st with
  | nil =>
    rcases h0 with h | h
    · exact absurd rfl h
    · cases st
      simp only at h
      subst h
      rfl
  | cons c rest ih =>
    obtain ⟨h1, h2⟩ := hearly c (by simp)
    have hstep : igc_ground_check c.1 st c.2.1 c.2.2 =
        ({ st with igc_prev_on_ground := 0 }, GroundEvent.quiet) := by
      rw [h2]; exact ground_check_early_airborne c.1 st c.2.2 h1
    have := ih { st with igc_prev_on_ground := 0 } (fun d hd => hearly d (by simp [hd]))
      (Or.inr rfl)
    simp only [ground_run, List.foldl_cons, hstep] at this ⊢
    exact this

/-- C34: `igc_ground_check` changes the takeoff time only in a call that detects a takeoff,
which needs at least 2 stored positions, a remembered on-ground flag and an airborne sample,
and then sets it to the time of that sample.  Hence if the samples are airborne while fewer
than 2 positions are stored and stay airborne afterwards, the takeoff time keeps the value
it had before, and the first on-ground sample is detected as a landing exactly when its time
minus that old value exceeds 80, whatever the times of the airborne samples were. -/
theorem stale_takeoff_time (st : GroundState) (early air : List (Nat × Int × Int))
    (n : Nat) (g t : Int)
    (hearly : ∀ c ∈ early, c.1 < 2 ∧ c.2.1 = 0)
    (h0 : early ≠ [] ∨ st.igc_prev_on_ground = 0)
    (hair : ∀ c ∈ air, 2 ≤ c.1 ∧ c.2.1 = 0) (hn : 2 ≤ n) (hg : g ≠ 0) :
    (∀ (n1 : Nat) (s1 : GroundState) (g1 t1 : Int),
      (igc_ground_check n1 s1 g1 t1).1.igc_takeoff_time ≠ s1.igc_takeoff_time →
      (igc_ground_check n1 s1 g1 t1).2 = GroundEvent.takeoff ∧
      (igc_ground_check n1 s1 g1 t1).1.igc_takeoff_time = t1 ∧
      2 ≤ n1 ∧ s1.igc_prev_on_ground ≠ 0 ∧ g1 = 0) ∧
    (ground_run st (early ++ air)).igc_takeoff_time = st.igc_takeoff_time ∧
    (ground_run st (early ++ air)).igc_prev_on_ground = 0 ∧
    ((igc_ground_check n (ground_run st (early ++ air)) g t).2 = GroundEvent.landing ↔
      t - st.igc_takeoff_time > 80) ∧
    ((igc_ground_check n (ground_run st (early ++ air)) g t).2 ≠ GroundEvent.landing →
      (igc_ground_check n (ground_run st (early ++ air)) g t).2 = GroundEvent.quiet) := by
  have hrun : ground_run st (early ++ air) = { st with igc_prev_on_ground := 0 } := by
    have e1 := ground_run_early early st hearly h0
    have e2 := ground_run_airborne air { st with igc_prev_on_ground := 0 } hair rfl
    simp only [ground_run, List.foldl_append] at e1 e2 ⊢
    rw [e1, e2]
  refine ⟨?_, by rw [hrun], by rw [hrun], ?_, ?_⟩
  · intro n1 s1 g1 t1 hne
    rcases ground_check_time n1 s1 g1 t1 with h | h
    · exact h
    · exact absurd h.2 hne
  · rw [hrun]
    exact (ground_check_landing n { st with igc_prev_on_ground := 0 } g t hn hg rfl).1
  · rw [hrun]
    exact (ground_check_landing n { st with igc_prev_on_ground := 0 } g t hn hg rfl).2

theorem stale_takeoff_time_witness :
    (ground_run ⟨0, 0⟩ ([(0, 0, 43200), (1, 0, 43201)] ++ [(2, 0, 43204)])).igc_takeoff_time
      = 0 ∧
    ((igc_ground_check 2
        (ground_run ⟨0, 0⟩ ([(0, 0, 43200), (1, 0, 43201)] ++ [(2, 0, 43204)])) 1 43210).2
      = GroundEvent.landing ↔ (43210 : Int) - 0 > 80) :=
  ⟨(stale_takeoff_time ⟨0, 0⟩ [(0, 0, 43200), (1, 0, 43201)] [(2, 0, 43204)] 2 1 43210
      (by decide) (by decide) (by decide) (by decide) (by decide)).2.1,
   (stale_takeoff_time ⟨0, 0⟩ [(0, 0, 43200), (1, 0, 43201)] [(2, 0, 43204)] 2 1 43210
      (by decide) (by decide) (by decide) (by decide) (by decide)).2.2.2.1⟩


/-! ## Theorems: short file names -/

theorem path_scan_found2 (path : List Char) (i : Nat) (f1 : Bool) :
    path_scan path i f1 true = i := by
  cases i with
  | zero => rfl
  | succ i => simp [path_scan]

theorem getD_append_mid (A B : List Char) (c : Char) :
    (A ++ c :: B).getD A.length ' ' = c := by
  rw [List.getD_eq_getElem?_getD, List.getElem?_append_right (le_refl _), Nat.sub_self,
    List.getElem?_cons_zero, Option.getD_some]

theorem path_scan_skip (A B suf : List Char) (f1 : Bool) (hB : '\\' ∉ B) :
    path_scan (A ++ B ++ suf) (A.length + B.length) f1 false =
      path_scan (A ++ B ++ suf) A.length f1 false := by
  induction B using List.reverseRecOn generalizing suf with
  | nil => simp
  | append_singleton B c ih =>
    have hc : c ≠ '\\' := fun e => hB (by simp [e])
    have hB2 : '\\' ∉ B := fun e => hB (by simp [e])
    have e1 : A ++ (B ++ [c]) ++ suf = (A ++ B) ++ c :: suf := by simp
    have e2 : A.length + (B ++ [c]).length = (A ++ B).length + 1 := by simp; omega
    have hget : ((A ++ B) ++ c :: suf).getD (A ++ B).length ' ' = c := getD_append_mid _ _ _
    rw [e1, e2]
    simp only [path_scan, hget, hc, if_false, Bool.false_eq_true]
    have := ih (c :: suf) hB2
    have e3 : A ++ B ++ c :: suf = A ++ B ++ (c :: suf) := rfl
    rw [List.length_append]
    exact this

theorem path_scan_backslash (A suf : List Char) (f1 : Bool) :
    path_scan (A ++ '\\' :: suf) (A.length + 1) f1 false =
      if f1 then A.length else path_scan (A ++ '\\' :: suf) A.length true false := by
  have hget : (A ++ '\\' :: suf).getD A.length ' ' = '\\' := getD_append_mid _ _ _
  cases f1 with
  | true =>
    simp only [path_scan, hget, Bool.false_eq_true, if_false, if_true, Bool.not_true,
      path_scan_found2]
  | false =>
    simp only [path_scan, hget, Bool.false_eq_true, if_false, if_true, Bool.not_false]

theorem path_scan_none (path : List Char) (f1 : Bool) (h : '\\' ∉ path) :
    path_scan path path.length f1 false = 0 := by
  have := path_scan_skip [] path [] f1 h
  simp only [List.nil_append, List.append_nil, List.length_nil, Nat.zero_add] at this
  rw [this]
  rfl

theorem path_scan_two (pre folder file : List Char) (h1 : '\\' ∉ folder) (h2 : '\\' ∉ file) :
    path_scan (pre ++ '\\' :: folder ++ '\\' :: file)
      (pre ++ '\\' :: folder ++ '\\' :: file).length false false = pre.length := by
  have s1 := path_scan_skip (pre ++ '\\' :: folder ++ ['\\']) file [] false h2
  have e1 : pre ++ '\\' :: folder ++ ['\\'] ++ file ++ [] = pre ++ '\\' :: folder ++ '\\' :: file := by
    simp
  have e2 : (pre ++ '\\' :: folder ++ ['\\']).length + file.length =
      (pre ++ '\\' :: folder ++ '\\' :: file).length := by simp; omega
  rw [e1, e2] at s1
  rw [s1]
  have e3 : (pre ++ '\\' :: folder ++ ['\\']).length = (pre ++ '\\' :: folder).length + 1 := by
    simp only [List.length_append, List.length_cons, List.length_nil]
  rw [e3]
  have b1 := path_scan_backslash (pre ++ '\\' :: folder) file false
  simp only [Bool.false_eq_true, if_false] at b1
  rw [b1]
  have s2 := path_scan_skip (pre ++ ['\\']) folder ('\\' :: file) true h1
  have e4 : pre ++ ['\\'] ++ folder ++ '\\' :: file = pre ++ '\\' :: folder ++ '\\' :: file := by
    simp
  have e5 : (pre ++ ['\\']).length + folder.length = (pre ++ '\\' :: folder).length := by
    simp; omega
  rw [e4, e5] at s2
  rw [s2]
  have e6 : (pre ++ ['\\']).length = pre.length + 1 := by simp
  have e7 : pre ++ '\\' :: folder ++ '\\' :: file = pre ++ '\\' :: (folder ++ '\\' :: file) := by
    simp
  rw [e6, e7]
  have b2 := path_scan_backslash pre (folder ++ '\\' :: file) true
  simp only [if_true] at b2
  exact b2

theorem path_scan_one (pre file : List Char) (h1 : '\\' ∉ pre) (h2 : '\\' ∉ file) :
    path_scan (pre ++ '\\' :: file) (pre ++ '\\' :: file).length false false = 0 := by
  have s1 := path_scan_skip (pre ++ ['\\']) file [] false h2
  have e1 : pre ++ ['\\'] ++ file ++ [] = pre ++ '\\' :: file := by simp
  have e2 : (pre ++ ['\\']).length + file.length = (pre ++ '\\' :: file).length := by
    simp; omega
  rw [e1, e2] at s1
  rw [s1]
  have e3 : (pre ++ ['\\']).length = pre.length + 1 := by simp
  rw [e3]
  have b1 := path_scan_backslash pre file false
  simp only [Bool.false_eq_true, if_false] at b1
  rw [b1]
  have s2 := path_scan_skip [] pre ('\\' :: file) true h1
  simp only [List.nil_append, List.length_nil, Nat.zero_add] at s2
  rw [s2]
  rfl


theorem split_last_backslash (l : List Char) (h : '\\' ∈ l) :
    ∃ A B, l = A ++ '\\' :: B ∧ '\\' ∉ B := by
  induction l using List.reverseRecOn with
  | nil => exact absurd h (List.not_mem_nil _)
  | append_singleton init c ih =>
    by_cases hc : c = '\\'
    · exact ⟨init, [], by rw [hc], List.not_mem_nil _⟩
    · have hin : '\\' ∈ init := by
        rcases List.mem_append.mp h with h1 | h1
        · exact h1
        · simp only [List.mem_singleton] at h1
          exact absurd h1.symm hc
      obtain ⟨A, B, e, hB⟩ := ih hin
      refine ⟨A, B ++ [c], by rw [e]; simp, ?_⟩
      intro hm
      rcases List.mem_append.mp hm with h1 | h1
      · exact hB h1
      · simp only [List.mem_singleton] at h1
        exact hc h1.symm

theorem count_split (A B : List Char) (hB : '\\' ∉ B) :
    (A ++ '\\' :: B).count '\\' = A.count '\\' + 1 := by
  rw [List.count_append, List.count_cons_self, List.count_eq_zero_of_not_mem hB]

/-- C36: for a path that `_access_s` does not find, `path_to_name` gives "not found"; for a
path that it finds, the name is the part of the path after its second-to-last backslash
(folder, backslash, file name) when the path holds at least two backslashes, and the path
without its first character when the path is not empty and holds fewer than two. -/
theorem path_to_name_spec (file_exists : List Char → Bool) (path : List Char) :
    (file_exists path = false → path_to_name file_exists path = "not found".toList) ∧
    (file_exists path = true →
      (∀ pre folder file : List Char, path = pre ++ '\\' :: folder ++ '\\' :: file →
        '\\' ∉ folder → '\\' ∉ file → path_to_name file_exists path = folder ++ '\\' :: file) ∧
      (2 ≤ path.count '\\' → ∃ pre folder file : List Char,
        path = pre ++ '\\' :: folder ++ '\\' :: file ∧ '\\' ∉ folder ∧ '\\' ∉ file) ∧
      (path ≠ [] → path.count '\\' < 2 → path_to_name file_exists path = path.drop 1)) := by
  constructor
  · intro h
    simp [path_to_name, h]
  · intro h
    have hdef : path_to_name file_exists path =
        path.drop (path_scan path path.length false false + 1) := by
      simp [path_to_name, h]
    refine ⟨?_, ?_, ?_⟩
    · intro pre folder file e h1 h2
      rw [hdef, e, path_scan_two pre folder file h1 h2]
      have : pre ++ '\\' :: folder ++ '\\' :: file =
          (pre ++ ['\\']) ++ (folder ++ '\\' :: file) := by simp
      rw [this, List.drop_left' (by simp)]
    · intro hc
      have hmem : '\\' ∈ path := List.count_pos_iff.mp (by omega)
      obtain ⟨A, file, e, hfile⟩ := split_last_backslash path hmem
      have hA : 1 ≤ A.count '\\' := by
        rw [e, count_split A file hfile] at hc
        omega
      obtain ⟨pre, folder, e2, hfolder⟩ := split_last_backslash A (List.count_pos_iff.mp hA)
      exact ⟨pre, folder, file, by rw [e, e2], hfolder, hfile⟩
    · intro _ hc
      rw [hdef]
      by_cases hmem : '\\' ∈ path
      · obtain ⟨A, file, e, hfile⟩ := split_last_backslash path hmem
        have hA : '\\' ∉ A := by
          rw [e, count_split A file hfile] at hc
          exact List.count_eq_zero.mp (by omega)
        rw [e, path_scan_one A file hA hfile]
      · rw [path_scan_none path false hmem]

theorem path_to_name_spec_witness :
    path_to_name (fun _ => true) "C:\\FSX\\flights\\task.FLT".toList =
      "flights\\task.FLT".toList ∧
    path_to_name (fun _ => true) "flights\\task.FLT".toList = "lights\\task.FLT".toList ∧
    path_to_name (fun _ => false) "C:\\FSX\\flights\\task.FLT".toList = "not found".toList :=
  ⟨((path_to_name_spec (fun _ => true) "C:\\FSX\\flights\\task.FLT".toList).2 rfl).1
      "C:\\FSX".toList "flights".toList "task.FLT".toList rfl (by decide) (by decide),
   ((path_to_name_spec (fun _ => true) "flights\\task.FLT".toList).2 rfl).2.2
      (by decide) (by decide),
   (path_to_name_spec (fun _ => false) "C:\\FSX\\flights\\task.FLT".toList).1 rfl⟩


/-! ## Theorems: section headers in upper case -/

set_option maxRecDepth 1000000 in
theorem perf_chars_lower : ∀ sl ∈ perf_strings, ∀ c ∈ sl.1,
    c.toUpper.toLower = c ∧ c.toLower = c := by
  decide

set_option maxRecDepth 1000000 in
theorem perf_strings_distinct : ∀ sl ∈ perf_strings, ∀ sl2 ∈ perf_strings,
    sl.1.take (min sl.2 sl2.2) = sl2.1.take (min sl.2 sl2.2) → sl = sl2 := by
  decide

set_option maxRecDepth 1000000 in
theorem perf_strings_head : ∀ sl ∈ perf_strings,
    sl.2 ≤ sl.1.length ∧ (sl.1.take sl.2).head? = some '[' := by
  decide

theorem perf_strings_bracket (sl : List Char × Nat) (h : sl ∈ perf_strings) :
    sl.2 ≤ sl.1.length ∧ ∃ t, sl.1.take sl.2 = '[' :: t := by
  obtain ⟨h1, h2⟩ := perf_strings_head sl h
  refine ⟨h1, ?_⟩
  cases hl : sl.1.take sl.2 with
  | nil => rw [hl] at h2; simp at h2
  | cons c t =>
    rw [hl] at h2
    simp only [List.head?_cons, Option.some.injEq] at h2
    exact ⟨t, by rw [h2]⟩

theorem capitalize_length (mask : List Bool) (cs : List Char) :
    (capitalize mask cs).length = cs.length := by
  induction mask generalizing cs with
  | nil => cases cs <;> rfl
  | cons b mask ih =>
    cases cs with
    | nil => rfl
    | cons c cs => simp [capitalize, ih]

theorem capitalize_lower (mask : List Bool) (cs : List Char)
    (h : ∀ c ∈ cs, c.toUpper.toLower = c ∧ c.toLower = c) :
    (capitalize mask cs).map Char.toLower = cs := by
  induction mask generalizing cs with
  | nil =>
    have e : capitalize [] cs = cs := by cases cs <;> rfl
    rw [e]
    conv_rhs => rw [← List.map_id cs]
    exact List.map_congr_left (fun c hc => (h c hc).2)
  | cons b mask ih =>
    cases cs with
    | nil => rfl
    | cons c cs =>
      have hc := h c (by simp)
      have ht := ih cs (fun x hx => h x (by simp [hx]))
      cases b with
      | true => simp only [capitalize, if_true, List.map_cons, hc.1, ht]
      | false =>
        simp only [capitalize, Bool.false_eq_true, if_false, List.map_cons, hc.2, ht]

theorem capitalize_bracket (mask : List Bool) (t : List Char) :
    ∃ u, capitalize mask ('[' :: t) = '[' :: u := by
  cases mask with
  | nil => exact ⟨t, rfl⟩
  | cons b mask =>
    cases b with
    | true => exact ⟨capitalize mask t, by simp only [capitalize, if_true]; rfl⟩
    | false => exact ⟨capitalize mask t, by simp only [capitalize, Bool.false_eq_true, if_false]⟩

theorem perf_match_capitalized (s : List Char) (n : Nat) (mask : List Bool) (k : Nat)
    (rest : List Char) (hsl : (s, n) ∈ perf_strings) (hk : k < 10)
    (hup : capitalize mask (s.take n) ≠ s.take n) :
    perf_match (List.replicate k ' ' ++ capitalize mask (s.take n) ++ rest) = false ∧
    is_header (List.replicate k ' ' ++ capitalize mask (s.take n) ++ rest) = true := by
  obtain ⟨hn, t, ht⟩ := perf_strings_bracket (s, n) hsl
  simp only at hn ht
  obtain ⟨u, hu⟩ := capitalize_bracket mask t
  have hlen : (capitalize mask (s.take n)).length = n := by
    rw [capitalize_length, List.length_take, Nat.min_eq_left hn]
  have hline : List.replicate k ' ' ++ capitalize mask (s.take n) ++ rest =
      List.replicate k ' ' ++ '[' :: (u ++ rest) := by
    rw [ht, hu]; simp
  have hsb : starts_bracket (List.replicate k ' ' ++ capitalize mask (s.take n) ++ rest) =
      (k : Int) := (starts_bracket_iff _ k).mpr ⟨hk, u ++ rest, hline⟩
  refine ⟨?_, ?_⟩
  · by_contra hm
    have hm2 : perf_match (List.replicate k ' ' ++ capitalize mask (s.take n) ++ rest) = true := by
      simpa using hm
    obtain ⟨k2, rest2, hk2, hline2, sl2, hsl2, htake⟩ := (perf_match_iff _).mp hm2
    have hsb2 := (starts_bracket_iff _ k2).mpr ⟨hk2, rest2, hline2⟩
    have hkk : k2 = k := by
      have : (k2 : Int) = (k : Int) := by rw [← hsb2, hsb]
      exact Int.ofNat.inj this
    subst hkk
    have hbody : '[' :: rest2 = capitalize mask (s.take n) ++ rest := by
      have := hline2
      rw [List.append_assoc] at this
      exact (List.append_cancel_left this).symm
    rw [hbody] at htake
    have h1 : (capitalize mask (s.take n)).take (min n sl2.2) = sl2.1.take (min n sl2.2) := by
      have := congrArg (List.take (min n sl2.2)) htake
      rw [List.take_take, List.take_take, Nat.min_eq_left (Nat.min_le_right _ _),
        List.take_append_of_le_length (by rw [hlen]; exact Nat.min_le_left _ _)] at this
      exact this
    have h2 := congrArg (List.map Char.toLower) h1
    rw [List.map_take, List.map_take,
      capitalize_lower mask (s.take n)
        (fun c hc => perf_chars_lower (s, n) hsl c (List.mem_of_mem_take hc)),
      List.take_take, Nat.min_eq_left (Nat.min_le_left _ _)] at h2
    have h3 : sl2.1.map Char.toLower = sl2.1 := by
      conv_rhs => rw [← List.map_id sl2.1]
      exact List.map_congr_left (fun c hc => (perf_chars_lower sl2 hsl2 c hc).2)
    rw [h3] at h2
    have heq := perf_strings_distinct (s, n) hsl sl2 hsl2 h2
    subst heq
    simp only [Nat.min_self] at h1
    rw [List.take_of_length_le (by rw [hlen])] at h1
    exact hup h1
  · simp only [is_header, hsb, decide_eq_true_eq]
    exact Int.natCast_nonneg k

/-- C35: section headers are matched with their letters as written.  For every pair
(prefix, n) of the list and every line that is less than 10 blanks followed by the first n
characters of the prefix with at least one of them turned to upper case, whatever follows,
the comparison with that pair fails and `perf_match` answers false, since no other pair
matches such a line; the line still counts as a section header, so the data lines after it
are not absorbed into the fingerprint.  Examples: "[FLAPS.1]" and "[Flight_Tuning]"; a data
line after "[FLAPS.1]" does not change the fingerprint, after "[flaps.1]" it does. -/
theorem perf_match_case_sensitive (s : List Char) (n : Nat) (mask : List Bool) (k : Nat)
    (rest : List Char) (hsl : (s, n) ∈ perf_strings) (hk : k < 10)
    (hup : capitalize mask (s.take n) ≠ s.take n) :
    strncmp_eq n (capitalize mask (s.take n) ++ rest) s = false ∧
    perf_match (List.replicate k ' ' ++ capitalize mask (s.take n) ++ rest) = false ∧
    is_header (List.replicate k ' ' ++ capitalize mask (s.take n) ++ rest) = true ∧
    (∀ before ds : List (List Char), (∀ l ∈ ds, is_header l = false) →
      absorbed_lines
        (before ++ [List.replicate k ' ' ++ capitalize mask (s.take n) ++ rest]) ds = []) ∧
    perf_match "[FLAPS.1]\n".toList = false ∧ perf_match "[Flight_Tuning]\n".toList = false ∧
    chksum_cfg_file (some "[FLAPS.1]\nlift_scalar=1.0\n".toList) =
      chksum_cfg_file (some "[FLAPS.1]\n".toList) ∧
    chksum_cfg_file (some "[flaps.1]\nlift_scalar=1.0\n".toList) ≠
      chksum_cfg_file (some "[flaps.1]\n".toList) := by
  obtain ⟨hpm, hh⟩ := perf_match_capitalized s n mask k rest hsl hk hup
  have hn := (perf_strings_bracket (s, n) hsl).1
  simp only at hn
  have hlen : (capitalize mask (s.take n)).length = n := by
    rw [capitalize_length, List.length_take, Nat.min_eq_left hn]
  refine ⟨?_, hpm, hh, ?_, by decide, by decide, by decide, by decide⟩
  · cases hc : strncmp_eq n (capitalize mask (s.take n) ++ rest) s with
    | false => rfl
    | true =>
      rw [strncmp_eq_iff, List.take_left' hlen] at hc
      exact absurd hc hup
  · intro before ds hds
    rw [absorbed_lines_data _ ds hds, last_header_matches_append_header before _ hh, hpm]
    rfl

set_option maxRecDepth 1000000 in
theorem perf_match_case_sensitive_witness :
    capitalize [false, true, true, true] ("[flaps.".toList.take 4) = "[FLA".toList ∧
    perf_match (List.replicate 0 ' ' ++
      capitalize [false, true, true, true] ("[flaps.".toList.take 4) ++ "PS.1]\n".toList)
      = false :=
  ⟨by decide,
   (perf_match_case_sensitive "[flaps.".toList 4 [false, true, true, true] 0 "PS.1]\n".toList
      (by decide) (by decide) (by decide)).2.1⟩


/-! ## Theorems: verification ignores what follows the checksum -/

theorem fgets_scan_take (T : List Char) : ∀ (n : Nat) (X : List Char),
    '\n' ∉ T.dropLast → T.length ≤ n → ((fgets_scan n (T ++ X)).1).take T.length = T := by
  induction T with
  | nil => intro n X _ _; simp
  | cons c T ih =>
    intro n X hT hn
    obtain ⟨m, rfl⟩ : ∃ m, n = m + 1 := ⟨n - 1, by simp at hn; omega⟩
    cases T with
    | nil =>
      by_cases hc : c = '\n'
      · simp [fgets_scan, hc]
      · simp [fgets_scan, hc]
    | cons d T =>
      rw [List.dropLast_cons₂] at hT
      have hc : c ≠ '\n' := fun e => hT (by simp [e])
      have hT2 : '\n' ∉ (d :: T).dropLast := fun e => hT (List.mem_cons_of_mem _ e)
      have := ih m X hT2 (by simp at hn ⊢; omega)
      simp only [List.cons_append, fgets_scan, hc, if_false, List.length_cons, List.take_succ_cons]
      simp only [List.cons_append, List.length_cons] at this
      exact congrArg (List.cons c) this

theorem cstr_cons (c : Char) (L : List Char) :
    cstr (c :: L) = if c = '\x00' then [] else c :: cstr L := by
  unfold cstr
  by_cases h : c = '\x00'
  · simp [h]
  · simp [h]

theorem cstr_take_eq (k : Nat) : ∀ (L M : List Char), k ≤ (cstr L).length →
    M.take k = L.take k → k ≤ (cstr M).length ∧ (cstr M).take k = (cstr L).take k := by
  induction k with
  | zero => intro L M _ _; simp
  | succ k ih =>
    intro L M h e
    cases L with
    | nil => simp [cstr] at h
    | cons c L =>
      rw [cstr_cons] at h ⊢
      by_cases hc : c = '\x00'
      · rw [if_pos hc] at h; simp at h
      · rw [if_neg hc] at h ⊢
        cases M with
        | nil => simp at e
        | cons d M =>
          simp only [List.take_succ_cons, List.cons.injEq] at e
          obtain ⟨e1, e2⟩ := e
          subst e1
          rw [cstr_cons, if_neg hc]
          have := ih L M (by simpa using h) e2
          simp only [List.length_cons, List.take_succ_cons]
          exact ⟨by omega, by rw [this.2]⟩

theorem chksum_matches_take (chksum l1 l2 : List Char) (hc : chksum.length = 6)
    (h1 : 7 ≤ l1.length) (h2 : 7 ≤ l2.length) (e : l2.take 7 = l1.take 7) :
    chksum_matches chksum l2 = chksum_matches chksum l1 := by
  have key : ∀ l : List Char, (l.drop 1).take 6 = (l.take 7).drop 1 := by
    intro l
    cases l with
    | nil => rfl
    | cons x t => simp
  have i1 := chksum_matches_iff chksum l1 hc h1
  have i2 := chksum_matches_iff chksum l2 hc h2
  rw [key] at i1 i2
  rw [e] at i2
  cases h : chksum_matches chksum l1 with
  | true => exact i2.mpr (i1.mp h)
  | false =>
    cases h' : chksum_matches chksum l2 with
    | false => rfl
    | true => rw [i1.mpr (i2.mp h')] at h; exact absurd h (by simp)

theorem igc_result_same (buf0 buf1 doc doc2 : List Char) (pre post post2 : List (List Char))
    (L L2 : List Char) (hls : fgets_lines doc = pre ++ L :: post)
    (hls2 : fgets_lines doc2 = pre ++ L2 :: post2)
    (hpre : ∀ l ∈ pre, l.head? ≠ some 'G') (hL : L.head? = some 'G')
    (hlen : 7 ≤ (cstr L).length) (e : L2.take 7 = L.take 7) :
    chksum_igc_file buf1 (some doc2) = chksum_igc_file buf0 (some doc) ∧
    (chksum_igc_file buf0 (some doc) = CHKSUM_RESULT.CHKSUM_OK ∨
      chksum_igc_file buf0 (some doc) = CHKSUM_RESULT.CHKSUM_BAD) := by
  have hL2 : L2.head? = some 'G' := by
    have a1 : ∀ l : List Char, (l.take 7).head? = l.head? := by
      intro l; cases l <;> rfl
    rw [← a1 L2, e, a1 L, hL]
  obtain ⟨hlen2, etake⟩ := cstr_take_eq 7 L L2 hlen e
  have r1 := igc_result_of_found doc buf0 pre post L hls hpre hL
  have r2 := igc_result_of_found doc2 buf1 pre post2 L2 hls2 hpre hL2
  have hm := chksum_matches_take (checksum (pre.map cstr).flatten) (cstr L) (cstr L2)
    (chksum_to_string_length _) hlen hlen2 etake
  rw [if_neg (by omega)] at r1 r2
  rw [hm] at r2
  refine ⟨by rw [r1, r2], ?_⟩
  rw [r1]
  split
  · exact Or.inl rfl
  · exact Or.inr rfl


theorem fgets_line_newline (doc : List Char) (pre post : List (List Char)) (L : List Char)
    (hls : fgets_lines doc = pre ++ L :: post) : L ≠ [] ∧ '\n' ∉ L.dropLast := by
  have hflat : pre.flatten ++ (L :: post).flatten = doc := by
    have := fgets_lines_flatten doc
    rw [hls, List.flatten_append] at this
    exact this
  have hLne : L ≠ [] := by
    intro e
    have hmem : L ∈ fgets_lines doc := by rw [hls]; simp
    have hall : ∀ (fuel : Nat) (file : List Char), ∀ l ∈ fgets_lines_fuel fuel file, l ≠ [] := by
      intro fuel
      induction fuel with
      | zero => intro file l hl; simp [fgets_lines_fuel] at hl
      | succ fuel ih =>
        intro file l hl
        cases hf : fgets file with
        | none => simp [fgets_lines_fuel, hf] at hl
        | some lr =>
          obtain ⟨line, rest⟩ := lr
          simp only [fgets_lines_fuel, hf, List.mem_cons] at hl
          rcases hl with h1 | h1
          · rw [h1]; exact (fgets_some file line rest hf).1
          · exact ih rest l h1
    exact hall _ doc L hmem e
  have hR : (L :: post).flatten ≠ [] := by
    simp [hLne]
  have hb := fgets_lines_before pre doc L post (L :: post).flatten hls hR
  rw [hflat, hls] at hb
  have hRl : fgets_lines (L :: post).flatten = L :: post := (List.append_cancel_left hb).symm
  obtain ⟨rest, hf, _⟩ := fgets_of_lines_cons _ L post hRl
  rw [fgets_of_ne_nil _ hR] at hf
  simp only [Option.some.injEq] at hf
  have hL1 : (fgets_scan (MAXBUF - 1) (L :: post).flatten).1 = L := by rw [hf]
  refine ⟨hLne, ?_⟩
  rw [← hL1]
  exact fgets_scan_newline _ _

/-- C32: verification looks at nothing after the checksum.  For every document whose first
line beginning with 'G' holds, as a string, at least 7 characters, the document is the lines
before that line, the first 7 characters of that line and a rest; `chksum_igc_file` gives
the same answer, CHKSUM_OK or CHKSUM_BAD, for the document and for every document in which
the rest is replaced by any characters at all, and for every document whose lines up to that
line are the same and whose first line beginning with 'G' has the same first 7
characters. -/
theorem verification_ignores_rest (buf0 buf1 doc : List Char) (pre post : List (List Char))
    (L X : List Char) (hls : fgets_lines doc = pre ++ L :: post)
    (hpre : ∀ l ∈ pre, l.head? ≠ some 'G') (hL : L.head? = some 'G')
    (hlen : 7 ≤ (cstr L).length) :
    doc = pre.flatten ++ L.take 7 ++ (L.drop 7 ++ post.flatten) ∧
    chksum_igc_file buf1 (some (pre.flatten ++ L.take 7 ++ X)) =
      chksum_igc_file buf0 (some doc) ∧
    (chksum_igc_file buf0 (some doc) = CHKSUM_RESULT.CHKSUM_OK ∨
      chksum_igc_file buf0 (some doc) = CHKSUM_RESULT.CHKSUM_BAD) ∧
    (∀ (doc2 : List Char) (post2 : List (List Char)) (L2 : List Char),
      fgets_lines doc2 = pre ++ L2 :: post2 → L2.take 7 = L.take 7 →
      chksum_igc_file buf1 (some doc2) = chksum_igc_file buf0 (some doc)) := by
  have hdoc : doc = pre.flatten ++ L.take 7 ++ (L.drop 7 ++ post.flatten) := by
    have := fgets_lines_flatten doc
    rw [hls, List.flatten_append, List.flatten_cons] at this
    rw [← this, List.append_assoc, ← List.append_assoc (L.take 7), List.take_append_drop]
  have hLlen : 7 ≤ L.length := by
    have : (cstr L).length ≤ L.length := by
      unfold cstr
      exact (List.takeWhile_sublist _).length_le
    omega
  have hTlen : (L.take 7).length = 7 := by
    rw [List.length_take]; omega
  obtain ⟨_, hnl⟩ := fgets_line_newline doc pre post L hls
  have hTnl : '\n' ∉ (L.take 7).dropLast := by
    intro hm
    rw [List.dropLast_eq_take, hTlen, List.take_take] at hm
    apply hnl
    rw [List.dropLast_eq_take]
    have e6 : List.take (min 6 7) L = (L.take (L.length - 1)).take 6 := by
      rw [List.take_take]
      congr 1
      omega
    have hm2 : '\n' ∈ (L.take (L.length - 1)).take 6 := by
      rw [← e6]
      exact hm
    exact List.mem_of_mem_take hm2
  have hTX : L.take 7 ++ X ≠ [] := by
    intro e
    have := congrArg List.length e
    rw [List.length_append, hTlen] at this
    simp at this
  have hf := fgets_of_ne_nil (L.take 7 ++ X) hTX
  have htake : ((fgets_scan (MAXBUF - 1) (L.take 7 ++ X)).1).take 7 = L.take 7 := by
    have := fgets_scan_take (L.take 7) (MAXBUF - 1) X hTnl (by rw [hTlen]; decide)
    rw [hTlen] at this
    exact this
  have hl2 := fgets_lines_cons (L.take 7 ++ X) _ _ hf
  have hb := fgets_lines_before pre doc L post (L.take 7 ++ X) hls hTX
  rw [hl2] at hb
  have main := igc_result_same buf0 buf1 doc (pre.flatten ++ (L.take 7 ++ X)) pre post _ L _
    hls hb hpre hL hlen htake
  refine ⟨hdoc, ?_, main.2, ?_⟩
  · rw [List.append_assoc]
    exact main.1
  · intro doc2 post2 L2 h2 e
    exact (igc_result_same buf0 buf1 doc doc2 pre post post2 L L2 hls h2 hpre hL hlen e).1

set_option maxRecDepth 1000000 in
theorem verification_ignores_rest_witness :
    fgets_lines "AB\nGKBOK06\nafter\n".toList =
      ["AB\n".toList] ++ "GKBOK06\n".toList :: ["after\n".toList] ∧
    chksum_igc_file [] (some (["AB\n".toList].flatten ++ "GKBOK06\n".toList.take 7 ++
      "XYZ\nGmore lines\n".toList)) =
      chksum_igc_file [] (some "AB\nGKBOK06\nafter\n".toList) :=
  ⟨by decide,
   (verification_ignores_rest [] [] "AB\nGKBOK06\nafter\n".toList ["AB\n".toList]
      ["after\n".toList] "GKBOK06\n".toList "XYZ\nGmore lines\n".toList (by decide)
      (by decide) (by decide) (by decide)).2.1⟩

end MsfsLogger
